import Mathlib

/-!
# Verification of the `automol` graph canonicalization module

A shallow embedding of `automol/graph/base/_canon.py` together with the
graph-core collaborator operations it consumes (those live outside the
canonicalization module; they are modelled from the specification's data
model and external-interface description).

Conventions:
* Dictionaries are represented as association lists kept sorted strictly by
  key; Python `dict` equality is order-insensitive, which this canonical
  representation matches.
* Bond orders are stored in tenths (`ord10`): 0, 10, 20, 30 are the regular
  orders 0–3; 1 is a forming bond (0.1) and 9 is a breaking bond (0.9).
* Python `while` loops become fuel-indexed recursion; running out of fuel is
  the explicit outcome `CErr.fuel` (the Python code would still be looping).
* Failed `assert` statements are modelled with `Except`.
-/

namespace Autochem

/-! ## Sorting and list helpers -/

/-- Stable insertion into a list sorted by the boolean relation `le`. -/
def sinsert (le : α → α → Bool) (x : α) : List α → List α
  | [] => [x]
  | y :: ys => if le x y then x :: y :: ys else y :: sinsert le x ys

/-- Stable insertion sort by the boolean relation `le` (mirrors Python's
stable `sorted`). -/
def ssort (le : α → α → Bool) : List α → List α
  | [] => []
  | x :: xs => sinsert le x (ssort le xs)

/-- Lexicographic comparison of lists by a boolean strict order on elements
(mirrors Python tuple/list comparison). -/
def listLtBy (lt : α → α → Bool) : List α → List α → Bool
  | [], [] => false
  | [], _ :: _ => true
  | _ :: _, [] => false
  | x :: xs, y :: ys => lt x y || (!lt y x && listLtBy lt xs ys)

/-- Group consecutive elements with equal keys (mirrors
`itertools.groupby` applied after sorting). -/
def groupRunsBy (key : α → κ) [DecidableEq κ] : List α → List (List α)
  | [] => []
  | x :: xs =>
    match groupRunsBy key xs with
    | [] => [[x]]
    | (y :: ys) :: gs =>
      if key x = key y then (x :: y :: ys) :: gs else [x] :: (y :: ys) :: gs
    | [] :: gs => [x] :: gs

/-- Remove duplicates from a list whose equal elements are adjacent
(composed with sorting this gives Python `set` → `sorted` semantics). -/
def dedupSorted [DecidableEq α] : List α → List α
  | [] => []
  | [x] => [x]
  | x :: y :: t => if x = y then dedupSorted (y :: t) else x :: dedupSorted (y :: t)

/-- Adjacent-pairs check: the list is a chain under `lt`. -/
def chainOk (lt : α → α → Bool) : List α → Bool
  | [] => true
  | [_] => true
  | a :: b :: t => lt a b && chainOk lt (b :: t)

/-- Boolean `≤` on `Nat`. -/
def natLe (a b : Nat) : Bool := a ≤ b

/-- Boolean `≤` on `Int`. -/
def intLe (a b : Int) : Bool := a ≤ b

/-- Boolean `<` on `Int`. -/
def intLt (a b : Int) : Bool := a < b

/-! ## Association lists (dictionaries) -/

/-- Lookup in an association list (first match, like Python `dict` access
on our canonical duplicate-free lists). -/
def alookup [DecidableEq κ] (l : List (κ × β)) (k : κ) : Option β :=
  match l with
  | [] => none
  | (k', v) :: t => if k = k' then some v else alookup t k

/-- Lookup with a default value. -/
def alookupD [DecidableEq κ] (l : List (κ × β)) (k : κ) (d : β) : β :=
  (alookup l k).getD d

/-- `dict_.transform_values`. -/
def amap (f : β → γ) (l : List (κ × β)) : List (κ × γ) :=
  l.map (fun p => (p.1, f p.2))

/-- Insert/replace a binding, keeping the list sorted by the strict
ordering `lt` on keys. -/
def ainsertBy [DecidableEq κ] (lt : κ → κ → Bool) (k : κ) (v : β) :
    List (κ × β) → List (κ × β)
  | [] => [(k, v)]
  | (k', v') :: t =>
    if lt k k' then (k, v) :: (k', v') :: t
    else if k = k' then (k, v) :: t
    else (k', v') :: ainsertBy lt k v t

/-- Insert/replace a binding in a `Nat`-keyed dictionary. -/
def ainsert (k : Nat) (v : β) (l : List (Nat × β)) : List (Nat × β) :=
  ainsertBy (fun a b => decide (a < b)) k v l

/-- `dict.update`: apply all bindings of `l'` on top of `l`. -/
def aupdate (l l' : List (Nat × β)) : List (Nat × β) :=
  l'.foldl (fun acc p => ainsert p.1 p.2 acc) l

/-- `dict_.by_key(dct, keys, fill_val)`: the sub-dictionary on `keys`
(canonically resorted), filling missing entries with `fill`. -/
def abyKeyD (l : List (Nat × β)) (keys : List Nat) (fill : β) : List (Nat × β) :=
  (ssort natLe keys).map (fun k => (k, alookupD l k fill))

/-! ## Unordered atom-key pairs (bond keys) -/

/-- Normalize an unordered atom-key pair. -/
def bkey (a b : Nat) : Nat × Nat := if a ≤ b then (a, b) else (b, a)

/-- Strict lexicographic order on normalized pairs. -/
def pairLt (a b : Nat × Nat) : Bool := a.1 < b.1 || (a.1 = b.1 && a.2 < b.2)

/-- Non-strict lexicographic order on normalized pairs. -/
def pairLe (a b : Nat × Nat) : Bool := !pairLt b a

/-! ## The graph data model

Modelled from the spec: "set of atom keys (non-negative integers, not
required contiguous); mapping atom-key → symbol, implicit-hydrogen count,
stereo parity (tri-state); mapping unordered atom-key-pair → bond order
(including fractional 0.1/0.9 reserved for forming/breaking bonds) and bond
stereo parity".  Dummy atoms carry the placeholder symbol `"X"`. -/

structure AtomRow where
  symb : String
  hcnt : Nat
  par : Option Bool
deriving DecidableEq, Repr

structure BondRow where
  ord : Nat          -- order in tenths: 0/10/20/30 regular, 1 forming, 9 breaking
  par : Option Bool
deriving DecidableEq, Repr

structure Graph where
  atoms : List (Nat × AtomRow)
  bonds : List ((Nat × Nat) × BondRow)
deriving DecidableEq, Repr

/-- Well-formedness: atom rows sorted strictly by key, bond rows sorted
strictly by normalized key pair, bond endpoints distinct and present among
the atom keys. -/
def Graph.Wf (g : Graph) : Prop :=
  chainOk (fun p q : Nat × AtomRow => decide (p.1 < q.1)) g.atoms = true ∧
  chainOk (fun p q : (Nat × Nat) × BondRow => pairLt p.1 q.1) g.bonds = true ∧
  ∀ p ∈ g.bonds, p.1.1 < p.1.2 ∧
    (p.1.1 ∈ g.atoms.map Prod.fst) ∧ (p.1.2 ∈ g.atoms.map Prod.fst)

instance : DecidablePred Graph.Wf := fun g =>
  inferInstanceAs (Decidable
    (chainOk (fun p q : Nat × AtomRow => decide (p.1 < q.1)) g.atoms = true ∧
     chainOk (fun p q : (Nat × Nat) × BondRow => pairLt p.1 q.1) g.bonds = true ∧
     ∀ p ∈ g.bonds, p.1.1 < p.1.2 ∧
       (p.1.1 ∈ g.atoms.map Prod.fst) ∧ (p.1.2 ∈ g.atoms.map Prod.fst)))

/-! ## Basic graph-core accessors (modelled from the spec) -/

/-- Modelled from the spec: `atom_keys` enumeration from the Graph Core. -/
def atom_keys (g : Graph) : List Nat := g.atoms.map Prod.fst

/-- Modelled from the spec: atom keys restricted to a given element symbol
(`atom_keys(gra, symb='H')`). -/
def atom_keys_symb (g : Graph) (s : String) : List Nat :=
  (g.atoms.filter (fun p => p.2.symb = s)).map Prod.fst

/-- Modelled from the spec: `atom_symbols` getter. -/
def atom_symbols (g : Graph) : List (Nat × String) :=
  g.atoms.map (fun p => (p.1, p.2.symb))

/-- Modelled from the spec: `atom_implicit_hydrogens` getter. -/
def atom_implicit_hydrogens (g : Graph) : List (Nat × Nat) :=
  g.atoms.map (fun p => (p.1, p.2.hcnt))

/-- Modelled from the spec: `atom_stereo_parities` getter (all atoms,
unassigned ones mapping to `none`). -/
def atom_stereo_parities (g : Graph) : List (Nat × Option Bool) :=
  g.atoms.map (fun p => (p.1, p.2.par))

/-- Modelled from the spec: `bond_stereo_parities` getter. -/
def bond_stereo_parities (g : Graph) : List ((Nat × Nat) × Option Bool) :=
  g.bonds.map (fun p => (p.1, p.2.par))

/-- Modelled from the spec: `bond_orders` getter (orders in tenths). -/
def bond_orders (g : Graph) : List ((Nat × Nat) × Nat) :=
  g.bonds.map (fun p => (p.1, p.2.ord))

/-- Modelled from the spec: `atom_stereo_keys` — atoms with an assigned
stereo parity. -/
def atom_stereo_keys (g : Graph) : List Nat :=
  (g.atoms.filter (fun p => p.2.par ≠ none)).map Prod.fst

/-- Modelled from the spec: `bond_stereo_keys`. -/
def bond_stereo_keys (g : Graph) : List (Nat × Nat) :=
  (g.bonds.filter (fun p => p.2.par ≠ none)).map Prod.fst

/-- Modelled from the spec: `has_stereo`. -/
def has_stereo (g : Graph) : Bool :=
  !(atom_stereo_keys g).isEmpty || !(bond_stereo_keys g).isEmpty

/-- Modelled from the spec: `has_atom_stereo`. -/
def has_atom_stereo (g : Graph) : Bool := !(atom_stereo_keys g).isEmpty

/-- Modelled from the spec: `mass_numbers`, derived from element symbols. -/
def massOf (s : String) : Nat :=
  if s = "H" then 1 else if s = "C" then 12 else if s = "N" then 14
  else if s = "O" then 16 else if s = "F" then 19 else if s = "S" then 32
  else if s = "Cl" then 35 else if s = "Br" then 80 else if s = "I" then 127
  else 0

/-- Modelled from the spec: `mass_numbers` getter. -/
def mass_numbers (g : Graph) : List (Nat × Nat) :=
  g.atoms.map (fun p => (p.1, massOf p.2.symb))

/-- Modelled from the spec: `set_atom_stereo_parities` — set the parities
given in the dictionary, leaving other atoms unchanged. -/
def set_atom_stereo_parities (g : Graph) (d : List (Nat × Option Bool)) : Graph :=
  { g with atoms := g.atoms.map (fun p =>
      match alookup d p.1 with
      | some q => (p.1, { p.2 with par := q })
      | none => p) }

/-- Modelled from the spec: `set_bond_stereo_parities`. -/
def set_bond_stereo_parities (g : Graph) (d : List ((Nat × Nat) × Option Bool)) : Graph :=
  { g with bonds := g.bonds.map (fun p =>
      match alookup d p.1 with
      | some q => (p.1, { p.2 with par := q })
      | none => p) }

/-- Modelled from the spec: `without_stereo` — wipe all parities. -/
def without_stereo (g : Graph) : Graph :=
  { atoms := g.atoms.map (fun p => (p.1, { p.2 with par := none }))
    bonds := g.bonds.map (fun p => (p.1, { p.2 with par := none })) }

/-- Modelled from the spec: `without_dummy_atoms` — strip the dummy
(placeholder, symbol `"X"`) atoms and their incident bonds. -/
def without_dummy_atoms (g : Graph) : Graph :=
  let dk := (g.atoms.filter (fun p => p.2.symb = "X")).map Prod.fst
  { atoms := g.atoms.filter (fun p => p.2.symb ≠ "X")
    bonds := g.bonds.filter (fun p => p.1.1 ∉ dk ∧ p.1.2 ∉ dk) }

/-! ## `reflect_local_stereo` (from `_canon.py`) -/

/-- `reflect_local_stereo(gra)`: assuming local stereo parities, reverse
each assigned atom parity. -/
def reflect_local_stereo (g : Graph) : Graph :=
  let atm_par_dct := atom_stereo_parities g
  let atm_par_dct := amap (fun x => x.map not) atm_par_dct
  set_atom_stereo_parities g atm_par_dct

/-! ## Connectivity and derived graph views (modelled from the spec) -/

/-- Bonds of a graph; with `ts = false` the forming bonds (order 0.1) are
ignored, treating a TS graph by its pre-reaction connectivity. -/
def bondsOf (g : Graph) (ts : Bool) : List ((Nat × Nat) × BondRow) :=
  if ts then g.bonds else g.bonds.filter (fun p => p.2.ord ≠ 1)

/-- Modelled from the spec: the bond keys incident to one atom. -/
def atom_bond_keys (g : Graph) (k : Nat) (ts : Bool := true) : List (Nat × Nat) :=
  (bondsOf g ts).filterMap (fun p =>
    if p.1.1 = k ∨ p.1.2 = k then some p.1 else none)

/-- Modelled from the spec: the neighbor keys of one atom (sorted). -/
def atom_neighbor_keys (g : Graph) (k : Nat) (ts : Bool := true) : List Nat :=
  ssort natLe ((bondsOf g ts).filterMap (fun p =>
    if p.1.1 = k then some p.1.2 else if p.1.2 = k then some p.1.1 else none))

/-- Modelled from the spec: `atoms_neighbor_atom_keys`. -/
def atoms_neighbor_atom_keys (g : Graph) (ts : Bool := true) :
    List (Nat × List Nat) :=
  g.atoms.map (fun p => (p.1, atom_neighbor_keys g p.1 ts))

/-- Modelled from the spec: `atoms_bond_keys`. -/
def atoms_bond_keys (g : Graph) (ts : Bool := true) :
    List (Nat × List (Nat × Nat)) :=
  g.atoms.map (fun p => (p.1, atom_bond_keys g p.1 ts))

/-- Modelled from the spec: `without_pi_bonds` — strip pi bonds, demoting
regular orders 2 and 3 to single bonds (reacting bonds kept). -/
def without_pi_bonds (g : Graph) : Graph :=
  { g with bonds := g.bonds.map (fun p =>
      (p.1, { p.2 with ord := if p.2.ord = 20 ∨ p.2.ord = 30 then 10 else p.2.ord })) }

/-- Modelled from the spec: `without_bonds_by_orders` — drop bonds whose
order is in the given list. -/
def without_bonds_by_orders (g : Graph) (ords : List Nat) : Graph :=
  { g with bonds := g.bonds.filter (fun p => decide (p.2.ord ∉ ords)) }

/-- Modelled from the spec: `ts_forming_bond_keys` (order 0.1). -/
def ts_forming_bond_keys (g : Graph) : List (Nat × Nat) :=
  (g.bonds.filter (fun p => p.2.ord = 1)).map Prod.fst

/-- Modelled from the spec: `ts_breaking_bond_keys` (order 0.9). -/
def ts_breaking_bond_keys (g : Graph) : List (Nat × Nat) :=
  (g.bonds.filter (fun p => p.2.ord = 9)).map Prod.fst

/-- Modelled from the spec: `is_ts_graph`. -/
def is_ts_graph (g : Graph) : Bool :=
  !(ts_forming_bond_keys g).isEmpty || !(ts_breaking_bond_keys g).isEmpty

/-- Modelled from the spec: `ts_reverse` — swap forming and breaking
bond orders. -/
def ts_reverse (g : Graph) : Graph :=
  { g with bonds := g.bonds.map (fun p =>
      (p.1, { p.2 with ord := if p.2.ord = 1 then 9
                              else if p.2.ord = 9 then 1 else p.2.ord })) }

/-! ## Backbone and hydrogen bookkeeping (modelled from the spec) -/

/-- Element symbol of an atom key. -/
def atomSymbOf (g : Graph) (k : Nat) : String :=
  ((alookup g.atoms k).map AtomRow.symb).getD ""

/-- Modelled from the spec: a non-backbone hydrogen is a hydrogen atom
bonded to exactly one atom, that atom not itself a hydrogen. -/
def isNonbbH (g : Graph) (p : Nat × AtomRow) : Bool :=
  p.2.symb == "H" &&
    (match atom_neighbor_keys g p.1 true with
     | [n] => atomSymbOf g n != "H"
     | _ => false)

/-- Modelled from the spec: `nonbackbone_hydrogen_keys`. -/
def nonbackbone_hydrogen_keys (g : Graph) : List Nat :=
  (g.atoms.filter (isNonbbH g)).map Prod.fst

/-- Modelled from the spec: `backbone_hydrogen_keys`. -/
def backbone_hydrogen_keys (g : Graph) : List Nat :=
  (g.atoms.filter (fun p => p.2.symb == "H" && !(isNonbbH g p))).map Prod.fst

/-- Modelled from the spec: `backbone_keys(gra, hyd)` — all atoms except
non-backbone hydrogens; with `hyd = false` all hydrogens are excluded. -/
def backbone_keys (g : Graph) (hyd : Bool := true) : List Nat :=
  (g.atoms.filter (fun p =>
    if hyd then !(isNonbbH g p) else p.2.symb != "H")).map Prod.fst

/-- Modelled from the spec: `atom_nonbackbone_hydrogen_keys` — for each
atom, its non-backbone hydrogen neighbors (sorted). -/
def atom_nonbackbone_hydrogen_keys (g : Graph) : List (Nat × List Nat) :=
  let hks := nonbackbone_hydrogen_keys g
  g.atoms.map (fun p =>
    (p.1, (atom_neighbor_keys g p.1 true).filter (fun n => decide (n ∈ hks))))

/-- Modelled from the spec: `implicit` — fold every non-backbone hydrogen
atom into its parent atom's implicit-hydrogen count. -/
def implicit (g : Graph) : Graph :=
  let hks := nonbackbone_hydrogen_keys g
  { atoms := (g.atoms.filter (fun p => decide (p.1 ∉ hks))).map (fun p =>
      (p.1, { p.2 with hcnt := p.2.hcnt +
        ((atom_neighbor_keys g p.1 true).filter (fun n => decide (n ∈ hks))).length }))
    bonds := g.bonds.filter (fun p => decide (p.1.1 ∉ hks) && decide (p.1.2 ∉ hks)) }

/-- Canonically sort a bond row list. -/
def sortBonds (l : List ((Nat × Nat) × BondRow)) : List ((Nat × Nat) × BondRow) :=
  ssort (fun a b => pairLe a.1 b.1) l

/-- Modelled from the spec: `explicit` — materialize every implicit
hydrogen as a new hydrogen atom; fresh keys are allocated past the largest
existing key, parent atoms taken in sorted order. -/
def explicit (g : Graph) : Graph :=
  let start := (atom_keys g).foldl max 0 + 1
  let step := fun (st : Nat × List (Nat × AtomRow) × List ((Nat × Nat) × BondRow))
      (p : Nat × AtomRow) =>
    let ks := (List.range p.2.hcnt).map (· + st.1)
    (st.1 + p.2.hcnt,
     st.2.1 ++ ks.map (fun k => (k, AtomRow.mk "H" 0 none)),
     st.2.2 ++ ks.map (fun k => (bkey p.1 k, BondRow.mk 10 none)))
  let st := g.atoms.foldl step (start, [], [])
  { atoms := g.atoms.map (fun p => (p.1, { p.2 with hcnt := 0 })) ++ st.2.1
    bonds := sortBonds (g.bonds ++ st.2.2) }

/-! ## Connected components (modelled from the spec) -/

/-- One round of neighbor closure. -/
def closureStep (g : Graph) (acc : List Nat) : List Nat :=
  dedupSorted (ssort natLe (acc ++ (acc.map (fun k => atom_neighbor_keys g k true)).flatten))

/-- Iterated neighbor closure; stops at a fixed point. -/
def closureIter (g : Graph) : Nat → List Nat → List Nat
  | 0, acc => acc
  | n + 1, acc =>
    let nxt := closureStep g acc
    if nxt = acc then acc else closureIter g n nxt

/-- Keys of the connected component containing `k`. -/
def component_keys (g : Graph) (k : Nat) : List Nat :=
  closureIter g (g.atoms.length + 1) [k]

/-- The subgraph induced on a key set. -/
def subgraph (g : Graph) (ks : List Nat) : Graph :=
  { atoms := g.atoms.filter (fun p => decide (p.1 ∈ ks))
    bonds := g.bonds.filter (fun p => decide (p.1.1 ∈ ks) && decide (p.1.2 ∈ ks)) }

/-- Auxiliary recursion for `connected_components`. -/
def componentsAux (g : Graph) : List Nat → List Nat → List Graph
  | [], _ => []
  | k :: t, seen =>
    if k ∈ seen then componentsAux g t seen
    else
      let ck := component_keys g k
      subgraph g ck :: componentsAux g t (seen ++ ck)

/-- Modelled from the spec: `connected_components`. -/
def connected_components (g : Graph) : List Graph :=
  componentsAux g (atom_keys g) []

/-- Modelled from the spec: `is_connected` — exactly one component. -/
def is_connected (g : Graph) : Bool :=
  (connected_components g).length = 1

/-- Some bond of the graph joins `a` to `b`. -/
def isNbr (g : Graph) (a b : Nat) : Prop := b ∈ atom_neighbor_keys g a true

/-- Reachability along bonds (reflexive-transitive closure of `isNbr`). -/
def Reach (g : Graph) (a b : Nat) : Prop := Relation.ReflTransGen (isNbr g) a b

/-- No atom of the graph is a dummy (symbol `"X"`) atom. -/
def dummyFree (g : Graph) : Bool := g.atoms.all (fun p => p.2.symb ≠ "X")

/-- The connectivity-and-element skeleton of a graph: the atom keys with
their element symbols, and the bond keys.  Every graph rewrite the driver
applies between refiner calls (parity stripping and setting, TS-direction
reversal) leaves it unchanged. -/
def skel (g : Graph) : List (Nat × String) × List (Nat × Nat) :=
  (g.atoms.map (fun p => (p.1, p.2.symb)), g.bonds.map Prod.fst)

/-! ## Atom-invariant sort values (`sort_evaluator_atom_invariants_`) -/

/-- A priority dictionary: atom key → priority (class id). -/
abbrev PriDct := List (Nat × Int)

/-- A priority class dictionary: class id → member keys (sorted). -/
abbrev ClaDct := List (Int × List Nat)

/-- Encode a tri-state parity for sorting: `False < True < None`
(mirrors `_replace_none`, where `None` becomes `inf`). -/
def parNat : Option Bool → Nat
  | some false => 0
  | some true => 1
  | none => 2

/-- `_normalize_symbol`: carbon sorts first, hydrogen last, all others
alphabetically. -/
def normalizeSymbol (s : String) : String :=
  if s = "C" then "" else if s = "H" then "zz" else s

/-- `_replace_reacting_bond_order`: reacting bonds sort after all
non-reacting ones, forming before breaking (orders in tenths). -/
def replaceReactingBondOrder (o : Nat) : Nat :=
  if o = 1 then 100 else if o = 9 then 900 else o

/-- The atom-invariant sort value: normalized symbol, heavy-atom bond
count, implicit-hydrogen count, mass number, atom parity, sorted bond
parities, sorted (remapped) bond orders, sorted neighbor priorities. -/
structure SortVal where
  symb : String
  deg : Nat
  hnum : Nat
  mnum : Nat
  apar : Nat
  bpars : List Nat
  bords : List Nat
  nidxs : List Int
deriving DecidableEq, Repr

/-- Alphabetical rank of a normalized symbol over the supported element
set ("" for carbon first, "zz" for hydrogen last); a stand-in for Python
string comparison, which does not reduce in this kernel. -/
def symbRank (s : String) : Nat :=
  if s = "" then 0 else if s = "Br" then 1 else if s = "Cl" then 2
  else if s = "F" then 3 else if s = "I" then 4 else if s = "N" then 5
  else if s = "O" then 6 else if s = "S" then 7 else if s = "X" then 8
  else if s = "zz" then 10 else 9

/-- Lexicographic comparison of sort values (mirrors Python tuple
comparison). -/
def sortValLt (a b : SortVal) : Bool :=
  if a.symb ≠ b.symb then decide (symbRank a.symb < symbRank b.symb)
  else if a.deg ≠ b.deg then decide (a.deg < b.deg)
  else if a.hnum ≠ b.hnum then decide (a.hnum < b.hnum)
  else if a.mnum ≠ b.mnum then decide (a.mnum < b.mnum)
  else if a.apar ≠ b.apar then decide (a.apar < b.apar)
  else if a.bpars ≠ b.bpars then listLtBy (fun x y => decide (x < y)) a.bpars b.bpars
  else if a.bords ≠ b.bords then listLtBy (fun x y => decide (x < y)) a.bords b.bords
  else listLtBy (fun x y : Int => decide (x < y)) a.nidxs b.nidxs

/-- Non-strict version of `sortValLt`, for stable sorting. -/
def sortValLe (a b : SortVal) : Bool := !(sortValLt b a)

/-- `sort_evaluator_atom_invariants_(gra)(pri_dct)(key)`. -/
def sort_evaluator_atom_invariants_ (gra0 : Graph) (pri_dct : PriDct)
    (key : Nat) : SortVal :=
  let gra := without_pi_bonds (implicit gra0)
  let gra_no_rxbs := without_bonds_by_orders gra [1, 9]
  let bnds_no_rxbs := atom_bond_keys gra_no_rxbs key true
  let symb := normalizeSymbol (atomSymbOf gra_no_rxbs key)
  let hnum := ((alookup gra_no_rxbs.atoms key).map AtomRow.hcnt).getD 0
  let mnum := massOf (atomSymbOf gra_no_rxbs key)
  let apar := parNat (((alookup gra_no_rxbs.atoms key).map AtomRow.par).getD none)
  let bpar_dct := bond_stereo_parities gra_no_rxbs
  let bpars := ssort natLe (bnds_no_rxbs.map (fun b => parNat (alookupD bpar_dct b none)))
  let bord_dct := bond_orders gra
  let bords := ssort natLe ((atom_bond_keys gra key true).map
      (fun b => replaceReactingBondOrder (alookupD bord_dct b 0)))
  let nkeys := atom_neighbor_keys gra key true
  let nidxs := ssort intLe (nkeys.map (fun n => alookupD pri_dct n 0))
  SortVal.mk symb bnds_no_rxbs.length hnum mnum apar bpars bords nidxs

/-! ## Priority classes -/

/-- `class_dict_from_priority_dict`: class id → sorted member keys. -/
def class_dict_from_priority_dict (pri : PriDct) : ClaDct :=
  let keys := ssort natLe (pri.map Prod.fst)
  let clas := ssort (fun a b => intLe (alookupD pri a 0) (alookupD pri b 0)) keys
  (groupRunsBy (fun k => alookupD pri k 0) clas).map
    (fun grp => (alookupD pri (grp.headD 0) 0, grp))

/-- `sorted_classes_from_priority_dict`. -/
def sorted_classes_from_priority_dict (pri : PriDct) : List (List Nat) :=
  let keys := ssort natLe (pri.map Prod.fst)
  let clas := ssort (fun a b => intLe (alookupD pri a 0) (alookupD pri b 0)) keys
  groupRunsBy (fun k => alookupD pri k 0) clas

/-- Decidable equality of `Except` results. -/
instance {ε α : Type} [DecidableEq ε] [DecidableEq α] :
    DecidableEq (Except ε α) := fun a b =>
  match a, b with
  | .error e, .error e' =>
    if h : e = e' then .isTrue (by rw [h]) else .isFalse (by simp [h])
  | .ok v, .ok v' =>
    if h : v = v' then .isTrue (by rw [h]) else .isFalse (by simp [h])
  | .error _, .ok _ => .isFalse (by simp)
  | .ok _, .error _ => .isFalse (by simp)

/-! ## Errors -/

/-- Failure modes: the two refiner precondition assertions, neighbor-count
assertions in the stereogenicity detectors, the parity consistency check of
`canonical_keys`, and fuel exhaustion (the Python loop would still be
running). -/
inductive CErr where
  | notConnected
  | dummyAtoms
  | fuel
  | atomArity (k : Nat)
  | bondArity (k1 k2 : Nat)
  | atomParityMismatch (expected actual : List (Nat × Option Bool))
  | bondParityMismatch (expected actual : List ((Nat × Nat) × Option Bool))
deriving DecidableEq, Repr

/-! ## `refine_priorities` -/

/-- The re-evaluation queue: priority classes with more than one member, in
descending class-id order (`sorted(new_cla_dct.items(), reverse=True)`). -/
def buildQueue (pri : PriDct) : List (Int × List Nat) :=
  ((class_dict_from_priority_dict pri).filter (fun p => p.2.length > 1)).reverse

/-- The main refinement loop of `refine_priorities`.  Pops a queued class,
sorts and partitions it by sort value, assigns stable new class ids to the
partitions, and queues the neighboring classes of split atoms. -/
def refineAux (srt : PriDct → Nat → SortVal) (ngbOf : Nat → List Nat) :
    Nat → PriDct → ClaDct → List (Int × List Nat) → Except CErr PriDct
  | 0, _, _, _ => .error .fuel
  | _ + 1, pri, _, [] => .ok pri
  | fuel + 1, pri, cla_dct, (idx, cla) :: rest =>
    let srtv := srt pri
    let cla := ssort (fun a b => sortValLe (srtv a) (srtv b)) cla
    let parts := groupRunsBy srtv cla
    if parts.length ≤ 1 then
      refineAux srt ngbOf fuel pri cla_dct rest
    else
      let step := fun (st : PriDct × ClaDct × List Int × Int) (part : List Nat) =>
        (part.foldl (fun d k => ainsert k st.2.2.2 d) st.1,
         ainsertBy intLt st.2.2.2 part st.2.1,
         st.2.2.1 ++ [st.2.2.2],
         st.2.2.2 + (part.length : Int))
      let st := parts.foldl step (pri, cla_dct, ([] : List Int), idx)
      let pri' := st.1
      let cla_dct' := st.2.1
      let new_idxs := st.2.2.1
      let ngb_keys := (new_idxs.map (fun i =>
          ((alookupD cla_dct' i []).map ngbOf).flatten)).flatten
      let queued := rest.map Prod.fst
      let ngb_idxs := (dedupSorted (ssort intLe
          (ngb_keys.map (fun k => alookupD pri' k 0)))).filter
          (fun i => decide (i ∉ queued))
      let enq := ngb_idxs.filter (fun i => (alookupD cla_dct' i []).length > 1)
      refineAux srt ngbOf fuel pri' cla_dct'
        ((enq.map (fun i => (i, alookupD cla_dct' i []))).reverse ++ rest)

/-- Fuel bound used for the canonicalization loops. -/
def refine_fuel (g : Graph) : Nat := (g.atoms.length + 2) ^ 3

/-- `refine_priorities(gra, pri_dct)`: asserts a connected, dummy-free
graph, fills missing priorities with 0 over the implicit graph's atoms,
and runs the refinement loop to a fixed point. -/
def refine_priorities (gra : Graph) (pri? : Option PriDct) : Except CErr PriDct :=
  if !(is_connected gra) then .error .notConnected
  else if gra ≠ without_dummy_atoms gra then .error .dummyAtoms
  else
    let igra := implicit gra
    let pri := abyKeyD (pri?.getD []) (atom_keys igra) 0
    let ngbd := atoms_neighbor_atom_keys igra true
    refineAux (sort_evaluator_atom_invariants_ igra)
      (fun k => alookupD ngbd k []) (refine_fuel igra)
      pri (class_dict_from_priority_dict pri) (buildQueue pri)

/-! ## `break_priority_ties` -/

/-- The tie-breaking loop: pop the queued class (the implementation orders
the queue descending by class id), promote its last member to class id
`idx + len - 1`, re-refine, and rebuild the queue. -/
def breakAux (gra : Graph) : Nat → PriDct → List (Int × List Nat) →
    Except CErr PriDct
  | 0, _, _ => .error .fuel
  | _ + 1, pri, [] => .ok pri
  | fuel + 1, pri, (idx, cla) :: _rest =>
    let new_idx := idx + (cla.length : Int) - 1
    let pri := ainsert (cla.getLastD 0) new_idx pri
    match refine_priorities gra (some pri) with
    | .error e => .error e
    | .ok pri' => breakAux gra fuel pri' (buildQueue pri')

/-- `break_priority_ties(gra, pri_dct)`. -/
def break_priority_ties (gra : Graph) (pri : PriDct) : Except CErr PriDct :=
  if !(is_connected gra) then .error .notConnected
  else if gra ≠ without_dummy_atoms gra then .error .dummyAtoms
  else breakAux gra (refine_fuel gra) pri (buildQueue pri)

/-- The queue ordered ascending by class id, as the claim's words have it
("pick the lowest-priority class, ties broken by ascending class id"). -/
def buildQueueAsc (pri : PriDct) : List (Int × List Nat) :=
  (class_dict_from_priority_dict pri).filter (fun p => p.2.length > 1)

/-- Tie-breaking as worded in the claim: repeatedly pick the
lowest-priority multi-member class, promote its last member by atom-key
order to class id `idx + len - 1`, and re-refine.  Written from the
claim's words, for comparison with `break_priority_ties`. -/
def breakLowAux (gra : Graph) : Nat → PriDct → List (Int × List Nat) →
    Except CErr PriDct
  | 0, _, _ => .error .fuel
  | _ + 1, pri, [] => .ok pri
  | fuel + 1, pri, (idx, cla) :: _rest =>
    let new_idx := idx + (cla.length : Int) - 1
    let pri := ainsert (cla.getLastD 0) new_idx pri
    match refine_priorities gra (some pri) with
    | .error e => .error e
    | .ok pri' => breakLowAux gra fuel pri' (buildQueueAsc pri')

/-- The claim's tie-breaking procedure, lowest-priority class first. -/
def break_priority_ties_lowest_first (gra : Graph) (pri : PriDct) :
    Except CErr PriDct :=
  if !(is_connected gra) then .error .notConnected
  else if gra ≠ without_dummy_atoms gra then .error .dummyAtoms
  else breakLowAux gra (refine_fuel gra) pri (buildQueueAsc pri)

/-! ## Hydrogen priorities (`assign_hydrogen_priorities`) -/

/-- Maximum of a list of integers (0 for the empty list; Python's `max`
would raise there, but the call site guarantees non-emptiness). -/
def maxD : List Int → Int
  | [] => 0
  | v :: t => t.foldl max v

/-- Sort keys ascending by priority (ties by ascending key, our
deterministic stand-in for Python's set-iteration order). -/
def sortByPriority (pri : PriDct) (keys : List Nat) : List Nat :=
  ssort (fun a b => intLe (alookupD pri a 0) (alookupD pri b 0))
    (ssort natLe keys)

/-- `assign_hydrogen_priorities(gra, pri_dct, break_ties, neg)`: assign
priorities to non-backbone hydrogens — grouped under their parent atom's
class when not breaking ties, else uniquely numbered — and optionally
negate all hydrogen priorities. -/
def assign_hydrogen_priorities (gra : Graph) (pri_dct : PriDct)
    (break_ties : Bool) (neg : Bool) : PriDct :=
  let pri := pri_dct
  let hyd_keys_pool := nonbackbone_hydrogen_keys gra
  let graF := if hyd_keys_pool.isEmpty then gra else explicit gra
  let pri :=
    if hyd_keys_pool.isEmpty then pri
    else
      let bbn_keys := sortByPriority pri (backbone_keys gra true)
      let bbn_pri_dct := abyKeyD pri bbn_keys 0
      let hyd_keys_dct := atom_nonbackbone_hydrogen_keys graF
      let next_idx := maxD (bbn_pri_dct.map Prod.snd) + 1
      let hyd_pri_dct :=
        if !break_ties then
          let bbn_parts := sorted_classes_from_priority_dict pri
          let hyd_parts := bbn_parts.map (fun part =>
            (part.map (fun k => alookupD hyd_keys_dct k [])).flatten)
          (hyd_parts.foldl (fun (st : PriDct × Int) hyd_part =>
              (st.1 ++ hyd_part.map (fun k => (k, st.2)),
               st.2 + (hyd_part.length : Int)))
            ([], next_idx)).1
        else
          let srt_hyd_keys := (bbn_keys.map (fun k => alookupD hyd_keys_dct k [])).flatten
          srt_hyd_keys.enum.map (fun p => (p.2, next_idx + (p.1 : Int)))
      aupdate pri (abyKeyD hyd_pri_dct hyd_keys_pool 0)
  if neg then
    let all_hyd_keys := atom_keys_symb graF "H"
    pri.map (fun p => if p.1 ∈ all_hyd_keys then (p.1, -(|p.2|)) else p)
  else pri

/-! ## Stereogenicity detection -/

/-- A stereocenter key: an atom or an (unordered, normalized) bond. -/
inductive SKey where
  | atm (k : Nat)
  | bnd (k : Nat × Nat)
deriving DecidableEq, Repr

/-- Modelled from the spec: tetrahedral (atom-stereocenter-capable) atoms
have 3–4 neighbor connections, implicit hydrogens included. -/
def tetrahedral_atom_keys (g : Graph) : List Nat :=
  (g.atoms.filter (fun p =>
    let c := (atom_neighbor_keys g p.1 true).length + p.2.hcnt
    3 ≤ c && c ≤ 4)).map Prod.fst

/-- Modelled from the spec: element valences, for deciding which bonds are
double-bond-like. -/
def valenceOf (s : String) : Nat :=
  if s = "H" then 1 else if s = "C" then 4 else if s = "N" then 3
  else if s = "O" then 2 else if s = "F" then 1 else if s = "S" then 2
  else if s = "Cl" then 1 else if s = "Br" then 1 else if s = "I" then 1
  else 0

/-- An atom with spare valence (one that could carry a double bond). -/
def unsaturated (g : Graph) (k : Nat) : Bool :=
  let r := (alookup g.atoms k).getD (AtomRow.mk "" 0 none)
  valenceOf r.symb > (atom_neighbor_keys g k true).length + r.hcnt

/-- Modelled from the spec: "rigid/planar double-bond-like bonds" — bonds
both of whose end atoms have spare valence. -/
def rigid_planar_bond_keys (g : Graph) : List (Nat × Nat) :=
  (g.bonds.map Prod.fst).filter (fun p => unsaturated g p.1 && unsaturated g p.2)

/-- Is there a simple path of at most `n` edges from `src` to `dst`
avoiding the atoms in `avoid`?  (Forming bonds are ignored, `ts = false`.) -/
def pathWithin (g : Graph) : Nat → Nat → Nat → List Nat → Bool
  | 0, src, dst, _ => src == dst
  | n + 1, src, dst, avoid =>
    src == dst ||
      (atom_neighbor_keys g src false).any (fun m =>
        decide (m ∉ avoid) && pathWithin g n m dst (src :: avoid))

/-- Modelled from the spec: the bond `{a, b}` lies on a ring of fewer than
8 atoms — a simple cycle of length at most 7 (reacting/forming bonds not
treated as ring bonds, matching `rings_bond_keys(gra, ts_=False)`). -/
def in_small_ring (g : Graph) (a b : Nat) : Bool :=
  ((atom_neighbor_keys g a false).filter (fun m => m ≠ b)).any
    (fun m => pathWithin g 5 m b [a])

/-- Modelled from the spec: the stereo-sorted neighbor keys of an atom —
its neighbors sorted ascending by priority (ties by key). -/
def atom_stereo_sorted_neighbor_keys (g : Graph) (k : Nat) (pri : PriDct) :
    List Nat :=
  sortByPriority pri (atom_neighbor_keys g k true)

/-- Modelled from the spec: for a bond, each end's neighbors other than
the bond partner, sorted ascending by priority. -/
def bond_stereo_sorted_neighbor_keys (g : Graph) (k1 k2 : Nat) (pri : PriDct) :
    List Nat × List Nat :=
  (sortByPriority pri ((atom_neighbor_keys g k1 true).filter (fun m => m ≠ k2)),
   sortByPriority pri ((atom_neighbor_keys g k2 true).filter (fun m => m ≠ k1)))

/-- Pairwise-distinct priorities (`len(set(pris)) == len(pris)`). -/
def prisAllDistinct (pri : PriDct) (nkeys : List Nat) : Bool :=
  let pris := nkeys.map (fun n => alookupD pri n 0)
  (dedupSorted (ssort intLe pris)).length = pris.length

/-- `stereogenic_atom_keys_from_priorities(gra, pri_dct, assigned)`. -/
def stereogenic_atom_keys_from_priorities (gra0 : Graph) (pri0 : PriDct)
    (assigned : Bool) : Except CErr (List Nat) :=
  let gra := explicit (without_pi_bonds gra0)
  let pri := assign_hydrogen_priorities gra pri0 false false
  let atm_keys := tetrahedral_atom_keys gra
  let atm_keys :=
    if !assigned then
      atm_keys.filter (fun k => decide (k ∉ atom_stereo_keys gra))
    else atm_keys
  match atm_keys.find? (fun k =>
      (atom_stereo_sorted_neighbor_keys gra k pri).length > 4) with
  | some k => .error (.atomArity k)
  | none => .ok (atm_keys.filter (fun k =>
      prisAllDistinct pri (atom_stereo_sorted_neighbor_keys gra k pri)))

/-- One end of a candidate bond is stereo-distinguishing: never with zero
substituents, automatically with one (a lone pair), and with two exactly
when their priorities differ. -/
def bondEndOk (pri : PriDct) (nkeys : List Nat) : Bool :=
  match nkeys with
  | [] => false
  | [_] => true
  | _ => prisAllDistinct pri nkeys

/-- `stereogenic_bond_keys_from_priorities(gra, pri_dct, assigned)`. -/
def stereogenic_bond_keys_from_priorities (gra0 : Graph) (pri0 : PriDct)
    (assigned : Bool) : Except CErr (List (Nat × Nat)) :=
  let gra := explicit (without_pi_bonds gra0)
  let pri := assign_hydrogen_priorities gra pri0 false false
  let bnd_keys := rigid_planar_bond_keys gra
  let bnd_keys :=
    if !assigned then
      bnd_keys.filter (fun p => decide (p ∉ bond_stereo_keys gra))
    else bnd_keys
  let bnd_keys := bnd_keys.filter (fun p => !(in_small_ring gra p.1 p.2))
  match bnd_keys.find? (fun p =>
      (bond_stereo_sorted_neighbor_keys gra p.1 p.2 pri).1.length > 2 ||
      (bond_stereo_sorted_neighbor_keys gra p.1 p.2 pri).2.length > 2) with
  | some p => .error (.bondArity p.1 p.2)
  | none => .ok (bnd_keys.filter (fun p =>
      bondEndOk pri (bond_stereo_sorted_neighbor_keys gra p.1 p.2 pri).1 &&
      bondEndOk pri (bond_stereo_sorted_neighbor_keys gra p.1 p.2 pri).2))

/-- `stereogenic_keys_from_priorities(gra, pri_dct, assigned)`. -/
def stereogenic_keys_from_priorities (gra : Graph) (pri : PriDct)
    (assigned : Bool) : Except CErr (List SKey) :=
  match stereogenic_atom_keys_from_priorities gra pri assigned with
  | .error e => .error e
  | .ok aks =>
    match stereogenic_bond_keys_from_priorities gra pri assigned with
    | .error e => .error e
    | .ok bks => .ok (aks.map SKey.atm ++ bks.map SKey.bnd)

/-- The condition C9 states for membership in
`stereogenic_bond_keys_from_priorities`: a rigid/planar candidate bond,
not in a small ring, not already assigned (unless `assigned`), whose two
ends each are distinguishing: non-empty substituents, and either a single
substituent (lone-pair end) or substituents of pairwise distinct
priorities. -/
def steBondCond (gra0 : Graph) (pri0 : PriDct) (assigned : Bool)
    (b : Nat × Nat) : Prop :=
  let gra := explicit (without_pi_bonds gra0)
  let pri := assign_hydrogen_priorities gra pri0 false false
  let n1 := (bond_stereo_sorted_neighbor_keys gra b.1 b.2 pri).1
  let n2 := (bond_stereo_sorted_neighbor_keys gra b.1 b.2 pri).2
  b ∈ rigid_planar_bond_keys gra ∧
  (assigned = false → b ∉ bond_stereo_keys gra) ∧
  in_small_ring gra b.1 b.2 = false ∧
  (n1 ≠ [] ∧ (n1.length = 1 ∨ prisAllDistinct pri n1 = true)) ∧
  (n2 ≠ [] ∧ (n2.length = 1 ∨ prisAllDistinct pri n2 = true))

/-! ## Parity evaluators -/

/-- The two parity-evaluator strategies the claims exercise, as a tagged
strategy type (the spec's own §9 design note).  The from-geometry
evaluator is out of scope here: none of the claims concern it. -/
inductive PEval where
  | readCanonical
  | flipLocal
deriving DecidableEq, Repr

/-- Order on local priorities, `none` standing for `-inf`. -/
def lpLe (a b : Option Int) : Bool :=
  match a, b with
  | none, _ => true
  | some _, none => false
  | some x, some y => x ≤ y

/-- Strict version of `lpLe`. -/
def lpLt (a b : Option Int) : Bool := !(lpLe b a)

/-- `local_priority_dict(gra)`: backbone non-hydrogen keys map to
themselves, backbone hydrogens to their negatives, non-backbone hydrogens
to `-inf`. -/
def local_priority_dict (g : Graph) : List (Nat × Option Int) :=
  g.atoms.map (fun p =>
    if isNonbbH g p then (p.1, none)
    else if p.2.symb == "H" then (p.1, some (-(p.1 : Int)))
    else (p.1, some (p.1 : Int)))

/-- Modelled from the spec: `util.is_even_permutation(seq1, seq2)` — the
permutation carrying `seq1` to `seq2` is even. -/
def inversions : List Nat → Nat
  | [] => 0
  | x :: t => (t.filter (fun y => decide (y < x))).length + inversions t

/-- Parity of the permutation taking `xs` to `ys`. -/
def is_even_permutation (xs ys : List Nat) : Bool :=
  inversions (xs.map (fun a => ys.indexOf a)) % 2 == 0

/-- Python's `not x` on a tri-state parity: `not None` is `True`. -/
def pyNot : Option Bool → Option Bool
  | some b => some (!b)
  | none => some true

/-- Python's `max(keys, key=loc_pri)`: first maximal element. -/
def maxByLoc (loc : List (Nat × Option Int)) : List Nat → Nat
  | [] => 0
  | x :: t => t.foldl (fun acc y =>
      if lpLt (alookupD loc acc none) (alookupD loc y none) then y else acc) x

/-- `parity_evaluator_read_canonical_()`: parities stored on the graph are
taken as canonical as-is; priorities are not consulted. -/
def peval_read_canonical (gra : Graph) (_pri : PriDct) (key : SKey) :
    Option Bool :=
  match key with
  | .atm k => alookupD (atom_stereo_parities gra) k none
  | .bnd b => alookupD (bond_stereo_parities gra) b none

/-- `parity_evaluator_flip_local_()`: converts between canonical and local
parities by comparing the priority-sorted and key-sorted neighbor
orderings (atom case: permutation parity; bond case: whether the
higher-priority substituent is the same on both ends). -/
def peval_flip_local (gra0 : Graph) (pri0 : PriDct) (key : SKey) :
    Option Bool :=
  let gra := explicit gra0
  let loc := local_priority_dict gra
  let pri := assign_hydrogen_priorities gra pri0 false true
  match key with
  | .atm k =>
    let par := alookupD (atom_stereo_parities gra) k none
    let can_srt := atom_stereo_sorted_neighbor_keys gra k pri
    let loc_srt := ssort (fun a b =>
        lpLe (alookupD loc a none) (alookupD loc b none)) can_srt
    if is_even_permutation loc_srt can_srt then par else pyNot par
  | .bnd b =>
    let par := alookupD (bond_stereo_parities gra) b none
    let nk := bond_stereo_sorted_neighbor_keys gra b.1 b.2 pri
    let can_nmax1 := nk.1.getLastD 0
    let can_nmax2 := nk.2.getLastD 0
    let loc_nmax1 := maxByLoc loc nk.1
    let loc_nmax2 := maxByLoc loc nk.2
    if !((loc_nmax1 == can_nmax1) ^^ (loc_nmax2 == can_nmax2)) then par
    else pyNot par

/-- Dispatch a strategy tag to its evaluator. -/
def peval : PEval → Graph → PriDct → SKey → Option Bool
  | .readCanonical => peval_read_canonical
  | .flipLocal => peval_flip_local

/-! ## Stereo parities as a mixed-key dictionary -/

/-- Modelled from the spec: `stereo_parities` — parities of all atoms and
bonds, keyed by stereocenter key. -/
def stereo_parities (g : Graph) : List (SKey × Option Bool) :=
  (g.atoms.map (fun p => (SKey.atm p.1, p.2.par))) ++
  (g.bonds.map (fun p => (SKey.bnd p.1, p.2.par)))

/-- Modelled from the spec: `set_stereo_parities` for a mixed-key
dictionary. -/
def set_stereo_parities (g : Graph) (d : List (SKey × Option Bool)) : Graph :=
  { atoms := g.atoms.map (fun p =>
      match alookup d (SKey.atm p.1) with
      | some q => (p.1, { p.2 with par := q })
      | none => p)
    bonds := g.bonds.map (fun p =>
      match alookup d (SKey.bnd p.1) with
      | some q => (p.1, { p.2 with par := q })
      | none => p) }

/-! ## Stereo-assignment and TS-direction representations -/

/-- Strict lexicographic comparison of integer lists. -/
def priListLt (a b : List Int) : Bool := listLtBy intLt a b

/-- Comparison of one representation item `(priorities, parity)` (parities
encoded `False < True < None`). -/
def repItemLt (x y : List Int × Option Bool) : Bool :=
  priListLt x.1 y.1 || (x.1 = y.1 && parNat x.2 < parNat y.2)

/-- Lexicographic comparison of stereo-assignment representations. -/
def repLt (a b : List (List Int × Option Bool)) : Bool := listLtBy repItemLt a b

/-- `stereo_assignment_representation(gra, pri_dct)`: for all stereocenters
sorted by priority, the (priorities, parity) pairs. -/
def stereo_assignment_representation (gra : Graph) (pri : PriDct) :
    List (List Int × Option Bool) :=
  let priOf := fun k => alookupD pri k 0
  let atm_keys := sortByPriority pri (atom_stereo_keys gra)
  let sortedPris := fun (b : Nat × Nat) => ssort intLe [priOf b.1, priOf b.2]
  let bnd_keys := ssort (fun a b => !(priListLt (sortedPris b) (sortedPris a)))
      (ssort pairLe (bond_stereo_keys gra))
  (atm_keys.map (fun k => ([priOf k], alookupD (atom_stereo_parities gra) k none))) ++
  (bnd_keys.map (fun b => (sortedPris b, alookupD (bond_stereo_parities gra) b none)))

/-- `is_canonical_enantiomer(ugra, upri_dct, rgra, rpri_dct)`: `True` if
the unreflected representation is smaller, `False` if greater, `None` if
equal. -/
def is_canonical_enantiomer (ugra : Graph) (upri : PriDct)
    (rgra : Graph) (rpri : PriDct) : Option Bool :=
  let urep := stereo_assignment_representation ugra upri
  let rrep := stereo_assignment_representation rgra rpri
  if repLt urep rrep then some true
  else if repLt rrep urep then some false
  else none

/-- The TS-direction representation: bond counts, canonical-priority
signatures of forming and breaking bonds, then the stereo representation. -/
structure TsRep where
  nums : Nat × Nat
  frm : List (List Int)
  brk : List (List Int)
  ste : List (List Int × Option Bool)
deriving DecidableEq, Repr

/-- Strict lexicographic comparison of `Nat` pairs. -/
def natPairLt (a b : Nat × Nat) : Bool := a.1 < b.1 || (a.1 = b.1 && a.2 < b.2)

/-- Lexicographic comparison of lists of priority lists. -/
def listListIntLt (a b : List (List Int)) : Bool := listLtBy priListLt a b

/-- Lexicographic comparison of TS-direction representations. -/
def tsRepLt (x y : TsRep) : Bool :=
  natPairLt x.nums y.nums || (x.nums = y.nums && (
    listListIntLt x.frm y.frm || (x.frm = y.frm && (
      listListIntLt x.brk y.brk || (x.brk = y.brk && repLt x.ste y.ste)))))

/-- `ts_direction_representation(tsg, pri_dct)`. -/
def ts_direction_representation (tsg : Graph) (pri : PriDct) : TsRep :=
  let frm_keys := ts_forming_bond_keys tsg
  let brk_keys := ts_breaking_bond_keys tsg
  let sortedPris := fun (b : Nat × Nat) =>
    ssort intLe [alookupD pri b.1 0, alookupD pri b.2 0]
  { nums := (frm_keys.length, brk_keys.length)
    frm := ssort (fun a b => !(priListLt b a)) (frm_keys.map sortedPris)
    brk := ssort (fun a b => !(priListLt b a)) (brk_keys.map sortedPris)
    ste := stereo_assignment_representation tsg pri }

/-- `ts_is_canonical_direciton(ftsg, fpri_dct, rtsg, rpri_dct)` (the
source's own spelling). -/
def ts_is_canonical_direciton (ftsg : Graph) (fpri : PriDct)
    (rtsg : Graph) (rpri : PriDct) : Bool :=
  let ftsg := implicit ftsg
  let fpri := abyKeyD fpri (atom_keys ftsg) 0
  let frep := ts_direction_representation ftsg fpri
  let rtsg := implicit rtsg
  let rpri := abyKeyD rpri (atom_keys rtsg) 0
  let rrep := ts_direction_representation rtsg rpri
  tsRepLt frep rrep

/-! ## The canonicalization driver -/

/-- Fuel for the driver's fixed-point loop. -/
def algo_fuel (g : Graph) : Nat := (g.atoms.length + 2) ^ 2

/-- The driver's fixed-point loop (`while pri_dct0 != pri_dct1`): refine
priorities on graph 1, find newly stereogenic sites, and assign their
parities to graph 1 via evaluator 1 (driving further refinement) and to
graph 2 via evaluator 2 (the parities ultimately returned).  `prev` is
`none` for the Python sentinel `pri_dct0 = 0` of the first iteration. -/
def algoLoop (pe1 pe2 : PEval) (gra0 : Graph) :
    Nat → Option (Option PriDct) → Option PriDct → Graph → Graph →
    Except CErr (PriDct × Graph × Graph)
  | 0, _, _, _, _ => .error .fuel
  | fuel + 1, prev, cur, gra1, gra2 =>
    if prev = some cur then .ok (cur.getD [], gra1, gra2)
    else
      match refine_priorities gra1 cur with
      | .error e => .error e
      | .ok p1 =>
        match stereogenic_keys_from_priorities gra1 p1 false with
        | .error e => .error e
        | .ok keys =>
          if keys.isEmpty then .ok (p1, gra1, gra2)
          else
            algoLoop pe1 pe2 gra0 fuel (some cur) (some p1)
              (set_stereo_parities gra1 (keys.map (fun k => (k, peval pe1 gra0 p1 k))))
              (set_stereo_parities gra2 (keys.map (fun k => (k, peval pe2 gra0 p1 k))))

/-- The driver's `_algo(gra_, pri_dct_, ts_rev)`: optionally reverse the
TS direction, strip stereo into graphs 1 and 2, iterate, and restore the
direction of graph 2. -/
def algo (pe1 pe2 : PEval) (gra_ : Graph) (pri_ : Option PriDct)
    (ts_rev : Bool) : Except CErr (PriDct × Graph × Graph) :=
  let gra0 := if ts_rev then ts_reverse gra_ else gra_
  let g12 := without_stereo gra0
  match algoLoop pe1 pe2 gra0 (algo_fuel gra_) none pri_ g12 g12 with
  | .error e => .error e
  | .ok (pri, gra1, gra2) =>
    .ok (pri, gra1, if ts_rev then ts_reverse gra2 else gra2)

/-- `_calculate_priorities_and_assign_stereo` — the per-component driver:
the fixed-point loop, the TS-direction comparison, optional tie breaking,
and optional hydrogen-priority assignment. -/
def calculate_priorities_and_assign_stereo_comp (gra : Graph)
    (pe1? pe2? : Option PEval) (break_ties backbone_only : Bool)
    (pri? : Option PriDct) : Except CErr (PriDct × Graph) :=
  let pe1 := pe1?.getD .readCanonical
  let pe2 := pe2?.getD pe1
  match algo pe1 pe2 gra pri? false with
  | .error e => .error e
  | .ok (pri, gra1, gra2) =>
    let step2 : Except CErr (PriDct × Graph × Graph) :=
      if is_ts_graph gra then
        match algo pe1 pe2 gra (some pri) true with
        | .error e => .error e
        | .ok (rpri, rgra1, rgra2) =>
          if !(ts_is_canonical_direciton gra1 pri rgra1 rpri) then
            .ok (rpri, rgra1, rgra2)
          else .ok (pri, gra1, gra2)
      else .ok (pri, gra1, gra2)
    match step2 with
    | .error e => .error e
    | .ok (pri, gra1, gra2) =>
      match (if break_ties then break_priority_ties gra1 pri else .ok pri) with
      | .error e => .error e
      | .ok pri' =>
        let pri'' := if !backbone_only then
            assign_hydrogen_priorities gra pri' break_ties false
          else pri'
        .ok (pri'', gra2)

/-- `calculate_priorities_and_assign_stereo(gra, ...)` — the public entry
point: strip dummy atoms, split into connected components, run the
per-component driver, and merge priorities and parities. -/
def calculate_priorities_and_assign_stereo (gra : Graph)
    (pe1? pe2? : Option PEval) (break_ties backbone_only : Bool)
    (pri? : Option PriDct) : Except CErr (PriDct × Graph) :=
  let gra2 := without_stereo gra
  let g := without_dummy_atoms gra
  let cgras := connected_components g
  cgras.foldl (fun acc cgra =>
    match acc with
    | .error e => .error e
    | .ok (pri_dct, gra2) =>
      let cpri? := pri?.map (fun d => abyKeyD d (atom_keys cgra) 0)
      match calculate_priorities_and_assign_stereo_comp cgra pe1? pe2?
          break_ties backbone_only cpri? with
      | .error e => .error e
      | .ok (cpri, cgra2) =>
        .ok (aupdate pri_dct cpri,
             set_stereo_parities gra2 (stereo_parities cgra2)))
    (.ok ([], gra2))

/-- `canonical_priorities(gra, backbone_only, break_ties, pri_dct)`. -/
def canonical_priorities (gra : Graph) (backbone_only break_ties : Bool)
    (pri? : Option PriDct) : Except CErr PriDct :=
  match calculate_priorities_and_assign_stereo gra none none
      break_ties backbone_only pri? with
  | .error e => .error e
  | .ok (pri, _) => .ok pri

/-! ## Canonical keys and the canonical graph -/

/-- The key function of a relabeling dictionary (identity off its
domain). -/
def fkey (m : List (Nat × Int)) (k : Nat) : Nat := (alookupD m k (k : Int)).toNat

/-- Modelled from the spec: `relabel(gra, key_dct)` — relabel atoms by the
key mapping (results canonically re-sorted). -/
def relabel (g : Graph) (m : List (Nat × Int)) : Graph :=
  { atoms := ssort (fun a b => natLe a.1 b.1)
      (g.atoms.map (fun p => (fkey m p.1, p.2)))
    bonds := sortBonds
      (g.bonds.map (fun p => (bkey (fkey m p.1.1) (fkey m p.1.2), p.2))) }

/-- The composite key mapping of two successive relabelings (`σ` then
`m2`), as a dictionary on the graph's own atom keys. -/
def composeMap (g : Graph) (σ m2 : List (Nat × Int)) : List (Nat × Int) :=
  g.atoms.map (fun p => (p.1, (fkey m2 (fkey σ p.1) : Int)))

/-- `canonical_keys(gra, backbone_only)`: canonicalize with tie breaking
and assert that the recomputed stereo parities match the input ones,
failing with both mappings otherwise. -/
def canonical_keys (gra : Graph) (backbone_only : Bool) : Except CErr PriDct :=
  let atm_par_dct0 := atom_stereo_parities gra
  let bnd_par_dct0 := bond_stereo_parities gra
  match calculate_priorities_and_assign_stereo gra none none
      true backbone_only none with
  | .error e => .error e
  | .ok (can_key_dct, gra') =>
    let atm_par_dct := atom_stereo_parities gra'
    let bnd_par_dct := bond_stereo_parities gra'
    if atm_par_dct ≠ atm_par_dct0 then
      .error (.atomParityMismatch atm_par_dct0 atm_par_dct)
    else if bnd_par_dct ≠ bnd_par_dct0 then
      .error (.bondParityMismatch bnd_par_dct0 bnd_par_dct)
    else .ok can_key_dct

/-- `canonical(gra)`: the graph relabeled with canonical keys. -/
def canonical (gra : Graph) : Except CErr Graph :=
  match canonical_keys gra false with
  | .error e => .error e
  | .ok can_key_dct => .ok (relabel gra can_key_dct)

/-! ## Local stereo conversion and the canonical enantiomer -/

/-- `to_local_stereo(gra, pri_dct)`. -/
def to_local_stereo (gra : Graph) (pri? : Option PriDct) : Except CErr Graph :=
  if has_stereo gra then
    let pri?' := pri?.map (fun d => abyKeyD d (backbone_keys gra true) 0)
    match calculate_priorities_and_assign_stereo gra
        (some .readCanonical) (some .flipLocal) false false pri?' with
    | .error e => .error e
    | .ok (_, loc_gra) => .ok loc_gra
  else .ok gra

/-- `from_local_stereo(gra, pri_dct)`. -/
def from_local_stereo (gra : Graph) (pri? : Option PriDct) : Except CErr Graph :=
  if has_stereo gra then
    let pri?' := pri?.map (fun d => abyKeyD d (backbone_keys gra true) 0)
    match calculate_priorities_and_assign_stereo gra
        (some .flipLocal) (some .flipLocal) false false pri?' with
    | .error e => .error e
    | .ok (_, can_gra) => .ok can_gra
  else .ok gra

/-- `reflect(gra)`: convert to local stereo, negate atom parities, and
convert back. -/
def reflect (gra : Graph) : Except CErr Graph :=
  if has_atom_stereo gra then
    match to_local_stereo gra none with
    | .error e => .error e
    | .ok loc_gra => from_local_stereo (reflect_local_stereo loc_gra) none
  else .ok gra

/-- `canonical_enantiomer_with_keys(gra)`. -/
def canonical_enantiomer_with_keys (gra : Graph) :
    Except CErr (Graph × PriDct × Option Bool) :=
  if !(has_atom_stereo gra) then
    match canonical_keys gra false with
    | .error e => .error e
    | .ok d => .ok (gra, d, none)
  else
    match calculate_priorities_and_assign_stereo gra
        (some .readCanonical) (some .flipLocal) true false none with
    | .error e => .error e
    | .ok (ucan_key_dct, uloc_gra) =>
      let rloc_gra := reflect_local_stereo uloc_gra
      match calculate_priorities_and_assign_stereo rloc_gra
          (some .flipLocal) (some .flipLocal) true false none with
      | .error e => .error e
      | .ok (rcan_key_dct, rgra) =>
        let is_can := is_canonical_enantiomer gra ucan_key_dct rgra rcan_key_dct
        let is_refl := is_can.map (fun b => !b)
        if is_refl = some true then .ok (rgra, rcan_key_dct, is_refl)
        else .ok (gra, ucan_key_dct, is_refl)

/-- `canonical_enantiomer(gra)`. -/
def canonical_enantiomer (gra : Graph) :
    Except CErr (Graph × Option Bool) :=
  match canonical_enantiomer_with_keys gra with
  | .error e => .error e
  | .ok (ce_gra, _, is_refl) => .ok (ce_gra, is_refl)

/-! ## Frame: the parity-independent content of a graph -/

/-- The parity-independent frame of a graph: atom keys with element symbol
and implicit-hydrogen count, bond keys with order.  The mask computation of
the flip-local parity evaluator depends on the graph only through its
frame. -/
def frame (g : Graph) : List (Nat × String × Nat) × List ((Nat × Nat) × Nat) :=
  (g.atoms.map (fun p => (p.1, p.2.symb, p.2.hcnt)),
   g.bonds.map (fun p => (p.1, p.2.ord)))

/-- The stored parity at a stereocenter key (what the read-canonical
evaluator returns; priorities are not consulted). -/
def parityAt (g : Graph) (key : SKey) : Option Bool :=
  peval_read_canonical g [] key

/-- A stereocenter key is present in the graph: its atom key is an atom,
or its bond key is a bond. -/
def keyMem (g : Graph) : SKey → Prop
  | .atm k => k ∈ g.atoms.map Prod.fst
  | .bnd b => b ∈ g.bonds.map Prod.fst

/-- The hydrogen-materialization step of `explicit`, exposed for proofs. -/
def expStep (st : Nat × List (Nat × AtomRow) × List ((Nat × Nat) × BondRow))
    (p : Nat × AtomRow) :
    Nat × List (Nat × AtomRow) × List ((Nat × Nat) × BondRow) :=
  let ks := (List.range p.2.hcnt).map (· + st.1)
  (st.1 + p.2.hcnt,
   st.2.1 ++ ks.map (fun k => (k, AtomRow.mk "H" 0 none)),
   st.2.2 ++ ks.map (fun k => (bkey p.1 k, BondRow.mk 10 none)))

/-- The keep condition of the flip-local evaluator: whether the parity is
kept as-is (rather than negated) when converting between the canonical and
the local frame. -/
def keepMask (g0 : Graph) (pri0 : PriDct) (key : SKey) : Bool :=
  let gra := explicit g0
  let loc := local_priority_dict gra
  let pri := assign_hydrogen_priorities gra pri0 false true
  match key with
  | .atm k =>
    let can_srt := atom_stereo_sorted_neighbor_keys gra k pri
    let loc_srt := ssort (fun a b =>
        lpLe (alookupD loc a none) (alookupD loc b none)) can_srt
    is_even_permutation loc_srt can_srt
  | .bnd b =>
    let nk := bond_stereo_sorted_neighbor_keys gra b.1 b.2 pri
    !((maxByLoc loc nk.1 == nk.1.getLastD 0) ^^
      (maxByLoc loc nk.2 == nk.2.getLastD 0))

/-- Mirror of the canonicalization loop's graph-1 trajectory that checks
that every stereocenter key the loop discovers carries an assigned parity
in the reference graph `gra0`.  This is the formal reading of "the graph
has canonical stereo parities": every stereocenter the canonicalization
identifies is assigned. -/
def algoLoopAsg (gra0 : Graph) :
    Nat → Option (Option PriDct) → Option PriDct → Graph → Bool
  | 0, _, _, _ => true
  | fuel + 1, prev, cur, gra1 =>
    if prev = some cur then true
    else
      match refine_priorities gra1 cur with
      | .error _ => true
      | .ok p1 =>
        match stereogenic_keys_from_priorities gra1 p1 false with
        | .error _ => true
        | .ok keys =>
          if keys.isEmpty then true
          else
            keys.all (fun key => (parityAt gra0 key).isSome) &&
            algoLoopAsg gra0 fuel (some cur) (some p1)
              (set_stereo_parities gra1
                (keys.map (fun k => (k, peval .readCanonical gra0 p1 k))))

/-- Every stereocenter that canonicalization discovers, in any connected
component, is assigned in the input graph. -/
def discovered_keys_assigned (gra : Graph) : Bool :=
  (connected_components (without_dummy_atoms gra)).all (fun c =>
    algoLoopAsg c (algo_fuel c) none none (without_stereo c))

/-- The stereo-merge fold of the public driver: overwrite the accumulator
graph with the stereo parities of each per-component result in turn. -/
def mergeStereo (rs : List Graph) (g0 : Graph) : Graph :=
  rs.foldl (fun g r => set_stereo_parities g (stereo_parities r)) g0

/-! ## Concrete example graphs -/

/-- A five-atom carbon path `4 – 1 – 0 – 2 – 3` (all single bonds, no
stereo, no hydrogens): a connected, dummy-free graph whose refined
priorities leave two tied classes, `{3, 4}` and `{1, 2}`. -/
def gPath5 : Graph :=
  { atoms := [(0, AtomRow.mk "C" 0 none), (1, AtomRow.mk "C" 0 none),
              (2, AtomRow.mk "C" 0 none), (3, AtomRow.mk "C" 0 none),
              (4, AtomRow.mk "C" 0 none)]
    bonds := [((0, 1), BondRow.mk 10 none), ((0, 2), BondRow.mk 10 none),
              ((1, 4), BondRow.mk 10 none), ((2, 3), BondRow.mk 10 none)] }

/-- The refined (fixed-point) priorities of `gPath5`. -/
def priPath5 : PriDct := [(0, 4), (1, 2), (2, 2), (3, 0), (4, 0)]

/-- A 1,2-difluoroethylene-like graph: `F(2) – C(0) = C(1) – F(3)`
(double bond between the carbons, no hydrogens). -/
def gEthene : Graph :=
  { atoms := [(0, AtomRow.mk "C" 0 none), (1, AtomRow.mk "C" 0 none),
              (2, AtomRow.mk "F" 0 none), (3, AtomRow.mk "F" 0 none)]
    bonds := [((0, 1), BondRow.mk 20 none), ((0, 2), BondRow.mk 10 none),
              ((1, 3), BondRow.mk 10 none)] }

/-- Example priorities for `gEthene`. -/
def priEthene : PriDct := [(0, 0), (1, 0), (2, 2), (3, 2)]

/-- A two-atom carbon-monoxide-like graph with non-contiguous keys 3 and 5
(no stereo): its canonical keys relabel it to 0 and 1. -/
def gCO : Graph :=
  { atoms := [(3, AtomRow.mk "C" 0 none), (5, AtomRow.mk "O" 0 none)]
    bonds := [((3, 5), BondRow.mk 10 none)] }

/-- A single carbon atom (no stereo). -/
def gC1 : Graph := { atoms := [(0, AtomRow.mk "C" 0 none)], bonds := [] }

/-- Two disconnected carbon atoms. -/
def gDisc : Graph :=
  { atoms := [(0, AtomRow.mk "C" 0 none), (1, AtomRow.mk "C" 0 none)]
    bonds := [] }

/-- A carbon bonded to a dummy atom. -/
def gXdum : Graph :=
  { atoms := [(0, AtomRow.mk "C" 0 none), (1, AtomRow.mk "X" 0 none)]
    bonds := [((0, 1), BondRow.mk 10 none)] }

/-- A bromochlorofluoroiodomethane-like chiral center: carbon 0 bonded to
F, Cl, Br, I with canonical atom parity `true`. -/
def gChiral : Graph :=
  { atoms := [(0, AtomRow.mk "C" 0 (some true)), (1, AtomRow.mk "F" 0 none),
              (2, AtomRow.mk "Cl" 0 none), (3, AtomRow.mk "Br" 0 none),
              (4, AtomRow.mk "I" 0 none)]
    bonds := [((0, 1), BondRow.mk 10 none), ((0, 2), BondRow.mk 10 none),
              ((0, 3), BondRow.mk 10 none), ((0, 4), BondRow.mk 10 none)] }

/-- The local-stereo image of `gChiral` under `to_local_stereo` (the atom
parity flips: the priority order of the four halogens differs from their
key order by an odd permutation). -/
def gChiralLoc : Graph :=
  { atoms := [(0, AtomRow.mk "C" 0 (some false)), (1, AtomRow.mk "F" 0 none),
              (2, AtomRow.mk "Cl" 0 none), (3, AtomRow.mk "Br" 0 none),
              (4, AtomRow.mk "I" 0 none)]
    bonds := [((0, 1), BondRow.mk 10 none), ((0, 2), BondRow.mk 10 none),
              ((0, 3), BondRow.mk 10 none), ((0, 4), BondRow.mk 10 none)] }

/-- The reflected form of `gChiral` (atom parity negated): its canonical
enantiomer representation is smaller, so `canonical_enantiomer` selects it
as the canonical enantiomer of `gChiral`. -/
def gChiralRefl : Graph :=
  { atoms := [(0, AtomRow.mk "C" 0 (some false)), (1, AtomRow.mk "F" 0 none),
              (2, AtomRow.mk "Cl" 0 none), (3, AtomRow.mk "Br" 0 none),
              (4, AtomRow.mk "I" 0 none)]
    bonds := [((0, 1), BondRow.mk 10 none), ((0, 2), BondRow.mk 10 none),
              ((0, 3), BondRow.mk 10 none), ((0, 4), BondRow.mk 10 none)] }

/-- An 8-atom all-carbon cubic graph (two triangles `{0,1,2}` and
`{3,4,5}`, bridge atoms 6 and 7, all vertices of degree 3): its refined
priorities stall in a single class although the automorphism orbits are
not all equal, so tie-breaking depends on the labeling. -/
def gCubic : Graph :=
  { atoms := [(0, AtomRow.mk "C" 0 none), (1, AtomRow.mk "C" 0 none),
              (2, AtomRow.mk "C" 0 none), (3, AtomRow.mk "C" 0 none),
              (4, AtomRow.mk "C" 0 none), (5, AtomRow.mk "C" 0 none),
              (6, AtomRow.mk "C" 0 none), (7, AtomRow.mk "C" 0 none)]
    bonds := [((0, 1), BondRow.mk 10 none), ((0, 2), BondRow.mk 10 none),
              ((0, 6), BondRow.mk 10 none), ((1, 2), BondRow.mk 10 none),
              ((1, 7), BondRow.mk 10 none), ((2, 5), BondRow.mk 10 none),
              ((3, 4), BondRow.mk 10 none), ((3, 5), BondRow.mk 10 none),
              ((3, 6), BondRow.mk 10 none), ((4, 5), BondRow.mk 10 none),
              ((4, 7), BondRow.mk 10 none), ((6, 7), BondRow.mk 10 none)] }

/-- The transposition of atom keys 2 and 7 (an involutive bijection on
`gCubic`'s atom keys; 2 lies in a triangle, 7 does not). -/
def sigma27 : List (Nat × Int) := [(2, 7), (7, 2)]

/-- The canonical form of `gCubic`. -/
def gCubicCan : Graph :=
  { atoms := [(0, AtomRow.mk "C" 0 none), (1, AtomRow.mk "C" 0 none),
              (2, AtomRow.mk "C" 0 none), (3, AtomRow.mk "C" 0 none),
              (4, AtomRow.mk "C" 0 none), (5, AtomRow.mk "C" 0 none),
              (6, AtomRow.mk "C" 0 none), (7, AtomRow.mk "C" 0 none)]
    bonds := [((0, 1), BondRow.mk 10 none), ((0, 2), BondRow.mk 10 none),
              ((0, 4), BondRow.mk 10 none), ((1, 3), BondRow.mk 10 none),
              ((1, 5), BondRow.mk 10 none), ((2, 4), BondRow.mk 10 none),
              ((2, 6), BondRow.mk 10 none), ((3, 5), BondRow.mk 10 none),
              ((3, 6), BondRow.mk 10 none), ((4, 7), BondRow.mk 10 none),
              ((5, 7), BondRow.mk 10 none), ((6, 7), BondRow.mk 10 none)] }

/-- The canonical form of `relabel gCubic sigma27`. -/
def gCubicSigmaCan : Graph :=
  { atoms := [(0, AtomRow.mk "C" 0 none), (1, AtomRow.mk "C" 0 none),
              (2, AtomRow.mk "C" 0 none), (3, AtomRow.mk "C" 0 none),
              (4, AtomRow.mk "C" 0 none), (5, AtomRow.mk "C" 0 none),
              (6, AtomRow.mk "C" 0 none), (7, AtomRow.mk "C" 0 none)]
    bonds := [((0, 1), BondRow.mk 10 none), ((0, 2), BondRow.mk 10 none),
              ((0, 4), BondRow.mk 10 none), ((1, 3), BondRow.mk 10 none),
              ((1, 4), BondRow.mk 10 none), ((2, 3), BondRow.mk 10 none),
              ((2, 5), BondRow.mk 10 none), ((3, 6), BondRow.mk 10 none),
              ((4, 7), BondRow.mk 10 none), ((5, 6), BondRow.mk 10 none),
              ((5, 7), BondRow.mk 10 none), ((6, 7), BondRow.mk 10 none)] }

/-! ### Sorting and grouping lemmas -/

theorem alookup_amap [DecidableEq κ] (f : β → γ) (l : List (κ × β)) (k : κ) :
    alookup (amap f l) k = (alookup l k).map f := by
  induction l with
  | nil => rfl
  | cons h t ih =>
    simp only [amap, List.map_cons, alookup]
    split <;> simp_all [amap]

theorem alookup_of_nodup [DecidableEq κ] (l : List (κ × β))
    (hnd : (l.map Prod.fst).Nodup) (k : κ) (v : β)
    (hmem : (k, v) ∈ l) :
    alookup l k = some v := by
  induction l with
  | nil => simp at hmem
  | cons h t ih =>
    simp only [List.map_cons, List.nodup_cons] at hnd
    rcases List.mem_cons.mp hmem with heq | hmem
    · subst heq; simp [alookup]
    · have hk : k ≠ h.1 := by
        intro he
        exact hnd.1 (he ▸ List.mem_map.mpr ⟨(k, v), hmem, rfl⟩)
      simp only [alookup]
      rw [if_neg hk]
      exact ih hnd.2 hmem

theorem alookup_pars_of_nodup (atoms : List (Nat × AtomRow))
    (hnd : (atoms.map Prod.fst).Nodup) (k : Nat) (r : AtomRow)
    (hmem : (k, r) ∈ atoms) :
    alookup (atoms.map (fun p => (p.1, p.2.par))) k = some r.par := by
  apply alookup_of_nodup
  · rw [List.map_map]; exact hnd
  · exact List.mem_map.mpr ⟨(k, r), hmem, rfl⟩


theorem sinsert_perm (le : α → α → Bool) (x : α) :
    ∀ l, (sinsert le x l).Perm (x :: l)
  | [] => .refl _
  | y :: ys => by
    unfold sinsert
    split
    · exact .refl _
    · exact ((sinsert_perm le x ys).cons y).trans (List.Perm.swap x y ys)

theorem ssort_perm (le : α → α → Bool) : ∀ l, (ssort le l).Perm l
  | [] => .refl _
  | x :: xs => (sinsert_perm le x (ssort le xs)).trans ((ssort_perm le xs).cons x)

theorem sinsert_head? (le : α → α → Bool) (x : α) (l : List α) :
    (sinsert le x l).head? = some x ∨ (sinsert le x l).head? = l.head? := by
  cases l with
  | nil => left; rfl
  | cons y ys =>
    unfold sinsert
    split
    · left; rfl
    · right; rfl

theorem chain'_sinsert (le : α → α → Bool)
    (htot : ∀ a b, le a b = true ∨ le b a = true) (x : α) :
    ∀ l, List.Chain' (fun a b => le a b = true) l →
      List.Chain' (fun a b => le a b = true) (sinsert le x l)
  | [], _ => by simp [sinsert]
  | y :: ys, h => by
    unfold sinsert
    split
    · next hxy => exact List.chain'_cons.mpr ⟨hxy, h⟩
    · next hxy =>
      have hyx : le y x = true := by
        rcases htot x y with h' | h'
        · exact absurd h' hxy
        · exact h'
      rcases List.chain'_cons'.mp h with ⟨hhd, htl⟩
      refine List.chain'_cons'.mpr ⟨?_, chain'_sinsert le htot x ys htl⟩
      intro b hb
      rcases sinsert_head? le x ys with he | he
      · rw [he] at hb
        simp only [Option.mem_def, Option.some.injEq] at hb
        subst hb; exact hyx
      · rw [he] at hb; exact hhd b hb

theorem chain'_ssort (le : α → α → Bool)
    (htot : ∀ a b, le a b = true ∨ le b a = true) :
    ∀ l, List.Chain' (fun a b => le a b = true) (ssort le l)
  | [] => by simp [ssort]
  | x :: xs => chain'_sinsert le htot x _ (chain'_ssort le htot xs)

theorem groupRunsBy_cons_head (key : α → κ) [DecidableEq κ] (x : α)
    (xs : List α) :
    ∃ t gs, groupRunsBy key (x :: xs) = (x :: t) :: gs := by
  rw [groupRunsBy]
  cases h : groupRunsBy key xs with
  | nil => exact ⟨[], [], rfl⟩
  | cons g gs =>
    cases g with
    | nil => exact ⟨[], gs, rfl⟩
    | cons y ys =>
      by_cases hk : key x = key y
      · exact ⟨y :: ys, gs, by simp [hk]⟩
      · exact ⟨[], (y :: ys) :: gs, by simp [hk]⟩

theorem chain'_ne_of_groupRuns (key : α → κ) [DecidableEq κ] :
    ∀ l, (∀ grp ∈ groupRunsBy key l, grp.length ≤ 1) →
      List.Chain' (fun a b => key a ≠ key b) l
  | [], _ => by simp
  | [_], _ => by simp
  | x :: y :: t, h => by
    obtain ⟨t', gs, hg⟩ := groupRunsBy_cons_head key y t
    by_cases hk : key x = key y
    · exfalso
      have hx : groupRunsBy key (x :: y :: t) = (x :: y :: t') :: gs := by
        rw [groupRunsBy, hg]
        simp [hk]
      have := h (x :: y :: t') (hx ▸ List.mem_cons_self _ _)
      simp at this
    · refine List.chain'_cons.mpr ⟨hk, ?_⟩
      apply chain'_ne_of_groupRuns key (y :: t)
      intro grp hgrp
      apply h
      have hx : groupRunsBy key (x :: y :: t) = [x] :: (y :: t') :: gs := by
        rw [groupRunsBy, hg]
        simp [hk]
      rw [hx]
      rw [hg] at hgrp
      exact List.mem_cons_of_mem _ hgrp

theorem chain'_mono_two {R S T : α → α → Prop}
    (h : ∀ a b, R a b → S a b → T a b) :
    ∀ l, List.Chain' R l → List.Chain' S l → List.Chain' T l
  | [], _, _ => by simp
  | [_], _, _ => by simp
  | a :: b :: t, hR, hS => by
    rcases List.chain'_cons.mp hR with ⟨hr, hR'⟩
    rcases List.chain'_cons.mp hS with ⟨hs, hS'⟩
    exact List.chain'_cons.mpr ⟨h a b hr hs, chain'_mono_two h (b :: t) hR' hS'⟩

/-- If no priority class has more than one member, the priority values are
pairwise distinct (the assignment is injective). -/
theorem values_nodup_of_no_multiclass (pri : PriDct)
    (h : (class_dict_from_priority_dict pri).filter
      (fun p => p.2.length > 1) = []) :
    (pri.map Prod.snd).Nodup := by
  classical
  set val := fun k => alookupD pri k 0 with hval
  have hgs : ∀ grp ∈ groupRunsBy val
      (ssort (fun a b => intLe (val a) (val b)) (ssort natLe (pri.map Prod.fst))),
      grp.length ≤ 1 := by
    intro grp hgrp
    have hm : (val (grp.headD 0), grp) ∈ class_dict_from_priority_dict pri :=
      List.mem_map.mpr ⟨grp, hgrp, rfl⟩
    have := List.filter_eq_nil_iff.mp h _ hm
    simpa using this
  set clas := ssort (fun a b => intLe (val a) (val b))
      (ssort natLe (pri.map Prod.fst)) with hclas
  have hne : List.Chain' (fun a b => val a ≠ val b) clas :=
    chain'_ne_of_groupRuns val clas hgs
  have hle : List.Chain' (fun a b => intLe (val a) (val b) = true) clas := by
    rw [hclas]
    exact chain'_ssort _ (fun a b => by
      simp only [intLe, decide_eq_true_eq]
      exact Int.le_total (val a) (val b)) _
  have hlt : List.Chain' (fun a b => val a < val b) clas :=
    chain'_mono_two (fun a b hr hs => by
      simp only [intLe, decide_eq_true_eq] at hr
      exact lt_of_le_of_ne hr hs) clas hle hne
  haveI : IsTrans Nat (fun a b => val a < val b) := ⟨fun _ _ _ => lt_trans⟩
  have hpw : clas.Pairwise (fun a b => val a < val b) :=
    List.chain'_iff_pairwise.mp hlt
  have hpw_ne : clas.Pairwise (fun a b => val a ≠ val b) :=
    hpw.imp (fun hl => ne_of_lt hl)
  have hperm : clas.Perm (pri.map Prod.fst) :=
    (ssort_perm _ _).trans (ssort_perm _ _)
  have hpf : (pri.map Prod.fst).Pairwise (fun a b => val a ≠ val b) :=
    (hperm.pairwise_iff (fun hab => hab.symm)).mp hpw_ne
  have hnd : (pri.map Prod.fst).Nodup :=
    hpf.imp (fun hab => fun he => hab (he ▸ rfl))
  have hvv : ∀ p ∈ pri, val p.1 = p.2 := by
    intro p hp
    simp [hval, alookupD, alookup_of_nodup pri hnd p.1 p.2 hp]
  have hmapeq : pri.map Prod.snd = (pri.map Prod.fst).map val := by
    rw [List.map_map]
    exact (List.map_congr_left (fun p hp => (hvv p hp).symm))
  rw [hmapeq]
  simpa [List.Nodup, List.pairwise_map] using hpf

theorem breakAux_ok_nodup (gra : Graph) :
    ∀ fuel (pri out : PriDct),
      breakAux gra fuel pri (buildQueue pri) = .ok out →
      (out.map Prod.snd).Nodup := by
  intro fuel
  induction fuel with
  | zero =>
    intro pri out h
    exact absurd h (by simp [breakAux])
  | succ n ih =>
    intro pri out h
    cases hq : buildQueue pri with
    | nil =>
      rw [hq] at h
      simp only [breakAux, Except.ok.injEq] at h
      subst h
      apply values_nodup_of_no_multiclass
      exact List.reverse_eq_nil_iff.mp hq
    | cons hd tl =>
      rw [hq] at h
      cases hd with
      | mk idx cla =>
        simp only [breakAux] at h
        cases hr : refine_priorities gra
            (some (ainsert (cla.getLastD 0) (idx + (cla.length : Int) - 1) pri)) with
        | error e => rw [hr] at h; simp at h
        | ok pri' =>
          rw [hr] at h
          exact ih pri' out h

theorem reflect_local_stereo_atoms (g : Graph)
    (hnd : (g.atoms.map Prod.fst).Nodup) :
    (reflect_local_stereo g).atoms =
      g.atoms.map (fun p => (p.1, { p.2 with par := p.2.par.map not })) := by
  unfold reflect_local_stereo set_atom_stereo_parities
  simp only
  apply List.map_congr_left
  intro p hp
  have hl : alookup (amap (fun x => x.map not) (atom_stereo_parities g)) p.1 =
      some (p.2.par.map not) := by
    rw [alookup_amap]
    unfold atom_stereo_parities
    rw [alookup_pars_of_nodup g.atoms hnd p.1 p.2 (by simpa using hp)]
    rfl
  rw [hl]

/-- C10: `reflect_local_stereo` negates exactly the assigned atom stereo
parities (leaving unassigned atoms unassigned) and changes nothing else:
bond rows (orders and bond parities), atom symbols, implicit-hydrogen
counts and the key sets are untouched; and it is an involution. -/
theorem reflect_local_stereo_spec (g : Graph)
    (hnd : (g.atoms.map Prod.fst).Nodup) :
    atom_stereo_parities (reflect_local_stereo g) =
        amap (fun x => x.map not) (atom_stereo_parities g) ∧
    (reflect_local_stereo g).bonds = g.bonds ∧
    atom_symbols (reflect_local_stereo g) = atom_symbols g ∧
    atom_implicit_hydrogens (reflect_local_stereo g) = atom_implicit_hydrogens g ∧
    atom_keys (reflect_local_stereo g) = atom_keys g ∧
    reflect_local_stereo (reflect_local_stereo g) = g := by
  have hat := reflect_local_stereo_atoms g hnd
  have hbd : (reflect_local_stereo g).bonds = g.bonds := rfl
  refine ⟨?_, hbd, ?_, ?_, ?_, ?_⟩
  · unfold atom_stereo_parities amap
    rw [hat, List.map_map, List.map_map]
    rfl
  · unfold atom_symbols; rw [hat, List.map_map]; rfl
  · unfold atom_implicit_hydrogens; rw [hat, List.map_map]; rfl
  · unfold atom_keys; rw [hat, List.map_map]; rfl
  · have hnd' : ((reflect_local_stereo g).atoms.map Prod.fst).Nodup := by
      rw [hat, List.map_map]
      exact hnd
    have hat' := reflect_local_stereo_atoms (reflect_local_stereo g) hnd'
    have : (reflect_local_stereo (reflect_local_stereo g)).atoms = g.atoms := by
      rw [hat', hat, List.map_map]
      have hfun : ∀ p ∈ g.atoms,
          ((fun p : Nat × AtomRow => (p.1, { p.2 with par := p.2.par.map not })) ∘
            fun p : Nat × AtomRow => (p.1, { p.2 with par := p.2.par.map not })) p = id p := by
        intro p _
        cases p with
        | mk k r =>
          cases r with
          | mk s h pr =>
            cases pr <;> simp [Function.comp]
      rw [List.map_congr_left hfun, List.map_id]
    cases g with
    | mk atoms bonds =>
      cases hg : reflect_local_stereo (reflect_local_stereo { atoms := atoms, bonds := bonds }) with
      | mk atoms' bonds' =>
        congr 1
        · have := this; rw [hg] at this; exact this
        · have h1 : (reflect_local_stereo (reflect_local_stereo
              { atoms := atoms, bonds := bonds })).bonds = bonds := rfl
          rw [hg] at h1; exact h1

/-- Witness for C10 at a concrete one-atom graph with an assigned parity. -/
theorem reflect_local_stereo_spec_witness :
    (([(0, AtomRow.mk "C" 0 (some true))].map Prod.fst).Nodup) ∧
    reflect_local_stereo (reflect_local_stereo
      (Graph.mk [(0, AtomRow.mk "C" 0 (some true))] [])) =
      Graph.mk [(0, AtomRow.mk "C" 0 (some true))] [] := by
  refine ⟨by decide, ?_⟩
  exact (reflect_local_stereo_spec
    (Graph.mk [(0, AtomRow.mk "C" 0 (some true))] []) (by decide)).2.2.2.2.2

/-! ### C6: `break_priority_ties` -/

/-- C6 counterexample: on the connected, dummy-free path `gPath5` with its
refined priorities, the implementation pops the queue built with
`sorted(..., reverse=True)`, promoting within the HIGHEST-id tied class
first, so its result differs from the claim's
lowest-priority-class-first procedure. -/
theorem break_priority_ties_not_lowest_first :
    is_connected gPath5 = true ∧
    gPath5 = without_dummy_atoms gPath5 ∧
    break_priority_ties gPath5 priPath5 =
      .ok [(0, 4), (1, 2), (2, 3), (3, 1), (4, 0)] ∧
    break_priority_ties_lowest_first gPath5 priPath5 =
      .ok [(0, 4), (1, 3), (2, 2), (3, 0), (4, 1)] ∧
    break_priority_ties gPath5 priPath5 ≠
      break_priority_ties_lowest_first gPath5 priPath5 := by
  refine ⟨by decide, by decide, by decide, by decide, by decide⟩

/-- C6 amended: `break_priority_ties` repeatedly promotes the last member
(by atom-key order) of the highest-priority multi-member class to the
strictly higher class id `idx + len - 1` and re-refines; whenever its loop
completes (returns `.ok`), the resulting assignment is injective — every
priority class is a singleton. -/
theorem break_priority_ties_spec (gra : Graph) (pri out : PriDct)
    (h : break_priority_ties gra pri = .ok out) :
    (out.map Prod.snd).Nodup := by
  unfold break_priority_ties at h
  split at h
  · exact absurd h (by simp)
  · split at h
    · exact absurd h (by simp)
    · exact breakAux_ok_nodup gra _ pri out h

/-- Witness for C6 at `gPath5`. -/
theorem break_priority_ties_spec_witness :
    break_priority_ties gPath5 priPath5 =
      .ok [(0, 4), (1, 2), (2, 3), (3, 1), (4, 0)] ∧
    (([(0, 4), (1, 2), (2, 3), (3, 1), (4, 0)] : PriDct).map Prod.snd).Nodup :=
  ⟨by decide, break_priority_ties_spec gPath5 priPath5 _ (by decide)⟩

/-! ### C9: `stereogenic_bond_keys_from_priorities` -/

theorem bondEndOk_iff (pri : PriDct) (n : List Nat) :
    bondEndOk pri n = true ↔
      (n ≠ [] ∧ (n.length = 1 ∨ prisAllDistinct pri n = true)) := by
  cases n with
  | nil => simp [bondEndOk]
  | cons x t =>
    cases t with
    | nil => simp [bondEndOk]
    | cons y t' => simp [bondEndOk]

/-- C9: a bond is returned by `stereogenic_bond_keys_from_priorities`
exactly when it is a rigid/planar candidate bond, not embedded in a ring
of fewer than 8 atoms, not already parity-assigned when `assigned = false`,
and each of its ends is stereo-distinguishing: an end with zero
substituents never is, an end with one substituent (lone pair)
automatically is, and an end with two substituents requires distinct
priorities. -/
theorem stereogenic_bond_keys_spec (gra0 : Graph) (pri0 : PriDct)
    (assigned : Bool) (out : List (Nat × Nat))
    (h : stereogenic_bond_keys_from_priorities gra0 pri0 assigned = .ok out) :
    ∀ b, b ∈ out ↔ steBondCond gra0 pri0 assigned b := by
  intro b
  unfold stereogenic_bond_keys_from_priorities at h
  dsimp only at h
  unfold steBondCond
  dsimp only
  cases assigned with
  | false =>
    rw [if_pos (by simp)] at h
    split at h
    · exact absurd h (by simp)
    · simp only [Except.ok.injEq] at h
      subst h
      simp only [List.mem_filter, Bool.and_eq_true, bondEndOk_iff,
        decide_eq_true_eq, Bool.not_eq_true']
      set gra := explicit (without_pi_bonds gra0) with hg
      set pri := assign_hydrogen_priorities gra pri0 false false with hp
      set n1 := (bond_stereo_sorted_neighbor_keys gra b.1 b.2 pri).1 with hn1
      set n2 := (bond_stereo_sorted_neighbor_keys gra b.1 b.2 pri).2 with hn2
      constructor
      · rintro ⟨⟨⟨hmem, hassig⟩, hring⟩, h1, h2⟩
        exact ⟨hmem, fun _ => hassig, hring, h1, h2⟩
      · rintro ⟨hmem, hassig, hring, h1, h2⟩
        exact ⟨⟨⟨hmem, hassig trivial⟩, hring⟩, h1, h2⟩
  | true =>
    rw [if_neg (by simp)] at h
    split at h
    · exact absurd h (by simp)
    · simp only [Except.ok.injEq] at h
      subst h
      simp only [List.mem_filter, Bool.and_eq_true, bondEndOk_iff,
        decide_eq_true_eq, Bool.not_eq_true']
      set gra := explicit (without_pi_bonds gra0) with hg
      set pri := assign_hydrogen_priorities gra pri0 false false with hp
      set n1 := (bond_stereo_sorted_neighbor_keys gra b.1 b.2 pri).1 with hn1
      set n2 := (bond_stereo_sorted_neighbor_keys gra b.1 b.2 pri).2 with hn2
      constructor
      · rintro ⟨⟨hmem, hring⟩, h1, h2⟩
        exact ⟨hmem, fun hc => absurd hc (by simp), hring, h1, h2⟩
      · rintro ⟨hmem, _, hring, h1, h2⟩
        exact ⟨⟨hmem, hring⟩, h1, h2⟩

/-- Witness for C9 at the difluoroethylene-like graph: the double bond
`(0, 1)` is the unique stereogenic bond. -/
theorem stereogenic_bond_keys_spec_witness :
    stereogenic_bond_keys_from_priorities gEthene priEthene false =
      .ok [(0, 1)] ∧
    ((0, 1) ∈ [(0, 1)] ↔ steBondCond gEthene priEthene false (0, 1)) :=
  ⟨by decide,
   stereogenic_bond_keys_spec gEthene priEthene false [(0, 1)] (by decide) (0, 1)⟩


/-! ### C4: the no-stereocenter short circuit of
`canonical_enantiomer_with_keys` -/

/-- C4 counterexample: on the stereo-free graph `gCO` (keys 3 and 5) the
short circuit returns the INPUT graph unchanged, which differs from
`canonical(graph)` (relabeled to keys 0 and 1). -/
theorem canonical_enantiomer_with_keys_not_canonical :
    has_atom_stereo gCO = false ∧
    canonical_enantiomer_with_keys gCO = .ok (gCO, [(3, 0), (5, 1)], none) ∧
    canonical gCO =
      .ok (Graph.mk [(0, AtomRow.mk "C" 0 none), (1, AtomRow.mk "O" 0 none)]
        [((0, 1), BondRow.mk 10 none)]) ∧
    Graph.mk [(0, AtomRow.mk "C" 0 none), (1, AtomRow.mk "O" 0 none)]
        [((0, 1), BondRow.mk 10 none)] ≠ gCO := by
  refine ⟨by decide, by decide, by decide, by decide⟩

/-- C4 amended: for a graph with zero atom stereocenters,
`canonical_enantiomer_with_keys` short-circuits with `is_reflected = None`
and returns the INPUT graph unchanged together with the canonical key
mapping; relabeling by that mapping — not the returned graph itself —
gives `canonical(graph)`. -/
theorem canonical_enantiomer_with_keys_no_stereo (G : Graph) (d : PriDct)
    (hns : has_atom_stereo G = false)
    (hk : canonical_keys G false = .ok d) :
    canonical_enantiomer_with_keys G = .ok (G, d, none) ∧
    canonical G = .ok (relabel G d) := by
  constructor
  · unfold canonical_enantiomer_with_keys
    rw [hns]
    simp [hk]
  · unfold canonical
    rw [hk]

/-- Witness for C4 at `gCO`. -/
theorem canonical_enantiomer_with_keys_no_stereo_witness :
    has_atom_stereo gCO = false ∧
    canonical_keys gCO false = .ok [(3, 0), (5, 1)] ∧
    canonical_enantiomer_with_keys gCO = .ok (gCO, [(3, 0), (5, 1)], none) ∧
    canonical gCO = .ok (relabel gCO [(3, 0), (5, 1)]) :=
  ⟨by decide, by decide,
   (canonical_enantiomer_with_keys_no_stereo gCO [(3, 0), (5, 1)]
     (by decide) (by decide)).1,
   (canonical_enantiomer_with_keys_no_stereo gCO [(3, 0), (5, 1)]
     (by decide) (by decide)).2⟩

/-! ### C5: enantiomer selection stability -/

/-- C5 counterexample: on the single-atom graph `gC1` (no stereo) the
first call returns `(gC1, None)`; feeding the graph back returns the same
graph, but the flag of the second call is `None`, not `False`. -/
theorem canonical_enantiomer_twice_flag_not_false :
    canonical_enantiomer gC1 = .ok (gC1, none) ∧
    (none : Option Bool) ≠ some false := by
  refine ⟨by decide, by decide⟩

/-- C5 amended: applying `canonical_enantiomer` to the graph returned by a
previous `canonical_enantiomer` call yields the same graph again, but the
second flag is not `False` universally.  For a graph without assigned atom
stereo parities, both calls return the input graph with
`is_reflected = None` (the not-an-enantiomer sentinel).  The flag `False`
appears for graphs with atom stereo whose unreflected form is canonical,
as on the concrete chiral example: `canonical_enantiomer gChiral` returns
its reflected form `gChiralRefl` with flag `True`, and a second
application returns that same graph with flag `False`. -/
theorem canonical_enantiomer_no_stereo_stable :
    (∀ (G g2 : Graph) (flag : Option Bool), has_atom_stereo G = false →
      canonical_enantiomer G = .ok (g2, flag) →
      g2 = G ∧ flag = none ∧ canonical_enantiomer g2 = .ok (g2, none)) ∧
    canonical_enantiomer gChiral = .ok (gChiralRefl, some true) ∧
    canonical_enantiomer gChiralRefl = .ok (gChiralRefl, some false) := by
  refine ⟨?_, by decide, by decide⟩
  intro G g2 flag hns h
  unfold canonical_enantiomer canonical_enantiomer_with_keys at h
  rw [hns] at h
  simp only [Bool.not_false, if_true] at h
  cases hk : canonical_keys G false with
  | error e => rw [hk] at h; exact absurd h (by simp)
  | ok d =>
    rw [hk] at h
    simp only [Except.ok.injEq, Prod.mk.injEq] at h
    obtain ⟨hg, hf⟩ := h
    subst hg
    refine ⟨rfl, hf.symm, ?_⟩
    unfold canonical_enantiomer canonical_enantiomer_with_keys
    rw [hns]
    simp [hk]

/-- Witness for C5 at `gC1` (the universal no-atom-stereo part, applied
concretely; the chiral part of the theorem is already closed). -/
theorem canonical_enantiomer_no_stereo_stable_witness :
    has_atom_stereo gC1 = false ∧
    canonical_enantiomer gC1 = .ok (gC1, none) ∧
    (gC1 = gC1 ∧ (none : Option Bool) = none ∧
      canonical_enantiomer gC1 = .ok (gC1, none)) :=
  ⟨by decide, by decide,
   canonical_enantiomer_no_stereo_stable.1 gC1 gC1 none (by decide)
     (by decide)⟩

/-! ### C8: the parity consistency check of `canonical_keys` -/

/-- C8: whenever the canonicalization driver succeeds, `canonical_keys`
fails if and only if the recomputed atom or bond stereo parities disagree
with the parities on the input graph; the failure carries both the
expected (input) and actual (recomputed) parity mappings, and on agreement
the canonical key assignment is returned without error. -/
theorem canonical_keys_consistency (gra : Graph) (bb : Bool)
    (m : PriDct) (g2 : Graph)
    (h : calculate_priorities_and_assign_stereo gra none none true bb none =
      .ok (m, g2)) :
    canonical_keys gra bb =
      (if atom_stereo_parities g2 ≠ atom_stereo_parities gra then
        .error (.atomParityMismatch (atom_stereo_parities gra)
          (atom_stereo_parities g2))
      else if bond_stereo_parities g2 ≠ bond_stereo_parities gra then
        .error (.bondParityMismatch (bond_stereo_parities gra)
          (bond_stereo_parities g2))
      else .ok m) ∧
    ((∃ err, canonical_keys gra bb = .error err) ↔
      (atom_stereo_parities g2 ≠ atom_stereo_parities gra ∨
       bond_stereo_parities g2 ≠ bond_stereo_parities gra)) := by
  have hck : canonical_keys gra bb =
      (if atom_stereo_parities g2 ≠ atom_stereo_parities gra then
        .error (.atomParityMismatch (atom_stereo_parities gra)
          (atom_stereo_parities g2))
      else if bond_stereo_parities g2 ≠ bond_stereo_parities gra then
        .error (.bondParityMismatch (bond_stereo_parities gra)
          (bond_stereo_parities g2))
      else .ok m) := by
    unfold canonical_keys
    rw [h]
  refine ⟨hck, ?_⟩
  rw [hck]
  by_cases ha : atom_stereo_parities g2 = atom_stereo_parities gra
  · by_cases hb : bond_stereo_parities g2 = bond_stereo_parities gra
    · simp [ha, hb]
    · simp [ha, hb]
  · simp [ha]

/-- Witness for C8 at `gCO` (parities agree, so the keys are returned). -/
theorem canonical_keys_consistency_witness :
    calculate_priorities_and_assign_stereo gCO none none true false none =
      .ok ([(3, 0), (5, 1)], gCO) ∧
    (canonical_keys gCO false =
      (if atom_stereo_parities gCO ≠ atom_stereo_parities gCO then
        .error (.atomParityMismatch (atom_stereo_parities gCO)
          (atom_stereo_parities gCO))
      else if bond_stereo_parities gCO ≠ bond_stereo_parities gCO then
        .error (.bondParityMismatch (bond_stereo_parities gCO)
          (bond_stereo_parities gCO))
      else .ok [(3, 0), (5, 1)]) ∧
    ((∃ err, canonical_keys gCO false = .error err) ↔
      (atom_stereo_parities gCO ≠ atom_stereo_parities gCO ∨
       bond_stereo_parities gCO ≠ bond_stereo_parities gCO))) :=
  ⟨by decide, canonical_keys_consistency gCO false [(3, 0), (5, 1)] gCO (by decide)⟩

/-! ### C1: permutation invariance of `canonical` -/

theorem chain'_key_lt_of_le_nodup {β κ : Type} [LinearOrder κ] (key : β → κ)
    (le : β → β → Bool) (hle : ∀ a b, le a b = true ↔ key a ≤ key b)
    (l : List β) (hc : List.Chain' (fun a b => le a b = true) l)
    (hnd : (l.map key).Nodup) :
    List.Pairwise (fun a b => key a < key b) l := by
  have hne : List.Chain' (fun a b => key a ≠ key b) l := by
    have : List.Pairwise (fun a b => key a ≠ key b) l :=
      List.pairwise_map.mp hnd
    exact this.chain'
  have hlt : List.Chain' (fun a b => key a < key b) l :=
    chain'_mono_two (fun a b h1 h2 => lt_of_le_of_ne ((hle a b).mp h1) h2)
      l hc hne
  haveI : IsTrans β (fun a b => key a < key b) := ⟨fun _ _ _ => lt_trans⟩
  exact List.chain'_iff_pairwise.mp hlt

/-- Sorting is canonical on permutation classes whose keys are distinct. -/
theorem ssort_canonical {β κ : Type} [LinearOrder κ] (key : β → κ)
    (le : β → β → Bool) (hle : ∀ a b, le a b = true ↔ key a ≤ key b)
    (l l' : List β) (hp : l.Perm l') (hnd : (l.map key).Nodup) :
    ssort le l = ssort le l' := by
  have htot : ∀ a b, le a b = true ∨ le b a = true := by
    intro a b
    rcases le_total (key a) (key b) with h | h
    · exact Or.inl ((hle a b).mpr h)
    · exact Or.inr ((hle b a).mpr h)
  have hp2 : (ssort le l).Perm (ssort le l') :=
    (ssort_perm le l).trans (hp.trans (ssort_perm le l').symm)
  have hnd1 : ((ssort le l).map key).Nodup :=
    (((ssort_perm le l).map key).nodup_iff).mpr hnd
  have hnd2 : ((ssort le l').map key).Nodup := by
    have h' : (l'.map key).Nodup := ((hp.map key).nodup_iff).mp hnd
    exact (((ssort_perm le l').map key).nodup_iff).mpr h'
  have hs1 := chain'_key_lt_of_le_nodup key le hle (ssort le l)
    (chain'_ssort le htot l) hnd1
  have hs2 := chain'_key_lt_of_le_nodup key le hle (ssort le l')
    (chain'_ssort le htot l') hnd2
  haveI : IsAntisymm β (fun a b => key a < key b) :=
    ⟨fun a b h1 h2 => absurd (lt_trans h1 h2) (lt_irrefl _)⟩
  exact List.eq_of_perm_of_sorted hp2 hs1 hs2

theorem natLe_iff (a b : Nat × AtomRow) :
    natLe a.1 b.1 = true ↔ a.1 ≤ b.1 := by
  simp [natLe]

theorem pairLe_iff_lex (a b : (Nat × Nat) × BondRow) :
    pairLe a.1 b.1 = true ↔
      (toLex a.1 : Lex (Nat × Nat)) ≤ toLex b.1 := by
  rw [Prod.Lex.le_iff]
  unfold pairLe pairLt
  rcases a with ⟨⟨a1, a2⟩, _⟩
  rcases b with ⟨⟨b1, b2⟩, _⟩
  simp only [Bool.not_eq_true', Bool.or_eq_false_iff, Bool.and_eq_false_iff,
    decide_eq_false_iff_not, not_lt, decide_eq_true_eq]
  omega

theorem bkey_comm (a b : Nat) : bkey a b = bkey b a := by
  unfold bkey
  by_cases h1 : a ≤ b <;> by_cases h2 : b ≤ a <;>
    simp [h1, h2, Prod.ext_iff] <;> omega

theorem bkey_map_comm (f : Nat → Nat) (a b : Nat) :
    bkey (f (bkey a b).1) (f (bkey a b).2) = bkey (f a) (f b) := by
  unfold bkey
  split
  · rfl
  · exact bkey_comm (f b) (f a)

theorem bkey_eq_cases (x y u v : Nat) (h : bkey x y = bkey u v) :
    (x = u ∧ y = v) ∨ (x = v ∧ y = u) := by
  unfold bkey at h
  split at h <;> split at h <;>
    (simp only [Prod.mk.injEq] at h; omega)

theorem chainOk_iff_chain' (lt : α → α → Bool) :
    ∀ l : List α, chainOk lt l = true ↔
      List.Chain' (fun a b => lt a b = true) l
  | [] => by simp [chainOk]
  | [x] => by simp [chainOk]
  | a :: b :: t => by
    rw [List.chain'_cons, ← chainOk_iff_chain' lt (b :: t)]
    simp [chainOk]

/-- Atom keys of a well-formed graph are distinct. -/
theorem wf_atom_keys_nodup (G : Graph) (hwf : G.Wf) :
    (G.atoms.map Prod.fst).Nodup := by
  haveI : IsTrans (Nat × AtomRow) (fun p q => p.1 < q.1) :=
    ⟨fun _ _ _ => lt_trans⟩
  have hp : G.atoms.Pairwise (fun p q => p.1 < q.1) :=
    List.chain'_iff_pairwise.mp
      (((chainOk_iff_chain' _ G.atoms).mp hwf.1).imp
        (fun _ _ h => of_decide_eq_true h))
  exact List.pairwise_map.mpr (hp.imp (fun h => ne_of_lt h))

/-- Bond keys of a well-formed graph are distinct (as lex pairs). -/
theorem wf_bond_keys_pairwise (G : Graph) (hwf : G.Wf) :
    G.bonds.Pairwise (fun p q => p.1 ≠ q.1) := by
  haveI : IsTrans ((Nat × Nat) × BondRow) (fun p q => pairLt p.1 q.1 = true) :=
    ⟨fun a b c h1 h2 => by
      unfold pairLt at *
      simp only [Bool.or_eq_true, Bool.and_eq_true, decide_eq_true_eq] at *
      omega⟩
  have hp : G.bonds.Pairwise (fun p q => pairLt p.1 q.1 = true) :=
    List.chain'_iff_pairwise.mp
      ((chainOk_iff_chain' _ G.bonds).mp hwf.2.1)
  exact hp.imp (fun h => by
    intro he
    unfold pairLt at h
    rw [he] at h
    simp only [Bool.or_eq_true, Bool.and_eq_true, decide_eq_true_eq] at h
    omega)


/-- Lookup of the composite key mapping at an atom key. -/
theorem fkey_composeMap (G : Graph) (σ m2 : List (Nat × Int))
    (hknd : (G.atoms.map Prod.fst).Nodup) (k : Nat)
    (hk : k ∈ G.atoms.map Prod.fst) :
    fkey (composeMap G σ m2) k = fkey m2 (fkey σ k) := by
  obtain ⟨p, hp, hpk⟩ := List.mem_map.mp hk
  have hmem : (k, (fkey m2 (fkey σ k) : Int)) ∈ composeMap G σ m2 := by
    unfold composeMap
    exact List.mem_map.mpr ⟨p, hp, by rw [hpk]⟩
  have hnd' : ((composeMap G σ m2).map Prod.fst).Nodup := by
    unfold composeMap
    rw [List.map_map]
    exact hknd
  show (alookupD (composeMap G σ m2) k (k : Int)).toNat = fkey m2 (fkey σ k)
  unfold alookupD
  rw [alookup_of_nodup _ hnd' k _ hmem]
  simp

theorem perm_atoms_step (G : Graph) (σ m2 : List (Nat × Int)) :
    ((ssort (fun a b : Nat × AtomRow => natLe a.1 b.1)
      (G.atoms.map (fun p => (fkey σ p.1, p.2)))).map
        (fun p => (fkey m2 p.1, p.2))).Perm
      (G.atoms.map (fun p => (fkey m2 (fkey σ p.1), p.2))) := by
  have h1 := (ssort_perm (fun a b : Nat × AtomRow => natLe a.1 b.1)
      (G.atoms.map (fun p => (fkey σ p.1, p.2)))).map
      (fun p : Nat × AtomRow => (fkey m2 p.1, p.2))
  have h2 : (G.atoms.map (fun p => (fkey σ p.1, p.2))).map
      (fun p : Nat × AtomRow => (fkey m2 p.1, p.2)) =
      G.atoms.map (fun p => (fkey m2 (fkey σ p.1), p.2)) := by
    rw [List.map_map]
    rfl
  rw [h2] at h1
  exact h1

theorem perm_bonds_step (G : Graph) (σ m2 : List (Nat × Int)) :
    ((sortBonds (G.bonds.map
      (fun p => (bkey (fkey σ p.1.1) (fkey σ p.1.2), p.2)))).map
        (fun p => (bkey (fkey m2 p.1.1) (fkey m2 p.1.2), p.2))).Perm
      (G.bonds.map (fun p =>
        (bkey (fkey m2 (fkey σ p.1.1)) (fkey m2 (fkey σ p.1.2)), p.2))) := by
  have h1 := (ssort_perm (fun a b : (Nat × Nat) × BondRow => pairLe a.1 b.1)
      (G.bonds.map (fun p => (bkey (fkey σ p.1.1) (fkey σ p.1.2), p.2)))).map
      (fun p : (Nat × Nat) × BondRow =>
        (bkey (fkey m2 p.1.1) (fkey m2 p.1.2), p.2))
  have h2 : (G.bonds.map
      (fun p => (bkey (fkey σ p.1.1) (fkey σ p.1.2), p.2))).map
      (fun p : (Nat × Nat) × BondRow =>
        (bkey (fkey m2 p.1.1) (fkey m2 p.1.2), p.2)) =
      G.bonds.map (fun p =>
        (bkey (fkey m2 (fkey σ p.1.1)) (fkey m2 (fkey σ p.1.2)), p.2)) := by
    rw [List.map_map]
    apply List.map_congr_left
    intro p _
    show (bkey (fkey m2 (bkey (fkey σ p.1.1) (fkey σ p.1.2)).1)
        (fkey m2 (bkey (fkey σ p.1.1) (fkey σ p.1.2)).2), p.2) = _
    rw [bkey_map_comm]
  rw [h2] at h1
  exact h1

/-- Composing two relabelings: relabeling by `σ` and then by `m2` equals
the single relabeling by the composite key mapping, provided the composite
map is injective on the graph's atom keys. -/
theorem relabel_relabel (G : Graph) (σ m2 : List (Nat × Int)) (hwf : G.Wf)
    (hinj2 : (G.atoms.map (fun p => fkey m2 (fkey σ p.1))).Nodup) :
    relabel (relabel G σ) m2 = relabel G (composeMap G σ m2) := by
  have hknd : (G.atoms.map Prod.fst).Nodup := wf_atom_keys_nodup G hwf
  have hginj : ∀ x ∈ G.atoms.map Prod.fst, ∀ y ∈ G.atoms.map Prod.fst,
      fkey m2 (fkey σ x) = fkey m2 (fkey σ y) → x = y := by
    have h1 : ((G.atoms.map Prod.fst).map
        (fun k => fkey m2 (fkey σ k))).Nodup := by
      rw [List.map_map]
      exact hinj2
    exact (List.nodup_map_iff_inj_on hknd).mp h1
  have hatoms : ssort (fun a b : Nat × AtomRow => natLe a.1 b.1)
      ((ssort (fun a b : Nat × AtomRow => natLe a.1 b.1)
        (G.atoms.map (fun p => (fkey σ p.1, p.2)))).map
          (fun p => (fkey m2 p.1, p.2))) =
      ssort (fun a b : Nat × AtomRow => natLe a.1 b.1)
        (G.atoms.map (fun p => (fkey (composeMap G σ m2) p.1, p.2))) := by
    have hmapeq : G.atoms.map
        (fun p => (fkey (composeMap G σ m2) p.1, p.2)) =
        G.atoms.map (fun p => (fkey m2 (fkey σ p.1), p.2)) :=
      List.map_congr_left (fun p hp => by
        rw [fkey_composeMap G σ m2 hknd p.1 (List.mem_map.mpr ⟨p, hp, rfl⟩)])
    rw [hmapeq]
    apply ssort_canonical Prod.fst _ natLe_iff _ _
      (perm_atoms_step G σ m2)
    have hperm := (perm_atoms_step G σ m2).map Prod.fst
    have h2 : (G.atoms.map (fun p => (fkey m2 (fkey σ p.1), p.2))).map
        Prod.fst = G.atoms.map (fun p => fkey m2 (fkey σ p.1)) := by
      rw [List.map_map]
      rfl
    rw [h2] at hperm
    exact hperm.nodup_iff.mpr hinj2
  have hbonds : sortBonds
      ((sortBonds (G.bonds.map
        (fun p => (bkey (fkey σ p.1.1) (fkey σ p.1.2), p.2)))).map
          (fun p => (bkey (fkey m2 p.1.1) (fkey m2 p.1.2), p.2))) =
      sortBonds (G.bonds.map (fun p =>
        (bkey (fkey (composeMap G σ m2) p.1.1)
          (fkey (composeMap G σ m2) p.1.2), p.2))) := by
    have hmapeq : G.bonds.map (fun p =>
        (bkey (fkey (composeMap G σ m2) p.1.1)
          (fkey (composeMap G σ m2) p.1.2), p.2)) =
        G.bonds.map (fun p =>
          (bkey (fkey m2 (fkey σ p.1.1)) (fkey m2 (fkey σ p.1.2)), p.2)) :=
      List.map_congr_left (fun p hp => by
        rw [fkey_composeMap G σ m2 hknd p.1.1 (hwf.2.2 p hp).2.1,
            fkey_composeMap G σ m2 hknd p.1.2 (hwf.2.2 p hp).2.2])
    rw [hmapeq]
    have hndB : ((G.bonds.map (fun p =>
        (bkey (fkey m2 (fkey σ p.1.1)) (fkey m2 (fkey σ p.1.2)), p.2))).map
          (fun p => (toLex p.1 : Lex (Nat × Nat)))).Nodup := by
      rw [List.map_map]
      have hpw0 := wf_bond_keys_pairwise G hwf
      have hpw : G.bonds.Pairwise (fun p q =>
          bkey (fkey m2 (fkey σ p.1.1)) (fkey m2 (fkey σ p.1.2)) ≠
          bkey (fkey m2 (fkey σ q.1.1)) (fkey m2 (fkey σ q.1.2))) := by
        apply (List.Pairwise.and_mem.mp hpw0).imp
        rintro p q ⟨hpmem, hqmem, hne⟩
        intro heq
        rcases bkey_eq_cases _ _ _ _ heq with ⟨h1, h2⟩ | ⟨h1, h2⟩
        · have e1 := hginj _ (hwf.2.2 p hpmem).2.1 _ (hwf.2.2 q hqmem).2.1 h1
          have e2 := hginj _ (hwf.2.2 p hpmem).2.2 _ (hwf.2.2 q hqmem).2.2 h2
          exact hne (Prod.ext e1 e2)
        · have e1 := hginj _ (hwf.2.2 p hpmem).2.1 _ (hwf.2.2 q hqmem).2.2 h1
          have e2 := hginj _ (hwf.2.2 p hpmem).2.2 _ (hwf.2.2 q hqmem).2.1 h2
          have hp1 := (hwf.2.2 p hpmem).1
          have hq1 := (hwf.2.2 q hqmem).1
          omega
      have hpw2 : G.bonds.Pairwise (fun p q =>
          (toLex (bkey (fkey m2 (fkey σ p.1.1)) (fkey m2 (fkey σ p.1.2))) :
            Lex (Nat × Nat)) ≠
          toLex (bkey (fkey m2 (fkey σ q.1.1)) (fkey m2 (fkey σ q.1.2)))) :=
        hpw.imp (fun h => fun he => h (toLex.injective he))
      exact List.pairwise_map.mpr hpw2
    unfold sortBonds
    have hndL := ((perm_bonds_step G σ m2).map
        (fun p => (toLex p.1 : Lex (Nat × Nat)))).nodup_iff.mpr hndB
    exact ssort_canonical (fun p => (toLex p.1 : Lex (Nat × Nat)))
      _ pairLe_iff_lex _ _ (perm_bonds_step G σ m2) hndL
  simp only [relabel, Graph.mk.injEq]
  exact ⟨hatoms, hbonds⟩

/-- C1 counterexample: `gCubic` is connected, stereo-free (so its parities
are trivially canonical), and `sigma27` is an involutive bijection of its
atom keys; yet the canonical forms of `gCubic` and of its relabeling
differ as labeled graphs (different bond sets), because the refined
priorities stall in one class and tie-breaking promotes whichever atom
carries the largest key. -/
theorem canonical_not_permutation_invariant :
    is_connected gCubic = true ∧
    has_stereo gCubic = false ∧
    relabel (relabel gCubic sigma27) sigma27 = gCubic ∧
    canonical gCubic = .ok gCubicCan ∧
    canonical (relabel gCubic sigma27) = .ok gCubicSigmaCan ∧
    gCubicCan ≠ gCubicSigmaCan := by
  refine ⟨by decide, by decide, by decide, by decide, by decide, by decide⟩

/-- C1 amended: `canonical(relabel(G, σ))` is itself a single relabeling
of `G` — by the composite of `σ` with the canonical key mapping the call
returns — and is therefore isomorphic to `canonical(G) = relabel(G, m1)`
via a key bijection; but the two canonical forms need not be equal (see
the counterexample). -/
theorem canonical_relabel_composes (G : Graph) (σ m1 m2 : List (Nat × Int))
    (hwf : G.Wf)
    (hinj2 : (G.atoms.map (fun p => fkey m2 (fkey σ p.1))).Nodup)
    (h2 : canonical_keys (relabel G σ) false = .ok m2)
    (h1 : canonical_keys G false = .ok m1) :
    canonical (relabel G σ) = .ok (relabel G (composeMap G σ m2)) ∧
    canonical G = .ok (relabel G m1) := by
  constructor
  · unfold canonical
    rw [h2, ← relabel_relabel G σ m2 hwf hinj2]
  · unfold canonical
    rw [h1]

/-- Witness for C1 at `gCubic` and the transposition `sigma27`. -/
theorem canonical_relabel_composes_witness :
    gCubic.Wf ∧
    (gCubic.atoms.map (fun p => fkey [(0, 5), (1, 6), (2, 3), (3, 0), (4, 1), (5, 4), (6, 2), (7, 7)] (fkey sigma27 p.1))).Nodup ∧
    canonical_keys (relabel gCubic sigma27) false = .ok [(0, 5), (1, 6), (2, 3), (3, 0), (4, 1), (5, 4), (6, 2), (7, 7)] ∧
    canonical_keys gCubic false = .ok [(0, 2), (1, 4), (2, 0), (3, 3), (4, 5), (5, 1), (6, 6), (7, 7)] ∧
    (canonical (relabel gCubic sigma27) =
        .ok (relabel gCubic (composeMap gCubic sigma27 [(0, 5), (1, 6), (2, 3), (3, 0), (4, 1), (5, 4), (6, 2), (7, 7)])) ∧
      canonical gCubic = .ok (relabel gCubic [(0, 2), (1, 4), (2, 0), (3, 3), (4, 5), (5, 1), (6, 6), (7, 7)])) :=
  ⟨by decide, by decide, by decide, by decide,
   canonical_relabel_composes gCubic sigma27 [(0, 2), (1, 4), (2, 0), (3, 3), (4, 5), (5, 1), (6, 6), (7, 7)] [(0, 5), (1, 6), (2, 3), (3, 0), (4, 1), (5, 4), (6, 2), (7, 7)]
     (by decide) (by decide) (by decide) (by decide)⟩

/-! ## Connectivity correctness: sorted-set and neighbor lemmas -/

theorem mem_ssort (le : α → α → Bool) (l : List α) (x : α) :
    x ∈ ssort le l ↔ x ∈ l :=
  (ssort_perm le l).mem_iff

theorem mem_dedupSorted [DecidableEq α] :
    ∀ (l : List α) (x : α), x ∈ dedupSorted l ↔ x ∈ l
  | [], x => by simp [dedupSorted]
  | [y], x => by simp [dedupSorted]
  | y :: z :: t, x => by
    rw [dedupSorted]
    split
    · next h =>
      rw [mem_dedupSorted (z :: t) x]
      subst h
      rw [List.mem_cons, List.mem_cons, List.mem_cons]
      tauto
    · next h =>
      rw [List.mem_cons, mem_dedupSorted (z :: t) x, ← List.mem_cons]

theorem dedupSorted_head? [DecidableEq α] :
    ∀ (t : List α) (x : α), (dedupSorted (x :: t)).head? = some x
  | [], _ => rfl
  | y :: t, x => by
    rw [dedupSorted]
    split
    · next h =>
      rw [dedupSorted_head? t y]
      exact congrArg some h.symm
    · rfl

theorem dedup_chain_lt :
    ∀ l : List Nat, List.Chain' (fun a b => a ≤ b) l →
      List.Chain' (fun a b => a < b) (dedupSorted l)
  | [], _ => by simp [dedupSorted]
  | [_], _ => by simp [dedupSorted]
  | x :: y :: t, h => by
    rcases List.chain'_cons.mp h with ⟨hxy, ht⟩
    rw [dedupSorted]
    split
    · exact dedup_chain_lt (y :: t) ht
    · next hxe =>
      refine List.chain'_cons'.mpr ⟨?_, dedup_chain_lt (y :: t) ht⟩
      intro b hb
      rw [dedupSorted_head? t y] at hb
      have hby : b = y := by
        have := hb
        simp only [Option.mem_def, Option.some.injEq] at this
        exact this.symm
      subst hby
      exact lt_of_le_of_ne hxy hxe

theorem nodup_of_chain'_lt (l : List Nat)
    (h : List.Chain' (fun a b => a < b) l) : l.Nodup := by
  haveI : IsTrans Nat (fun a b => a < b) := ⟨fun _ _ _ => Nat.lt_trans⟩
  exact List.Pairwise.imp (fun hlt => Nat.ne_of_lt hlt)
    (List.chain'_iff_pairwise.mp h)

/-- `bondsOf` with the TS flag set is just the bond list. -/
theorem bondsOf_true (g : Graph) : bondsOf g true = g.bonds := rfl

theorem mem_atom_neighbor_keys (g : Graph) (a b : Nat) :
    b ∈ atom_neighbor_keys g a true ↔
      ∃ p ∈ g.bonds, (p.1.1 = a ∧ p.1.2 = b) ∨ (p.1.2 = a ∧ p.1.1 = b) := by
  unfold atom_neighbor_keys
  rw [bondsOf_true, mem_ssort, List.mem_filterMap]
  constructor
  · rintro ⟨p, hp, hf⟩
    by_cases h1 : p.1.1 = a
    · rw [if_pos h1] at hf
      exact ⟨p, hp, Or.inl ⟨h1, Option.some_inj.mp hf⟩⟩
    · rw [if_neg h1] at hf
      by_cases h2 : p.1.2 = a
      · rw [if_pos h2] at hf
        exact ⟨p, hp, Or.inr ⟨h2, Option.some_inj.mp hf⟩⟩
      · rw [if_neg h2] at hf
        exact absurd hf (by simp)
  · rintro ⟨p, hp, ⟨h1, h2⟩ | ⟨h1, h2⟩⟩
    · exact ⟨p, hp, by rw [if_pos h1, h2]⟩
    · refine ⟨p, hp, ?_⟩
      by_cases hx : p.1.1 = a
      · rw [if_pos hx]
        exact congrArg some (by omega)
      · rw [if_neg hx, if_pos h1, h2]

theorem isNbr_symm (g : Graph) {a b : Nat} (h : isNbr g a b) : isNbr g b a := by
  unfold isNbr at h ⊢
  rw [mem_atom_neighbor_keys] at h ⊢
  obtain ⟨p, hp, hc⟩ := h
  rcases hc with ⟨h1, h2⟩ | ⟨h1, h2⟩
  · exact ⟨p, hp, Or.inr ⟨h2, h1⟩⟩
  · exact ⟨p, hp, Or.inl ⟨h2, h1⟩⟩

theorem isNbr_mem_keys (g : Graph) (hwf : g.Wf) {a b : Nat}
    (h : isNbr g a b) : b ∈ atom_keys g := by
  unfold isNbr at h
  rw [mem_atom_neighbor_keys] at h
  obtain ⟨p, hp, hc⟩ := h
  rcases hwf.2.2 p hp with ⟨_, h1, h2⟩
  unfold atom_keys
  rcases hc with ⟨_, he⟩ | ⟨_, he⟩
  · exact he ▸ h2
  · exact he ▸ h1

theorem atom_neighbor_keys_congr (g g' : Graph)
    (hB : g'.bonds.map Prod.fst = g.bonds.map Prod.fst) (k : Nat) :
    atom_neighbor_keys g' k true = atom_neighbor_keys g k true := by
  unfold atom_neighbor_keys
  rw [bondsOf_true, bondsOf_true]
  have hfm : ∀ (bs : List ((Nat × Nat) × BondRow)), bs.filterMap (fun p =>
      if p.1.1 = k then some p.1.2 else if p.1.2 = k then some p.1.1 else none) =
      (bs.map Prod.fst).filterMap (fun q =>
        if q.1 = k then some q.2 else if q.2 = k then some q.1 else none) := by
    intro bs
    rw [List.filterMap_map]
    rfl
  rw [hfm, hfm, hB]

/-! ## Closure computation: soundness, boundedness, fixed point -/

theorem closureStep_mem (g : Graph) (acc : List Nat) (x : Nat) :
    x ∈ closureStep g acc ↔ x ∈ acc ∨ ∃ a ∈ acc, isNbr g a x := by
  unfold closureStep
  rw [mem_dedupSorted, mem_ssort, List.mem_append]
  constructor
  · rintro (h | h)
    · exact Or.inl h
    · rw [List.mem_flatten] at h
      obtain ⟨l, hl, hx⟩ := h
      rw [List.mem_map] at hl
      obtain ⟨a, ha, rfl⟩ := hl
      exact Or.inr ⟨a, ha, hx⟩
  · rintro (h | ⟨a, ha, hx⟩)
    · exact Or.inl h
    · refine Or.inr ?_
      rw [List.mem_flatten]
      exact ⟨atom_neighbor_keys g a true, List.mem_map.mpr ⟨a, ha, rfl⟩, hx⟩

theorem closureStep_chain_lt (g : Graph) (acc : List Nat) :
    List.Chain' (fun a b => a < b) (closureStep g acc) := by
  unfold closureStep
  apply dedup_chain_lt
  have h := chain'_ssort natLe (fun a b => by
      rcases Nat.le_total a b with h | h
      · exact Or.inl (by simp [natLe, h])
      · exact Or.inr (by simp [natLe, h]))
    (acc ++ (acc.map (fun k => atom_neighbor_keys g k true)).flatten)
  exact h.imp (fun _ _ hab => of_decide_eq_true hab)

theorem closureStep_subset (g : Graph) (acc : List Nat) :
    acc ⊆ closureStep g acc :=
  fun _ hx => (closureStep_mem g acc _).mpr (Or.inl hx)

theorem closureStep_sub_keys (g : Graph) (hwf : g.Wf) (acc : List Nat)
    (hs : acc ⊆ atom_keys g) : closureStep g acc ⊆ atom_keys g := by
  intro x hx
  rcases (closureStep_mem g acc x).mp hx with h | ⟨a, _, hn⟩
  · exact hs h
  · exact isNbr_mem_keys g hwf hn

theorem closureIter_supset (g : Graph) :
    ∀ (fuel : Nat) (acc : List Nat), acc ⊆ closureIter g fuel acc
  | 0, _ => fun _ hx => hx
  | fuel + 1, acc => by
    simp only [closureIter]
    by_cases he : closureStep g acc = acc
    · rw [if_pos he]
      exact fun _ hx => hx
    · rw [if_neg he]
      exact (closureStep_subset g acc).trans (closureIter_supset g fuel _)

theorem closureIter_sub_keys (g : Graph) (hwf : g.Wf) :
    ∀ (fuel : Nat) (acc : List Nat), acc ⊆ atom_keys g →
      closureIter g fuel acc ⊆ atom_keys g
  | 0, _, hs => hs
  | fuel + 1, acc, hs => by
    simp only [closureIter]
    by_cases he : closureStep g acc = acc
    · rw [if_pos he]
      exact hs
    · rw [if_neg he]
      exact closureIter_sub_keys g hwf fuel _ (closureStep_sub_keys g hwf acc hs)

theorem closureIter_chain_lt (g : Graph) :
    ∀ (fuel : Nat) (acc : List Nat),
      List.Chain' (fun a b => a < b) acc →
      List.Chain' (fun a b => a < b) (closureIter g fuel acc)
  | 0, _, h => h
  | fuel + 1, acc, h => by
    simp only [closureIter]
    by_cases he : closureStep g acc = acc
    · rw [if_pos he]
      exact h
    · rw [if_neg he]
      exact closureIter_chain_lt g fuel _ (closureStep_chain_lt g acc)

theorem closureIter_sound (g : Graph) :
    ∀ (fuel : Nat) (acc : List Nat) (x : Nat), x ∈ closureIter g fuel acc →
      ∃ a ∈ acc, Reach g a x
  | 0, _, x, hx => ⟨x, hx, Relation.ReflTransGen.refl⟩
  | fuel + 1, acc, x, hx => by
    simp only [closureIter] at hx
    by_cases he : closureStep g acc = acc
    · rw [if_pos he] at hx
      exact ⟨x, hx, Relation.ReflTransGen.refl⟩
    · rw [if_neg he] at hx
      obtain ⟨b, hb, hr⟩ := closureIter_sound g fuel _ x hx
      rcases (closureStep_mem g acc b).mp hb with h | ⟨a, ha, hn⟩
      · exact ⟨b, h, hr⟩
      · exact ⟨a, ha, (Relation.ReflTransGen.single hn).trans hr⟩

theorem closureIter_fix (g : Graph) (hwf : g.Wf) :
    ∀ (fuel : Nat) (acc : List Nat),
      List.Chain' (fun a b => a < b) acc → acc ⊆ atom_keys g →
      (atom_keys g).length + 1 ≤ fuel + acc.length →
      closureStep g (closureIter g fuel acc) = closureIter g fuel acc
  | 0, acc, hch, hsub, hlen => by
    exfalso
    have hnd : acc.Nodup := nodup_of_chain'_lt acc hch
    have : acc.length ≤ (atom_keys g).length :=
      (List.subperm_of_subset hnd hsub).length_le
    omega
  | fuel + 1, acc, hch, hsub, hlen => by
    simp only [closureIter]
    by_cases he : closureStep g acc = acc
    · rw [if_pos he]
      exact he
    · rw [if_neg he]
      haveI : IsAntisymm Nat (fun a b => a < b) :=
        ⟨fun a b h1 h2 => absurd h2 (Nat.lt_asymm h1)⟩
      haveI : IsTrans Nat (fun a b : Nat => a < b) := ⟨fun _ _ _ => Nat.lt_trans⟩
      have hnd : acc.Nodup := nodup_of_chain'_lt acc hch
      have hle : acc.length ≤ (closureStep g acc).length :=
        (List.subperm_of_subset hnd (closureStep_subset g acc)).length_le
      have hne : acc.length ≠ (closureStep g acc).length := by
        intro heq
        apply he
        have hperm : acc.Perm (closureStep g acc) :=
          (List.subperm_of_subset hnd (closureStep_subset g acc)).perm_of_length_le
            (le_of_eq heq.symm)
        exact (List.eq_of_perm_of_sorted hperm
          (List.chain'_iff_pairwise.mp hch)
          (List.chain'_iff_pairwise.mp (closureStep_chain_lt g acc))).symm
      exact closureIter_fix g hwf fuel (closureStep g acc)
        (closureStep_chain_lt g acc) (closureStep_sub_keys g hwf acc hsub)
        (by omega)

theorem closed_reach_mem (g : Graph) (r : List Nat)
    (hfix : closureStep g r = r) {a x : Nat} (ha : a ∈ r)
    (hr : Reach g a x) : x ∈ r := by
  unfold Reach at hr
  induction hr with
  | refl => exact ha
  | tail _ hn ih => exact hfix ▸ (closureStep_mem g r _).mpr (Or.inr ⟨_, ih, hn⟩)

theorem component_keys_fix (g : Graph) (hwf : g.Wf) (k : Nat)
    (hk : k ∈ atom_keys g) :
    closureStep g (component_keys g k) = component_keys g k := by
  unfold component_keys
  apply closureIter_fix g hwf _ _ (by simp) (by simpa using hk)
  have : (atom_keys g).length = g.atoms.length := by simp [atom_keys]
  omega

theorem mem_component_keys_self (g : Graph) (k : Nat) :
    k ∈ component_keys g k :=
  closureIter_supset g _ [k] (List.mem_singleton_self k)

theorem component_keys_sound (g : Graph) (k x : Nat)
    (hx : x ∈ component_keys g k) : Reach g k x := by
  unfold component_keys at hx
  obtain ⟨a, ha, hr⟩ := closureIter_sound g _ [k] x hx
  rw [List.mem_singleton] at ha
  exact ha ▸ hr

theorem component_keys_complete (g : Graph) (hwf : g.Wf) {k x : Nat}
    (hk : k ∈ atom_keys g) (hr : Reach g k x) : x ∈ component_keys g k :=
  closed_reach_mem g _ (component_keys_fix g hwf k hk)
    (mem_component_keys_self g k) hr

theorem component_keys_sub (g : Graph) (hwf : g.Wf) {k : Nat}
    (hk : k ∈ atom_keys g) : component_keys g k ⊆ atom_keys g :=
  closureIter_sub_keys g hwf _ [k] (by simpa using hk)

theorem component_keys_closed (g : Graph) (hwf : g.Wf) {k a x : Nat}
    (hk : k ∈ atom_keys g) (ha : a ∈ component_keys g k)
    (hn : isNbr g a x) : x ∈ component_keys g k :=
  component_keys_fix g hwf k hk ▸
    (closureStep_mem g (component_keys g k) x).mpr (Or.inr ⟨a, ha, hn⟩)

/-! ## Skeleton congruence: connectivity and dummy-freeness depend only on
the atom keys, their symbols, and the bond keys -/

theorem skel_atom_keys {g g' : Graph} (h : skel g' = skel g) :
    atom_keys g' = atom_keys g := by
  have h1 : g'.atoms.map (fun p => (p.1, p.2.symb)) =
      g.atoms.map (fun p => (p.1, p.2.symb)) := congrArg Prod.fst h
  have h2 := congrArg (List.map Prod.fst) h1
  rw [List.map_map, List.map_map] at h2
  exact h2

theorem skel_bond_keys {g g' : Graph} (h : skel g' = skel g) :
    g'.bonds.map Prod.fst = g.bonds.map Prod.fst := congrArg Prod.snd h

theorem is_connected_congr {g g' : Graph}
    (hA : atom_keys g' = atom_keys g)
    (hB : g'.bonds.map Prod.fst = g.bonds.map Prod.fst) :
    is_connected g' = is_connected g := by
  have hstep : ∀ acc, closureStep g' acc = closureStep g acc := fun acc => by
    unfold closureStep
    rw [List.map_congr_left (fun a _ => atom_neighbor_keys_congr g g' hB a)]
  have hiter : ∀ fuel acc, closureIter g' fuel acc = closureIter g fuel acc := by
    intro fuel
    induction fuel with
    | zero => intro acc; rfl
    | succ n ih => intro acc; simp only [closureIter, hstep, ih]
  have hlen : g'.atoms.length = g.atoms.length := by
    have := congrArg List.length hA
    simpa [atom_keys] using this
  have hck : ∀ k, component_keys g' k = component_keys g k := by
    intro k
    unfold component_keys
    rw [hlen, hiter]
  have haux : ∀ t seen,
      (componentsAux g' t seen).length = (componentsAux g t seen).length := by
    intro t
    induction t with
    | nil => intro seen; rfl
    | cons k t ih =>
      intro seen
      simp only [componentsAux]
      by_cases hk : k ∈ seen
      · rw [if_pos hk, if_pos hk, ih]
      · rw [if_neg hk, if_neg hk]
        simp only [List.length_cons, hck, ih]
  unfold is_connected connected_components
  rw [hA, haux]

theorem dummyFree_congr {g g' : Graph} (h : skel g' = skel g) :
    dummyFree g' = dummyFree g := by
  have h1 : g'.atoms.map (fun p => (p.1, p.2.symb)) =
      g.atoms.map (fun p => (p.1, p.2.symb)) := congrArg Prod.fst h
  unfold dummyFree
  have hall : ∀ (l : List (Nat × AtomRow)),
      l.all (fun p => decide (p.2.symb ≠ "X")) =
      (l.map (fun p => (p.1, p.2.symb))).all (fun q => decide (q.2 ≠ "X")) := by
    intro l
    induction l with
    | nil => rfl
    | cons x t ih => simp only [List.all_cons, List.map_cons, ih]
  rw [hall, hall, h1]

theorem without_dummy_eq_self_iff (g : Graph) :
    without_dummy_atoms g = g ↔ dummyFree g = true := by
  constructor
  · intro h
    unfold dummyFree
    rw [List.all_eq_true]
    intro p hp
    exact List.filter_eq_self.mp (congrArg Graph.atoms h) p hp
  · intro h
    have hall : ∀ p ∈ g.atoms, (decide (p.2.symb ≠ "X")) = true := by
      rw [← List.all_eq_true]
      exact h
    have hat : g.atoms.filter (fun p => decide (p.2.symb ≠ "X")) = g.atoms :=
      List.filter_eq_self.mpr hall
    have hdk : (g.atoms.filter (fun p => decide (p.2.symb = "X"))) = [] := by
      rw [List.filter_eq_nil_iff]
      intro p hp
      have h1 := hall p hp
      simp only [decide_eq_true_eq] at h1 ⊢
      exact h1
    unfold without_dummy_atoms
    simp only [hdk, List.map_nil]
    have hbnd : g.bonds.filter
        (fun p => decide (p.1.1 ∉ ([] : List Nat) ∧ p.1.2 ∉ ([] : List Nat)))
        = g.bonds :=
      List.filter_eq_self.mpr (fun p _ => by simp)
    rw [hat, hbnd]

theorem skel_without_stereo (g : Graph) : skel (without_stereo g) = skel g := by
  unfold skel without_stereo
  simp only [List.map_map]
  rfl

theorem skel_ts_reverse (g : Graph) : skel (ts_reverse g) = skel g := by
  unfold skel ts_reverse
  simp only [List.map_map]
  rfl

theorem skel_set_stereo_parities (g : Graph) (d : List (SKey × Option Bool)) :
    skel (set_stereo_parities g d) = skel g := by
  unfold skel set_stereo_parities
  congr 1
  · rw [List.map_map]
    apply List.map_congr_left
    intro p _
    dsimp only [Function.comp]
    cases alookup d (SKey.atm p.1) <;> rfl
  · rw [List.map_map]
    apply List.map_congr_left
    intro p _
    dsimp only [Function.comp]
    cases alookup d (SKey.bnd p.1) <;> rfl

/-! ## Subgraphs of components are connected -/

theorem mem_atom_keys_subgraph (g : Graph) (ks : List Nat) (x : Nat) :
    x ∈ atom_keys (subgraph g ks) ↔ x ∈ atom_keys g ∧ x ∈ ks := by
  show x ∈ (g.atoms.filter (fun p => decide (p.1 ∈ ks))).map Prod.fst ↔
    x ∈ g.atoms.map Prod.fst ∧ x ∈ ks
  constructor
  · intro h
    obtain ⟨p, hp, rfl⟩ := List.mem_map.mp h
    rcases List.mem_filter.mp hp with ⟨hm, hc⟩
    exact ⟨List.mem_map.mpr ⟨p, hm, rfl⟩, of_decide_eq_true hc⟩
  · rintro ⟨h, hk⟩
    obtain ⟨p, hp, rfl⟩ := List.mem_map.mp h
    exact List.mem_map.mpr ⟨p, List.mem_filter.mpr ⟨hp, decide_eq_true hk⟩, rfl⟩

theorem subgraph_wf (g : Graph) (hwf : g.Wf) (ks : List Nat) :
    (subgraph g ks).Wf := by
  haveI : IsTrans (Nat × AtomRow) (fun a b => decide (a.1 < b.1) = true) :=
    ⟨fun a b c h1 h2 => by
      simp only [decide_eq_true_eq] at *
      omega⟩
  haveI : IsTrans ((Nat × Nat) × BondRow) (fun a b => pairLt a.1 b.1 = true) :=
    ⟨fun a b c h1 h2 => by
      unfold pairLt at *
      simp only [Bool.or_eq_true, Bool.and_eq_true, decide_eq_true_eq] at *
      omega⟩
  refine ⟨?_, ?_, ?_⟩
  · rw [chainOk_iff_chain', List.chain'_iff_pairwise]
    exact (List.chain'_iff_pairwise.mp
      ((chainOk_iff_chain' _ g.atoms).mp hwf.1)).sublist
      (List.filter_sublist _)
  · rw [chainOk_iff_chain', List.chain'_iff_pairwise]
    exact (List.chain'_iff_pairwise.mp
      ((chainOk_iff_chain' _ g.bonds).mp hwf.2.1)).sublist
      (List.filter_sublist _)
  · intro p hp
    have hmem := List.mem_of_mem_filter hp
    have hcond := List.of_mem_filter hp
    simp only [Bool.and_eq_true, decide_eq_true_eq] at hcond
    rcases hwf.2.2 p hmem with ⟨hlt, h1, h2⟩
    refine ⟨hlt, ?_, ?_⟩
    · obtain ⟨q, hq, hqk⟩ := List.mem_map.mp h1
      exact List.mem_map.mpr
        ⟨q, List.mem_filter.mpr ⟨hq, by simp [hqk, hcond.1]⟩, hqk⟩
    · obtain ⟨q, hq, hqk⟩ := List.mem_map.mp h2
      exact List.mem_map.mpr
        ⟨q, List.mem_filter.mpr ⟨hq, by simp [hqk, hcond.2]⟩, hqk⟩

theorem nbr_subgraph_to (g : Graph) (ks : List Nat) {a b : Nat}
    (h : isNbr (subgraph g ks) a b) : isNbr g a b := by
  unfold isNbr at h ⊢
  rw [mem_atom_neighbor_keys] at h ⊢
  obtain ⟨p, hp, hc⟩ := h
  exact ⟨p, List.mem_of_mem_filter hp, hc⟩

theorem nbr_subgraph_of (g : Graph) (ks : List Nat) {a b : Nat}
    (ha : a ∈ ks) (hb : b ∈ ks) (h : isNbr g a b) :
    isNbr (subgraph g ks) a b := by
  unfold isNbr at h ⊢
  rw [mem_atom_neighbor_keys] at h ⊢
  obtain ⟨p, hp, hc⟩ := h
  rcases hc with ⟨h1, h2⟩ | ⟨h1, h2⟩
  · exact ⟨p, List.mem_filter.mpr ⟨hp, by rw [h1, h2]; simp [ha, hb]⟩,
      Or.inl ⟨h1, h2⟩⟩
  · exact ⟨p, List.mem_filter.mpr ⟨hp, by rw [h1, h2]; simp [ha, hb]⟩,
      Or.inr ⟨h1, h2⟩⟩

theorem reach_symm (g : Graph) {a b : Nat} (h : Reach g a b) : Reach g b a := by
  unfold Reach at h ⊢
  induction h with
  | refl => exact .refl
  | tail _ hn ih => exact (Relation.ReflTransGen.single (isNbr_symm g hn)).trans ih

theorem reach_subgraph (g : Graph) (ks : List Nat)
    (hclosed : ∀ a ∈ ks, ∀ x, isNbr g a x → x ∈ ks) {a x : Nat}
    (ha : a ∈ ks) (h : Reach g a x) :
    x ∈ ks ∧ Reach (subgraph g ks) a x := by
  unfold Reach at h ⊢
  induction h with
  | refl => exact ⟨ha, .refl⟩
  | tail _ hn ih =>
    obtain ⟨hbks, hr⟩ := ih
    have hcks := hclosed _ hbks _ hn
    exact ⟨hcks, hr.tail (nbr_subgraph_of g ks hbks hcks hn)⟩

theorem componentsAux_nil_of_seen (g : Graph) :
    ∀ (t seen : List Nat), (∀ x ∈ t, x ∈ seen) →
      componentsAux g t seen = []
  | [], _, _ => rfl
  | k :: t, seen, h => by
    simp only [componentsAux]
    rw [if_pos (h k (List.mem_cons_self k t))]
    exact componentsAux_nil_of_seen g t seen (fun x hx => h x (List.mem_cons_of_mem k hx))

theorem componentsAux_mem (g : Graph) :
    ∀ (t seen : List Nat) (cg : Graph), cg ∈ componentsAux g t seen →
      ∃ k ∈ t, cg = subgraph g (component_keys g k)
  | [], _, _, h => absurd h (List.not_mem_nil _)
  | k :: t, seen, cg, h => by
    simp only [componentsAux] at h
    by_cases hk : k ∈ seen
    · rw [if_pos hk] at h
      obtain ⟨k', hk', he⟩ := componentsAux_mem g t seen cg h
      exact ⟨k', List.mem_cons_of_mem k hk', he⟩
    · rw [if_neg hk] at h
      rcases List.mem_cons.mp h with he | h'
      · exact ⟨k, List.mem_cons_self k t, he⟩
      · obtain ⟨k', hk', he⟩ := componentsAux_mem g t _ cg h'
        exact ⟨k', List.mem_cons_of_mem k hk', he⟩

theorem component_subgraph_connected (g : Graph) (hwf : g.Wf) (k : Nat)
    (hk : k ∈ atom_keys g) :
    is_connected (subgraph g (component_keys g k)) = true := by
  set r := component_keys g k with hr
  set sg := subgraph g r with hsg
  have hclosed : ∀ a ∈ r, ∀ x, isNbr g a x → x ∈ r :=
    fun a ha x hn => component_keys_closed g hwf hk ha hn
  have hwfsg : sg.Wf := subgraph_wf g hwf r
  have hkg : k ∈ atom_keys sg :=
    (mem_atom_keys_subgraph g r k).mpr ⟨hk, mem_component_keys_self g k⟩
  obtain ⟨k0, t, hak⟩ : ∃ k0 t, atom_keys sg = k0 :: t := by
    cases h : atom_keys sg with
    | nil => rw [h] at hkg; exact absurd hkg (List.not_mem_nil k)
    | cons a b => exact ⟨a, b, rfl⟩
  have hk0 : k0 ∈ atom_keys sg := by
    rw [hak]
    exact List.mem_cons_self k0 t
  have hallck : ∀ x ∈ atom_keys sg, x ∈ component_keys sg k0 := by
    intro x hx
    have hxr : x ∈ r := ((mem_atom_keys_subgraph g r x).mp hx).2
    have hk0r : k0 ∈ r := ((mem_atom_keys_subgraph g r k0).mp hk0).2
    have hRkx : Reach g k x := component_keys_sound g k x hxr
    have hRkk0 : Reach g k k0 := component_keys_sound g k k0 hk0r
    have hRk0x : Reach g k0 x := (reach_symm g hRkk0).trans hRkx
    have hrs := reach_subgraph g r hclosed hk0r hRk0x
    exact component_keys_complete sg hwfsg hk0 hrs.2
  have hone : componentsAux sg (atom_keys sg) [] =
      [subgraph sg (component_keys sg k0)] := by
    rw [hak]
    simp only [componentsAux]
    rw [if_neg (List.not_mem_nil k0)]
    have hnil : componentsAux sg t ([] ++ component_keys sg k0) = [] := by
      apply componentsAux_nil_of_seen
      intro x hx
      have hxsg : x ∈ atom_keys sg := by
        rw [hak]
        exact List.mem_cons_of_mem k0 hx
      simpa using hallck x hxsg
    rw [hnil]
  unfold is_connected connected_components
  rw [hone]
  rfl

theorem without_dummy_atoms_dummyFree (g : Graph) :
    dummyFree (without_dummy_atoms g) = true := by
  unfold dummyFree
  rw [List.all_eq_true]
  intro p hp
  have hp' : p ∈ g.atoms.filter (fun q => decide (q.2.symb ≠ "X")) := hp
  exact (List.mem_filter.mp hp').2

theorem without_dummy_atoms_wf (g : Graph) (hwf : g.Wf) :
    (without_dummy_atoms g).Wf := by
  haveI : IsTrans (Nat × AtomRow) (fun a b => decide (a.1 < b.1) = true) :=
    ⟨fun a b c h1 h2 => by
      simp only [decide_eq_true_eq] at *
      omega⟩
  haveI : IsTrans ((Nat × Nat) × BondRow) (fun a b => pairLt a.1 b.1 = true) :=
    ⟨fun a b c h1 h2 => by
      unfold pairLt at *
      simp only [Bool.or_eq_true, Bool.and_eq_true, decide_eq_true_eq] at *
      omega⟩
  refine ⟨?_, ?_, ?_⟩
  · rw [chainOk_iff_chain', List.chain'_iff_pairwise]
    exact (List.chain'_iff_pairwise.mp
      ((chainOk_iff_chain' _ g.atoms).mp hwf.1)).sublist
      (List.filter_sublist _)
  · rw [chainOk_iff_chain', List.chain'_iff_pairwise]
    exact (List.chain'_iff_pairwise.mp
      ((chainOk_iff_chain' _ g.bonds).mp hwf.2.1)).sublist
      (List.filter_sublist _)
  · intro p hp
    have hmem := List.mem_of_mem_filter hp
    have hcond := List.of_mem_filter hp
    simp only [decide_eq_true_eq] at hcond
    rcases hwf.2.2 p hmem with ⟨hlt, h1, h2⟩
    refine ⟨hlt, ?_, ?_⟩
    · obtain ⟨q, hq, hqk⟩ := List.mem_map.mp h1
      have hqx : q.2.symb ≠ "X" := by
        intro hx
        exact hcond.1 (hqk ▸ List.mem_map.mpr
          ⟨q, List.mem_filter.mpr ⟨hq, by simp [hx]⟩, rfl⟩)
      exact List.mem_map.mpr
        ⟨q, List.mem_filter.mpr ⟨hq, by simp [hqx]⟩, hqk⟩
    · obtain ⟨q, hq, hqk⟩ := List.mem_map.mp h2
      have hqx : q.2.symb ≠ "X" := by
        intro hx
        exact hcond.2 (hqk ▸ List.mem_map.mpr
          ⟨q, List.mem_filter.mpr ⟨hq, by simp [hx]⟩, rfl⟩)
      exact List.mem_map.mpr
        ⟨q, List.mem_filter.mpr ⟨hq, by simp [hqx]⟩, hqk⟩

theorem connected_components_props (g : Graph) (hwf : g.Wf) (cg : Graph)
    (hcg : cg ∈ connected_components g) :
    is_connected cg = true ∧ cg.Wf ∧
      (dummyFree g = true → dummyFree cg = true) := by
  obtain ⟨k, hk, rfl⟩ := componentsAux_mem g (atom_keys g) [] cg hcg
  refine ⟨component_subgraph_connected g hwf k hk, subgraph_wf g hwf _, ?_⟩
  intro hdf
  unfold dummyFree at hdf ⊢
  rw [List.all_eq_true] at hdf ⊢
  intro p hp
  exact hdf p (List.mem_of_mem_filter hp)

/-! ## The refiner fails only on its preconditions or on fuel -/

theorem refineAux_ok_or_fuel (srt : PriDct → Nat → SortVal)
    (ngbOf : Nat → List Nat) :
    ∀ (fuel : Nat) (pri : PriDct) (cla : ClaDct) (q : List (Int × List Nat)),
      (∃ p, refineAux srt ngbOf fuel pri cla q = .ok p) ∨
        refineAux srt ngbOf fuel pri cla q = .error .fuel
  | 0, _, _, _ => Or.inr rfl
  | _ + 1, pri, _, [] => Or.inl ⟨pri, rfl⟩
  | fuel + 1, pri, cla_dct, (idx, c) :: rest => by
    simp only [refineAux]
    split
    · exact refineAux_ok_or_fuel srt ngbOf fuel pri cla_dct rest
    · exact refineAux_ok_or_fuel srt ngbOf fuel _ _ _

theorem refine_priorities_not_connected (gra : Graph) (pri? : Option PriDct)
    (h : is_connected gra = false) :
    refine_priorities gra pri? = .error .notConnected := by
  unfold refine_priorities
  rw [if_pos (by rw [h]; rfl)]

theorem refine_priorities_dummy (gra : Graph) (pri? : Option PriDct)
    (hc : is_connected gra = true) (hd : gra ≠ without_dummy_atoms gra) :
    refine_priorities gra pri? = .error .dummyAtoms := by
  unfold refine_priorities
  rw [if_neg (by simp [hc]), if_pos hd]

theorem refine_priorities_ok_or_fuel (gra : Graph) (pri? : Option PriDct)
    (hc : is_connected gra = true) (hd : gra = without_dummy_atoms gra) :
    (∃ p, refine_priorities gra pri? = .ok p) ∨
      refine_priorities gra pri? = .error .fuel := by
  unfold refine_priorities
  rw [if_neg (by simp [hc]), if_neg (fun hne => hne hd)]
  exact refineAux_ok_or_fuel _ _ _ _ _ _

theorem refine_priorities_err_fuel (gra : Graph) (pri? : Option PriDct)
    (hc : is_connected gra = true) (hd : gra = without_dummy_atoms gra)
    (e : CErr) (h : refine_priorities gra pri? = .error e) : e = .fuel := by
  rcases refine_priorities_ok_or_fuel gra pri? hc hd with ⟨p, hp⟩ | hf
  · rw [hp] at h
    simp at h
  · rw [hf] at h
    injection h with h2
    exact h2.symm

theorem stereogenic_atom_err (gra : Graph) (pri : PriDct) (a : Bool) (e : CErr)
    (h : stereogenic_atom_keys_from_priorities gra pri a = .error e) :
    ∃ k, e = .atomArity k := by
  unfold stereogenic_atom_keys_from_priorities at h
  dsimp only at h
  split at h <;> try (split at h)
  all_goals
    first
      | exact ⟨_, by injection h with h2; exact h2.symm⟩
      | simp at h

theorem stereogenic_bond_err (gra : Graph) (pri : PriDct) (a : Bool) (e : CErr)
    (h : stereogenic_bond_keys_from_priorities gra pri a = .error e) :
    ∃ k1 k2, e = .bondArity k1 k2 := by
  unfold stereogenic_bond_keys_from_priorities at h
  dsimp only at h
  split at h <;> try (split at h)
  all_goals
    first
      | exact ⟨_, _, by injection h with h2; exact h2.symm⟩
      | simp at h

theorem stereogenic_keys_err (gra : Graph) (pri : PriDct) (a : Bool) (e : CErr)
    (h : stereogenic_keys_from_priorities gra pri a = .error e) :
    e ≠ .notConnected ∧ e ≠ .dummyAtoms := by
  unfold stereogenic_keys_from_priorities at h
  split at h
  · next e1 heq =>
    obtain ⟨k, rfl⟩ := stereogenic_atom_err gra pri a e1 heq
    injection h with h2
    subst h2
    exact ⟨by simp, by simp⟩
  · next aks heq =>
    split at h
    · next e2 heq2 =>
      obtain ⟨k1, k2, rfl⟩ := stereogenic_bond_err gra pri a e2 heq2
      injection h with h2
      subst h2
      exact ⟨by simp, by simp⟩
    · next bks heq2 => simp at h

theorem breakAux_err_fuel (gra : Graph)
    (hc : is_connected gra = true) (hd : gra = without_dummy_atoms gra) :
    ∀ (fuel : Nat) (pri : PriDct) (q : List (Int × List Nat)) (e : CErr),
      breakAux gra fuel pri q = .error e → e = .fuel
  | 0, _, _, e, h => by
    injection h with h2
    exact h2.symm
  | fuel + 1, pri, [], e, h => by simp [breakAux] at h
  | fuel + 1, pri, (idx, cla) :: rest, e, h => by
    simp only [breakAux] at h
    split at h
    · next e1 heq =>
      injection h with h2
      rw [← h2]
      exact refine_priorities_err_fuel gra _ hc hd e1 heq
    · next pri1 heq =>
      exact breakAux_err_fuel gra hc hd fuel pri1 _ e h

theorem break_priority_ties_err_fuel (gra : Graph) (pri : PriDct)
    (hc : is_connected gra = true) (hd : gra = without_dummy_atoms gra)
    (e : CErr) (h : break_priority_ties gra pri = .error e) : e = .fuel := by
  unfold break_priority_ties at h
  rw [if_neg (by simp [hc]), if_neg (fun hne => hne hd)] at h
  exact breakAux_err_fuel gra hc hd _ _ _ e h

theorem break_ite_err (g : Graph) (p : PriDct) (bt : Bool) (e : CErr)
    (hc : is_connected g = true) (hd : g = without_dummy_atoms g)
    (h : (if bt then break_priority_ties g p else .ok p) = .error e) :
    e = .fuel := by
  by_cases hb : bt = true
  · rw [if_pos hb] at h
    exact break_priority_ties_err_fuel g p hc hd e h
  · rw [if_neg hb] at h
    simp at h

/-! ## Precondition-freedom of the driver loop and the public entry point -/

theorem algoLoop_spec (pe1 pe2 : PEval) (gra0 : Graph) :
    ∀ (fuel : Nat) (prev : Option (Option PriDct)) (cur : Option PriDct)
      (gra1 gra2 : Graph),
      is_connected gra1 = true → gra1 = without_dummy_atoms gra1 →
      (∀ e, algoLoop pe1 pe2 gra0 fuel prev cur gra1 gra2 = .error e →
        e ≠ .notConnected ∧ e ≠ .dummyAtoms) ∧
      (∀ pg, algoLoop pe1 pe2 gra0 fuel prev cur gra1 gra2 = .ok pg →
        is_connected pg.2.1 = true ∧ pg.2.1 = without_dummy_atoms pg.2.1)
  | 0, prev, cur, gra1, gra2 => by
    intro hc hd
    constructor
    · intro e h
      injection h with h2
      rw [← h2]
      exact ⟨by simp, by simp⟩
    · intro pg h
      simp [algoLoop] at h
  | fuel + 1, prev, cur, gra1, gra2 => by
    intro hc hd
    simp only [algoLoop]
    by_cases hpc : prev = some cur
    · rw [if_pos hpc]
      constructor
      · intro e h
        simp at h
      · intro pg h
        injection h with h2
        rw [← h2]
        exact ⟨hc, hd⟩
    · rw [if_neg hpc]
      split
      · next e1 heq =>
        constructor
        · intro e h
          injection h with h2
          rw [← h2, refine_priorities_err_fuel gra1 cur hc hd e1 heq]
          exact ⟨by simp, by simp⟩
        · intro pg h
          simp at h
      · next p1 heq =>
        split
        · next e2 heq2 =>
          constructor
          · intro e h
            injection h with h2
            rw [← h2]
            exact stereogenic_keys_err gra1 p1 false e2 heq2
          · intro pg h
            simp at h
        · next keys heq2 =>
          by_cases hk : keys.isEmpty = true
          · rw [if_pos hk]
            constructor
            · intro e h
              simp at h
            · intro pg h
              injection h with h2
              rw [← h2]
              exact ⟨hc, hd⟩
          · rw [if_neg hk]
            have hsk : skel (set_stereo_parities gra1
                (keys.map (fun k => (k, peval pe1 gra0 p1 k)))) = skel gra1 :=
              skel_set_stereo_parities gra1 _
            have hc' : is_connected (set_stereo_parities gra1
                (keys.map (fun k => (k, peval pe1 gra0 p1 k)))) = true := by
              rw [is_connected_congr (skel_atom_keys hsk) (skel_bond_keys hsk)]
              exact hc
            have hd' : set_stereo_parities gra1
                (keys.map (fun k => (k, peval pe1 gra0 p1 k))) =
                without_dummy_atoms (set_stereo_parities gra1
                  (keys.map (fun k => (k, peval pe1 gra0 p1 k)))) := by
              have hdf : dummyFree gra1 = true :=
                (without_dummy_eq_self_iff gra1).mp hd.symm
              have hdf' : dummyFree (set_stereo_parities gra1
                  (keys.map (fun k => (k, peval pe1 gra0 p1 k)))) = true := by
                rw [dummyFree_congr hsk]
                exact hdf
              exact ((without_dummy_eq_self_iff _).mpr hdf').symm
            exact algoLoop_spec pe1 pe2 gra0 fuel (some cur) (some p1) _ _ hc' hd'

theorem algo_spec (pe1 pe2 : PEval) (gra_ : Graph) (pri_ : Option PriDct)
    (ts_rev : Bool) (hc : is_connected gra_ = true)
    (hd : gra_ = without_dummy_atoms gra_) :
    (∀ e, algo pe1 pe2 gra_ pri_ ts_rev = .error e →
      e ≠ .notConnected ∧ e ≠ .dummyAtoms) ∧
    (∀ pg, algo pe1 pe2 gra_ pri_ ts_rev = .ok pg →
      is_connected pg.2.1 = true ∧ pg.2.1 = without_dummy_atoms pg.2.1) := by
  have hsk0 : skel (if ts_rev then ts_reverse gra_ else gra_) = skel gra_ := by
    cases ts_rev with
    | false => rfl
    | true => exact skel_ts_reverse gra_
  have hskg : skel (without_stereo (if ts_rev then ts_reverse gra_ else gra_)) =
      skel gra_ := (skel_without_stereo _).trans hsk0
  have hc' : is_connected (without_stereo
      (if ts_rev then ts_reverse gra_ else gra_)) = true := by
    rw [is_connected_congr (skel_atom_keys hskg) (skel_bond_keys hskg)]
    exact hc
  have hd' : without_stereo (if ts_rev then ts_reverse gra_ else gra_) =
      without_dummy_atoms (without_stereo
        (if ts_rev then ts_reverse gra_ else gra_)) := by
    have hdf : dummyFree gra_ = true := (without_dummy_eq_self_iff gra_).mp hd.symm
    have hdf' : dummyFree (without_stereo
        (if ts_rev then ts_reverse gra_ else gra_)) = true := by
      rw [dummyFree_congr hskg]
      exact hdf
    exact ((without_dummy_eq_self_iff _).mpr hdf').symm
  obtain ⟨herr, hok⟩ := algoLoop_spec pe1 pe2
    (if ts_rev then ts_reverse gra_ else gra_) (algo_fuel gra_) none pri_ _ _
    hc' hd'
  unfold algo
  dsimp only
  split
  · next e1 heq =>
    constructor
    · intro e h
      injection h with h2
      rw [← h2]
      exact herr e1 heq
    · intro pg h
      simp at h
  · next pri g1b g2b heq =>
    constructor
    · intro e h
      simp at h
    · intro pg h
      injection h with h2
      rw [← h2]
      exact hok (pri, g1b, g2b) heq

theorem comp_no_precond (gra : Graph) (pe1? pe2? : Option PEval)
    (bt bb : Bool) (pri? : Option PriDct)
    (hc : is_connected gra = true) (hd : gra = without_dummy_atoms gra) :
    ∀ e, calculate_priorities_and_assign_stereo_comp gra pe1? pe2? bt bb pri?
        = .error e →
      e ≠ .notConnected ∧ e ≠ .dummyAtoms := by
  intro e h
  unfold calculate_priorities_and_assign_stereo_comp at h
  dsimp only at h
  obtain ⟨herr1, hok1⟩ := algo_spec (pe1?.getD .readCanonical)
    (pe2?.getD (pe1?.getD .readCanonical)) gra pri? false hc hd
  split at h
  · next e1 heq =>
    injection h with h2
    rw [← h2]
    exact herr1 e1 heq
  · next pri gra1 gra2 heq =>
    have hg1 := hok1 (pri, gra1, gra2) heq
    obtain ⟨herr2, hok2⟩ := algo_spec (pe1?.getD .readCanonical)
      (pe2?.getD (pe1?.getD .readCanonical)) gra (some pri) true hc hd
    by_cases hts : is_ts_graph gra = true
    · rw [if_pos hts] at h
      cases hA2 : algo (pe1?.getD .readCanonical)
          (pe2?.getD (pe1?.getD .readCanonical)) gra (some pri) true with
      | error e2 =>
        rw [hA2] at h
        dsimp only at h
        injection h with h2
        rw [← h2]
        exact herr2 e2 hA2
      | ok r2 =>
        obtain ⟨rpri, rgra1, rgra2⟩ := r2
        have hg2 := hok2 (rpri, rgra1, rgra2) hA2
        rw [hA2] at h
        dsimp only at h
        by_cases hcan : (!ts_is_canonical_direciton gra1 pri rgra1 rpri) = true
        · rw [if_pos hcan] at h
          dsimp only at h
          split at h
          · next eb heqb =>
            injection h with h2
            rw [← h2, break_ite_err rgra1 rpri bt eb hg2.1 hg2.2 heqb]
            exact ⟨by simp, by simp⟩
          · next pri2 heqb => simp at h
        · rw [if_neg hcan] at h
          dsimp only at h
          split at h
          · next eb heqb =>
            injection h with h2
            rw [← h2, break_ite_err gra1 pri bt eb hg1.1 hg1.2 heqb]
            exact ⟨by simp, by simp⟩
          · next pri2 heqb => simp at h
    · rw [if_neg hts] at h
      dsimp only at h
      split at h
      · next eb heqb =>
        injection h with h2
        rw [← h2, break_ite_err gra1 pri bt eb hg1.1 hg1.2 heqb]
        exact ⟨by simp, by simp⟩
      · next pri2 heqb => simp at h

theorem foldl_err_prop {α : Type} (P : CErr → Prop)
    (f : Except CErr α → Graph → Except CErr α) :
    ∀ (l : List Graph),
      (∀ acc cg, cg ∈ l → (∀ e, acc = .error e → P e) →
        (∀ e, f acc cg = .error e → P e)) →
      ∀ acc, (∀ e, acc = .error e → P e) →
        ∀ e, l.foldl f acc = .error e → P e
  | [], _, _, hacc, e, h => hacc e h
  | cg :: t, hstep, acc, hacc, e, h =>
    foldl_err_prop P f t
      (fun acc' cg' hcg' => hstep acc' cg' (List.mem_cons_of_mem _ hcg'))
      (f acc cg) (hstep acc cg (List.mem_cons_self _ _) hacc) e h

theorem calculate_no_precond (gra : Graph) (hwf : gra.Wf)
    (pe1? pe2? : Option PEval) (bt bb : Bool) (pri? : Option PriDct) (e : CErr)
    (h : calculate_priorities_and_assign_stereo gra pe1? pe2? bt bb pri?
        = .error e) :
    e ≠ .notConnected ∧ e ≠ .dummyAtoms := by
  unfold calculate_priorities_and_assign_stereo at h
  dsimp only at h
  have hwfg := without_dummy_atoms_wf gra hwf
  have hdfg := without_dummy_atoms_dummyFree gra
  refine foldl_err_prop (fun e => e ≠ .notConnected ∧ e ≠ .dummyAtoms) _
    (connected_components (without_dummy_atoms gra)) ?_ _ ?_ e h
  · intro acc cg hcg hacc e' hf
    obtain ⟨hcgc, hcgwf, hcgdf⟩ :=
      connected_components_props _ hwfg cg hcg
    have hcgd : cg = without_dummy_atoms cg :=
      ((without_dummy_eq_self_iff cg).mpr (hcgdf hdfg)).symm
    cases acc with
    | error e0 =>
      dsimp only at hf
      injection hf with h2
      rw [← h2]
      exact hacc e0 rfl
    | ok pr =>
      obtain ⟨pri_dct, g2⟩ := pr
      dsimp only at hf
      split at hf
      · next ec heqc =>
        injection hf with h2
        rw [← h2]
        exact comp_no_precond cg pe1? pe2? bt bb _ hcgc hcgd ec heqc
      · next r heqc => simp at hf
  · intro e' he'
    simp at he'

/-- C7: `refine_priorities` fails with its precondition violations exactly
as claimed — `.notConnected` when the input graph is disconnected,
`.dummyAtoms` when it is connected but contains dummy atoms — and on a
connected dummy-free graph it never raises either violation (its loop can
at worst exhaust fuel, i.e. the Python loop would still be running); the
public entry point `calculate_priorities_and_assign_stereo` never triggers
either violation on a well-formed graph, because it strips dummy atoms and
splits the graph into connected components before invoking the
per-component refiner. -/
theorem refine_priorities_preconditions :
    (∀ (gra : Graph) (pri? : Option PriDct), is_connected gra = false →
      refine_priorities gra pri? = .error .notConnected) ∧
    (∀ (gra : Graph) (pri? : Option PriDct), is_connected gra = true →
      gra ≠ without_dummy_atoms gra →
      refine_priorities gra pri? = .error .dummyAtoms) ∧
    (∀ (gra : Graph) (pri? : Option PriDct), is_connected gra = true →
      gra = without_dummy_atoms gra →
      ∀ e, refine_priorities gra pri? = .error e → e = .fuel) ∧
    (∀ (gra : Graph), gra.Wf →
      ∀ (pe1? pe2? : Option PEval) (bt bb : Bool) (pri? : Option PriDct)
        (e : CErr),
        calculate_priorities_and_assign_stereo gra pe1? pe2? bt bb pri?
          = .error e →
        e ≠ .notConnected ∧ e ≠ .dummyAtoms) :=
  ⟨refine_priorities_not_connected, refine_priorities_dummy,
   fun gra pri? hc hd e h => refine_priorities_err_fuel gra pri? hc hd e h,
   fun gra hwf pe1? pe2? bt bb pri? e h =>
     calculate_no_precond gra hwf pe1? pe2? bt bb pri? e h⟩

/-- Witness for C7 at concrete graphs: a disconnected two-atom graph, a
graph with a dummy atom, a connected dummy-free graph, and the public entry
point on the disconnected graph. -/
theorem refine_priorities_preconditions_witness :
    refine_priorities gDisc none = .error CErr.notConnected ∧
    refine_priorities gXdum none = .error CErr.dummyAtoms ∧
    (∀ e, refine_priorities gC1 none = .error e → e = CErr.fuel) ∧
    (calculate_priorities_and_assign_stereo gDisc none none true false none
        = .error CErr.notConnected → False) :=
  ⟨refine_priorities_preconditions.1 gDisc none (by decide),
   refine_priorities_preconditions.2.1 gXdum none (by decide) (by decide),
   refine_priorities_preconditions.2.2.1 gC1 none (by decide) (by decide),
   fun hcon =>
     (refine_priorities_preconditions.2.2.2 gDisc (by decide) none none
       true false none CErr.notConnected hcon).1 rfl⟩

/-! ## Generic association-list and projection-congruence toolkit -/

theorem alookup_append [DecidableEq κ] :
    ∀ (l1 l2 : List (κ × β)) (k : κ),
      alookup (l1 ++ l2) k =
        match alookup l1 k with
        | some v => some v
        | none => alookup l2 k
  | [], _, _ => rfl
  | (k', v) :: t, l2, k => by
    simp only [List.cons_append, alookup]
    by_cases h : k = k'
    · rw [if_pos h, if_pos h]
    · rw [if_neg h, if_neg h]
      exact alookup_append t l2 k

theorem alookup_none_of_not_mem [DecidableEq κ] :
    ∀ (l : List (κ × β)) (k : κ), k ∉ l.map Prod.fst → alookup l k = none
  | [], _, _ => rfl
  | (k', v) :: t, k, h => by
    simp only [List.map_cons, List.mem_cons] at h
    push_neg at h
    simp only [alookup]
    rw [if_neg h.1]
    exact alookup_none_of_not_mem t k h.2

theorem alookup_mem [DecidableEq κ] :
    ∀ (l : List (κ × β)) (k : κ) (v : β), alookup l k = some v → (k, v) ∈ l
  | [], _, _, h => by simp [alookup] at h
  | (k', v') :: t, k, v, h => by
    simp only [alookup] at h
    by_cases he : k = k'
    · rw [if_pos he] at h
      injection h with h2
      rw [he, h2]
      exact List.mem_cons_self _ _
    · rw [if_neg he] at h
      exact List.mem_cons_of_mem _ (alookup_mem t k v h)

theorem alookup_proj_congr [DecidableEq κ] (f : β → γ) :
    ∀ (l' l : List (κ × β)),
      l'.map (fun p => (p.1, f p.2)) = l.map (fun p => (p.1, f p.2)) →
      ∀ k, (alookup l' k).map f = (alookup l k).map f
  | [], [], _, _ => rfl
  | [], _ :: _, h, _ => by simp at h
  | _ :: _, [], h, _ => by simp at h
  | p :: t', q :: t, h, k => by
    simp only [List.map_cons, List.cons.injEq] at h
    obtain ⟨h1, h2⟩ := h
    have hk : p.1 = q.1 := by
      have := congrArg Prod.fst h1
      simpa using this
    have hv : f p.2 = f q.2 := by
      have := congrArg Prod.snd h1
      simpa using this
    obtain ⟨pk, pv⟩ := p
    obtain ⟨qk, qv⟩ := q
    simp only [alookup]
    simp only at hk hv
    by_cases he : k = pk
    · rw [if_pos he, if_pos (hk ▸ he)]
      simp [hv]
    · rw [if_neg he, if_neg (fun hh => he (hk ▸ hh))]
      exact alookup_proj_congr f t' t h2 k

theorem paired_filter_map {δ : Type} (f : β → γ) :
    ∀ (l' l : List (Nat × β)),
      l'.map (fun p => (p.1, f p.2)) = l.map (fun p => (p.1, f p.2)) →
      ∀ (pr' pr : Nat × β → Bool) (u' u : Nat × β → δ),
        (∀ p q, p.1 = q.1 → f p.2 = f q.2 → pr' p = pr q ∧ u' p = u q) →
        (l'.filter pr').map u' = (l.filter pr).map u
  | [], [], _, _, _, _, _, _ => rfl
  | [], _ :: _, h, _, _, _, _, _ => by simp at h
  | _ :: _, [], h, _, _, _, _, _ => by simp at h
  | p :: t', q :: t, h, pr', pr, u', u, hcong => by
    simp only [List.map_cons, List.cons.injEq] at h
    obtain ⟨h1, h2⟩ := h
    have hk : p.1 = q.1 := by
      have := congrArg Prod.fst h1
      simpa using this
    have hv : f p.2 = f q.2 := by
      have := congrArg Prod.snd h1
      simpa using this
    obtain ⟨hpr, hu⟩ := hcong p q hk hv
    simp only [List.filter_cons]
    rw [hpr]
    by_cases hq : pr q = true
    · rw [if_pos hq, if_pos hq]
      simp only [List.map_cons]
      rw [hu, paired_filter_map f t' t h2 pr' pr u' u hcong]
    · rw [if_neg hq, if_neg hq]
      exact paired_filter_map f t' t h2 pr' pr u' u hcong

theorem paired_map {δ : Type} (f : β → γ)
    (l' l : List (Nat × β))
    (h : l'.map (fun p => (p.1, f p.2)) = l.map (fun p => (p.1, f p.2)))
    (u' u : Nat × β → δ)
    (hcong : ∀ p q, p.1 = q.1 → f p.2 = f q.2 → u' p = u q) :
    l'.map u' = l.map u := by
  have := paired_filter_map f l' l h (fun _ => true) (fun _ => true) u' u
    (fun p q h1 h2 => ⟨rfl, hcong p q h1 h2⟩)
  simpa using this

theorem sinsert_map_comm (f : α → β) (le : β → β → Bool) (x : α) :
    ∀ l, (sinsert (fun a b => le (f a) (f b)) x l).map f =
      sinsert le (f x) (l.map f)
  | [] => rfl
  | y :: t => by
    simp only [sinsert, List.map_cons]
    by_cases h : le (f x) (f y) = true
    · rw [if_pos h, if_pos h]
      simp
    · rw [if_neg h, if_neg h]
      simp only [List.map_cons]
      rw [sinsert_map_comm f le x t]

theorem ssort_map_comm (f : α → β) (le : β → β → Bool) :
    ∀ l, (ssort (fun a b => le (f a) (f b)) l).map f = ssort le (l.map f)
  | [] => rfl
  | x :: t => by
    simp only [ssort, List.map_cons]
    rw [← ssort_map_comm f le t, sinsert_map_comm]

theorem chainOk_map (f : α → β) (lt : β → β → Bool) :
    ∀ l : List α, chainOk lt (l.map f) = chainOk (fun a b => lt (f a) (f b)) l
  | [] => rfl
  | [_] => rfl
  | a :: b :: t => by
    simp only [List.map_cons, chainOk]
    rw [show (f b :: t.map f) = (b :: t).map f from rfl,
      chainOk_map f lt (b :: t)]

/-! ## Frame congruence: the flip-mask computation reads the graph only
through its parity-independent frame -/

theorem frame_atoms {g' g : Graph} (hf : frame g' = frame g) :
    g'.atoms.map (fun p => (p.1, (p.2.symb, p.2.hcnt))) =
      g.atoms.map (fun p => (p.1, (p.2.symb, p.2.hcnt))) := by
  have := congrArg Prod.fst hf
  simpa [frame] using this

theorem frame_bonds {g' g : Graph} (hf : frame g' = frame g) :
    g'.bonds.map (fun p => (p.1, p.2.ord)) =
      g.bonds.map (fun p => (p.1, p.2.ord)) := by
  have := congrArg Prod.snd hf
  simpa [frame] using this

theorem frame_atom_keys {g' g : Graph} (hf : frame g' = frame g) :
    atom_keys g' = atom_keys g := by
  have h2 := congrArg (List.map Prod.fst) (frame_atoms hf)
  rw [List.map_map, List.map_map] at h2
  exact h2

theorem frame_bond_fst {g' g : Graph} (hf : frame g' = frame g) :
    g'.bonds.map Prod.fst = g.bonds.map Prod.fst := by
  have h2 := congrArg (List.map Prod.fst) (frame_bonds hf)
  rw [List.map_map, List.map_map] at h2
  exact h2

theorem frame_nbr_true {g' g : Graph} (hf : frame g' = frame g) (k : Nat) :
    atom_neighbor_keys g' k true = atom_neighbor_keys g k true :=
  atom_neighbor_keys_congr g g' (frame_bond_fst hf) k

/-- `bondsOf` with the TS flag cleared filters out the forming bonds. -/
theorem bondsOf_false (g : Graph) :
    bondsOf g false = g.bonds.filter (fun p => decide (p.2.ord ≠ 1)) := rfl

theorem frame_nbr_false {g' g : Graph} (hf : frame g' = frame g) (k : Nat) :
    atom_neighbor_keys g' k false = atom_neighbor_keys g k false := by
  unfold atom_neighbor_keys
  rw [bondsOf_false, bondsOf_false]
  have hfact : ∀ (bs : List ((Nat × Nat) × BondRow)),
      (bs.filter (fun p => decide (p.2.ord ≠ 1))).filterMap (fun p =>
        if p.1.1 = k then some p.1.2 else if p.1.2 = k then some p.1.1
        else none) =
      ((bs.map (fun p => (p.1, p.2.ord))).filter
        (fun q => decide (q.2 ≠ 1))).filterMap (fun q =>
        if q.1.1 = k then some q.1.2 else if q.1.2 = k then some q.1.1
        else none) := by
    intro bs
    rw [List.filter_map, List.filterMap_map]
    rfl
  rw [hfact, hfact, frame_bonds hf]

theorem frame_symbOf {g' g : Graph} (hf : frame g' = frame g) (k : Nat) :
    atomSymbOf g' k = atomSymbOf g k := by
  have h := alookup_proj_congr (fun r : AtomRow => (r.symb, r.hcnt))
    g'.atoms g.atoms (frame_atoms hf) k
  have h2 := congrArg (Option.map Prod.fst) h
  rw [Option.map_map, Option.map_map] at h2
  unfold atomSymbOf
  rw [show ((Prod.fst ∘ fun r : AtomRow => (r.symb, r.hcnt)) : AtomRow → String)
    = AtomRow.symb from rfl] at h2
  rw [h2]

theorem frame_isNonbbH {g' g : Graph} (hf : frame g' = frame g)
    (p q : Nat × AtomRow) (h1 : p.1 = q.1) (h2 : p.2.symb = q.2.symb) :
    isNonbbH g' p = isNonbbH g q := by
  unfold isNonbbH
  rw [h1, h2, frame_nbr_true hf q.1]
  cases hl : atom_neighbor_keys g q.1 true with
  | nil => rfl
  | cons n t =>
    cases t with
    | nil =>
      simp only
      rw [frame_symbOf hf n]
    | cons m t2 => rfl

theorem frame_nonbbH_keys {g' g : Graph} (hf : frame g' = frame g) :
    nonbackbone_hydrogen_keys g' = nonbackbone_hydrogen_keys g := by
  unfold nonbackbone_hydrogen_keys
  exact paired_filter_map (fun r : AtomRow => (r.symb, r.hcnt))
    g'.atoms g.atoms (frame_atoms hf) _ _ _ _
    (fun p q h1 h2 =>
      ⟨frame_isNonbbH hf p q h1 (congrArg Prod.fst h2), h1⟩)

theorem frame_backbone_keys {g' g : Graph} (hf : frame g' = frame g)
    (hyd : Bool) : backbone_keys g' hyd = backbone_keys g hyd := by
  unfold backbone_keys
  refine paired_filter_map (fun r : AtomRow => (r.symb, r.hcnt))
    g'.atoms g.atoms (frame_atoms hf) _ _ _ _ (fun p q h1 h2 => ⟨?_, h1⟩)
  have hs : p.2.symb = q.2.symb := congrArg Prod.fst h2
  cases hyd with
  | true =>
    rw [frame_isNonbbH hf p q h1 hs]
    simp
  | false =>
    rw [hs, frame_isNonbbH hf p q h1 hs]

theorem frame_atom_keys_symb {g' g : Graph} (hf : frame g' = frame g)
    (s : String) : atom_keys_symb g' s = atom_keys_symb g s := by
  unfold atom_keys_symb
  exact paired_filter_map (fun r : AtomRow => (r.symb, r.hcnt))
    g'.atoms g.atoms (frame_atoms hf) _ _ _ _
    (fun p q h1 h2 => ⟨by
      have hs : p.2.symb = q.2.symb := congrArg Prod.fst h2
      rw [hs], h1⟩)

theorem frame_atom_nonbbH {g' g : Graph} (hf : frame g' = frame g) :
    atom_nonbackbone_hydrogen_keys g' = atom_nonbackbone_hydrogen_keys g := by
  unfold atom_nonbackbone_hydrogen_keys
  rw [frame_nonbbH_keys hf]
  exact paired_map (fun r : AtomRow => (r.symb, r.hcnt))
    g'.atoms g.atoms (frame_atoms hf) _ _
    (fun p q h1 _ => by rw [h1, frame_nbr_true hf q.1])

theorem frame_local_priority_dict {g' g : Graph} (hf : frame g' = frame g) :
    local_priority_dict g' = local_priority_dict g := by
  unfold local_priority_dict
  refine paired_map (fun r : AtomRow => (r.symb, r.hcnt))
    g'.atoms g.atoms (frame_atoms hf) _ _ (fun p q h1 h2 => ?_)
  have hs : p.2.symb = q.2.symb := congrArg Prod.fst h2
  rw [frame_isNonbbH hf p q h1 hs, h1, hs]

theorem paired_foldl {γ St : Type} (f : β → γ) :
    ∀ (l' l : List (Nat × β)),
      l'.map (fun p => (p.1, f p.2)) = l.map (fun p => (p.1, f p.2)) →
      ∀ (F : St → Nat × β → St) (init : St),
        (∀ st p q, p.1 = q.1 → f p.2 = f q.2 → F st p = F st q) →
        l'.foldl F init = l.foldl F init
  | [], [], _, _, _, _ => rfl
  | [], _ :: _, h, _, _, _ => by simp at h
  | _ :: _, [], h, _, _, _ => by simp at h
  | p :: t', q :: t, h, F, init, hc => by
    simp only [List.map_cons, List.cons.injEq] at h
    obtain ⟨h1, h2⟩ := h
    simp only [List.foldl_cons]
    rw [hc init p q (by have := congrArg Prod.fst h1; simpa using this)
      (by have := congrArg Prod.snd h1; simpa using this)]
    exact paired_foldl f t' t h2 F _ hc

theorem frame_explicit {g' g : Graph} (hf : frame g' = frame g) :
    frame (explicit g') = frame (explicit g) := by
  have hsz : g'.atoms.map (fun p => (p.1, p.2.symb, (0 : Nat))) =
      g.atoms.map (fun p => (p.1, p.2.symb, (0 : Nat))) :=
    paired_map (fun r : AtomRow => (r.symb, r.hcnt)) g'.atoms g.atoms
      (frame_atoms hf) _ _ (fun p q h1 h2 => by
        have hs : p.2.symb = q.2.symb := congrArg Prod.fst h2
        rw [h1, hs])
  have hbp : g'.bonds.map (fun p => (p.1, p.2.ord)) =
      g.bonds.map (fun p => (p.1, p.2.ord)) := frame_bonds hf
  have hstart : (atom_keys g').foldl max 0 = (atom_keys g).foldl max 0 := by
    rw [frame_atom_keys hf]
  have hs1 : ∀ l : List ((Nat × Nat) × BondRow),
      (sortBonds l).map (fun p => (p.1, p.2.ord)) =
        ssort (fun a b : (Nat × Nat) × Nat => pairLe a.1 b.1)
          (l.map (fun p => (p.1, p.2.ord))) := by
    intro l
    unfold sortBonds
    exact ssort_map_comm (fun p : (Nat × Nat) × BondRow => (p.1, p.2.ord))
      (fun a b : (Nat × Nat) × Nat => pairLe a.1 b.1) l
  unfold frame explicit
  dsimp only
  rw [hstart]
  rw [paired_foldl (fun r : AtomRow => (r.symb, r.hcnt)) g'.atoms g.atoms
    (frame_atoms hf) _ ((atom_keys g).foldl max 0 + 1, [], [])
    (fun st p q h1 h2 => by
      have hh : p.2.hcnt = q.2.hcnt := congrArg Prod.snd h2
      rw [h1, hh])]
  rw [List.map_append, List.map_append, List.map_map, List.map_map,
    hs1, hs1, List.map_append, List.map_append, hbp]
  exact congrArg₂ Prod.mk (congrArg₂ (· ++ ·) hsz rfl) rfl

theorem frame_assign_hydrogen_priorities {g' g : Graph}
    (hf : frame g' = frame g) (pri_dct : PriDct) (bt ng : Bool) :
    assign_hydrogen_priorities g' pri_dct bt ng =
      assign_hydrogen_priorities g pri_dct bt ng := by
  unfold assign_hydrogen_priorities
  dsimp only
  rw [frame_nonbbH_keys hf, frame_backbone_keys hf true]
  have hFf : frame (if (nonbackbone_hydrogen_keys g).isEmpty then g'
      else explicit g') =
      frame (if (nonbackbone_hydrogen_keys g).isEmpty then g
      else explicit g) := by
    by_cases hp : (nonbackbone_hydrogen_keys g).isEmpty = true
    · rw [if_pos hp, if_pos hp]
      exact hf
    · rw [if_neg hp, if_neg hp]
      exact frame_explicit hf
  rw [frame_atom_nonbbH hFf, frame_atom_keys_symb hFf "H"]

theorem frame_keepMask {g' g : Graph} (hf : frame g' = frame g)
    (pri0 : PriDct) (key : SKey) :
    keepMask g' pri0 key = keepMask g pri0 key := by
  have hfe : frame (explicit g') = frame (explicit g) := frame_explicit hf
  cases key with
  | atm k =>
    unfold keepMask
    dsimp only
    unfold atom_stereo_sorted_neighbor_keys
    rw [frame_local_priority_dict hfe,
      frame_assign_hydrogen_priorities hfe pri0 false true,
      frame_nbr_true hfe k]
  | bnd b =>
    unfold keepMask
    dsimp only
    unfold bond_stereo_sorted_neighbor_keys
    rw [frame_local_priority_dict hfe,
      frame_assign_hydrogen_priorities hfe pri0 false true,
      frame_nbr_true hfe b.1, frame_nbr_true hfe b.2]

theorem peval_flip_local_eq (g0 : Graph) (pri0 : PriDct) (key : SKey) :
    peval_flip_local g0 pri0 key =
      (if keepMask g0 pri0 key = true then parityAt (explicit g0) key
       else pyNot (parityAt (explicit g0) key)) := by
  cases key with
  | atm k => rfl
  | bnd b => rfl

/-! ## Looking up parities through `explicit` -/

theorem alookup_isSome_of_mem [DecidableEq κ] :
    ∀ (l : List (κ × β)) (k : κ), k ∈ l.map Prod.fst →
      ∃ v, alookup l k = some v
  | [], _, h => absurd h (List.not_mem_nil _)
  | (k', v') :: t, k, h => by
    simp only [alookup]
    by_cases he : k = k'
    · rw [if_pos he]
      exact ⟨v', rfl⟩
    · rw [if_neg he]
      rcases List.mem_cons.mp h with h1 | h1
      · exact absurd h1 he
      · exact alookup_isSome_of_mem t k h1

theorem le_foldl_max : ∀ (l : List Nat) (a : Nat), a ≤ l.foldl max a
  | [], a => Nat.le_refl a
  | x :: t, a => le_trans (Nat.le_max_left a x) (le_foldl_max t (max a x))

theorem mem_le_foldl_max : ∀ (l : List Nat) (a x : Nat), x ∈ l →
    x ≤ l.foldl max a
  | [], _, _, h => absurd h (List.not_mem_nil _)
  | y :: t, a, x, h => by
    rcases List.mem_cons.mp h with rfl | h2
    · exact le_trans (Nat.le_max_right a x) (le_foldl_max t (max a x))
    · exact mem_le_foldl_max t (max a y) x h2

/-- `explicit`, re-expressed through the named fold step. -/
theorem explicit_eq (g : Graph) :
    explicit g =
      { atoms := g.atoms.map (fun p => (p.1, { p.2 with hcnt := 0 })) ++
          (g.atoms.foldl expStep ((atom_keys g).foldl max 0 + 1, [], [])).2.1
        bonds := sortBonds (g.bonds ++
          (g.atoms.foldl expStep ((atom_keys g).foldl max 0 + 1, [], [])).2.2) }
    := rfl

theorem explicit_fold_spec :
    ∀ (l : List (Nat × AtomRow)) (n : Nat) (a0 : List (Nat × AtomRow))
      (b0 : List ((Nat × Nat) × BondRow)), (∀ p ∈ l, p.1 < n) →
      n ≤ (l.foldl expStep (n, a0, b0)).1 ∧
      (∀ q ∈ (l.foldl expStep (n, a0, b0)).2.1,
        q ∈ a0 ∨ q.2 = AtomRow.mk "H" 0 none) ∧
      (∀ q ∈ (l.foldl expStep (n, a0, b0)).2.2,
        q ∈ b0 ∨ (q.2 = BondRow.mk 10 none ∧ n ≤ q.1.2))
  | [], n, _, _, _ =>
    ⟨Nat.le_refl n, fun _ hq => Or.inl hq, fun _ hq => Or.inl hq⟩
  | p :: t, n, a0, b0, hlt => by
    simp only [List.foldl_cons]
    have hstep : expStep (n, a0, b0) p =
        (n + p.2.hcnt,
         a0 ++ ((List.range p.2.hcnt).map (· + n)).map
           (fun k => (k, AtomRow.mk "H" 0 none)),
         b0 ++ ((List.range p.2.hcnt).map (· + n)).map
           (fun k => (bkey p.1 k, BondRow.mk 10 none))) := rfl
    rw [hstep]
    obtain ⟨ih1, ih2, ih3⟩ := explicit_fold_spec t (n + p.2.hcnt) _ _
      (fun p' hp' => lt_of_lt_of_le (hlt p' (List.mem_cons_of_mem p hp'))
        (Nat.le_add_right n p.2.hcnt))
    refine ⟨le_trans (Nat.le_add_right n p.2.hcnt) ih1, ?_, ?_⟩
    · intro q hq
      rcases ih2 q hq with hq0 | hq0
      · rcases List.mem_append.mp hq0 with hq1 | hq1
        · exact Or.inl hq1
        · right
          obtain ⟨k, hk, rfl⟩ := List.mem_map.mp hq1
          rfl
      · exact Or.inr hq0
    · intro q hq
      rcases ih3 q hq with hq0 | hq0
      · rcases List.mem_append.mp hq0 with hq1 | hq1
        · exact Or.inl hq1
        · right
          obtain ⟨k, hk, rfl⟩ := List.mem_map.mp hq1
          obtain ⟨i, _, rfl⟩ := List.mem_map.mp hk
          have hp1 : p.1 < n := hlt p (List.mem_cons_self p t)
          have hkn : n ≤ i + n := Nat.le_add_left n i
          have hb : bkey p.1 (i + n) = (p.1, i + n) := by
            unfold bkey
            rw [if_pos (le_of_lt (lt_of_lt_of_le hp1 hkn))]
          refine ⟨rfl, ?_⟩
          rw [show (bkey p.1 (i + n), BondRow.mk 10 none).1 = bkey p.1 (i + n)
            from rfl, hb]
          exact hkn
      · exact Or.inr ⟨hq0.1, le_trans (Nat.le_add_right n p.2.hcnt) hq0.2⟩

theorem parityAt_explicit (g : Graph) (hwf : g.Wf) (key : SKey) :
    parityAt (explicit g) key = parityAt g key := by
  have hlt : ∀ p ∈ g.atoms, p.1 < (atom_keys g).foldl max 0 + 1 :=
    fun p hp => Nat.lt_succ_of_le
      (mem_le_foldl_max (atom_keys g) 0 p.1 (List.mem_map.mpr ⟨p, hp, rfl⟩))
  obtain ⟨hn, hA, hB⟩ := explicit_fold_spec g.atoms
    ((atom_keys g).foldl max 0 + 1) [] [] hlt
  cases key with
  | atm k =>
    have e1 : atom_stereo_parities (explicit g) =
        g.atoms.map (fun p : Nat × AtomRow => (p.1, p.2.par)) ++
        (g.atoms.foldl expStep
          ((atom_keys g).foldl max 0 + 1, [], [])).2.1.map
          (fun p : Nat × AtomRow => (p.1, p.2.par)) := by
      show (g.atoms.map (fun p : Nat × AtomRow =>
          (p.1, { p.2 with hcnt := 0 })) ++
        (g.atoms.foldl expStep
          ((atom_keys g).foldl max 0 + 1, [], [])).2.1).map
        (fun p : Nat × AtomRow => (p.1, p.2.par)) = _
      rw [List.map_append]
      congr 1
      rw [List.map_map]
      rfl
    show (alookup (atom_stereo_parities (explicit g)) k).getD none =
      (alookup (g.atoms.map (fun p : Nat × AtomRow => (p.1, p.2.par))) k).getD
        none
    rw [e1, alookup_append]
    cases h1 : alookup (g.atoms.map
        (fun p : Nat × AtomRow => (p.1, p.2.par))) k with
    | some v => rfl
    | none =>
      cases h2 : alookup
          ((g.atoms.foldl expStep
            ((atom_keys g).foldl max 0 + 1, [], [])).2.1.map
            (fun p : Nat × AtomRow => (p.1, p.2.par))) k with
      | none => rfl
      | some r =>
        obtain ⟨q, hq, hqe⟩ := List.mem_map.mp (alookup_mem _ _ _ h2)
        rcases hA q hq with hq0 | hq0
        · exact absurd hq0 (List.not_mem_nil q)
        · have hr : r = none := by
            have h4 := congrArg Prod.snd hqe
            simp only at h4
            rw [← h4, hq0]
          rw [hr]
          rfl
  | bnd b =>
    have hkeymax : ∀ p ∈ g.bonds, p.1.1 ≤ (atom_keys g).foldl max 0 ∧
        p.1.2 ≤ (atom_keys g).foldl max 0 := by
      intro p hp
      rcases hwf.2.2 p hp with ⟨_, h1, h2⟩
      exact ⟨mem_le_foldl_max _ 0 _ h1, mem_le_foldl_max _ 0 _ h2⟩
    have hnodup : ((g.bonds.map (fun p : (Nat × Nat) × BondRow =>
        (p.1, p.2.par))).map Prod.fst).Nodup := by
      rw [List.map_map]
      have hp := wf_bond_keys_pairwise g hwf
      rw [show ((Prod.fst ∘ fun p : (Nat × Nat) × BondRow => (p.1, p.2.par)) :
        (Nat × Nat) × BondRow → Nat × Nat) = Prod.fst from rfl]
      exact List.pairwise_map.mpr hp
    have e1 : parityAt (explicit g) (.bnd b) =
        (alookup ((sortBonds (g.bonds ++
          (g.atoms.foldl expStep
            ((atom_keys g).foldl max 0 + 1, [], [])).2.2)).map
          (fun p : (Nat × Nat) × BondRow => (p.1, p.2.par))) b).getD none := by
      show (alookup (bond_stereo_parities (explicit g)) b).getD none = _
      rw [explicit_eq g]
      rfl
    rw [e1]
    show _ = (alookup (g.bonds.map (fun p : (Nat × Nat) × BondRow => (p.1, p.2.par))) b).getD none
    cases h2 : alookup ((sortBonds (g.bonds ++
        (g.atoms.foldl expStep
          ((atom_keys g).foldl max 0 + 1, [], [])).2.2)).map
        (fun p : (Nat × Nat) × BondRow => (p.1, p.2.par))) b with
    | some v =>
      obtain ⟨q, hq, hqe⟩ := List.mem_map.mp (alookup_mem _ _ _ h2)
      have hqb : q.1 = b := by
        have := congrArg Prod.fst hqe
        simpa using this
      have hqv : q.2.par = v := by
        have := congrArg Prod.snd hqe
        simpa using this
      have hqm : q ∈ g.bonds ++
          (g.atoms.foldl expStep
            ((atom_keys g).foldl max 0 + 1, [], [])).2.2 :=
        (ssort_perm (fun a b : (Nat × Nat) × BondRow => pairLe a.1 b.1)
          (g.bonds ++ (g.atoms.foldl expStep
            ((atom_keys g).foldl max 0 + 1, [], [])).2.2)).mem_iff.mp hq
      rcases List.mem_append.mp hqm with hq1 | hq1
      · rw [alookup_of_nodup _ hnodup b v
          (List.mem_map.mpr ⟨q, hq1, by rw [hqb, hqv]⟩)]
      · rcases hB q hq1 with hq0 | hq0
        · exact absurd hq0 (List.not_mem_nil q)
        · have hvn : v = none := by
            rw [← hqv, hq0.1]
          have hbig : (atom_keys g).foldl max 0 + 1 ≤ b.2 := hqb ▸ hq0.2
          have hnm : alookup (g.bonds.map (fun p : (Nat × Nat) × BondRow => (p.1, p.2.par))) b
              = none := by
            apply alookup_none_of_not_mem
            intro hmem
            rw [List.map_map] at hmem
            obtain ⟨p, hp, hpe⟩ := List.mem_map.mp hmem
            have h3 := (hkeymax p hp).2
            have hpb : p.1 = b := hpe
            have hpb2 : p.1.2 = b.2 := by rw [hpb]
            omega
          rw [hnm, hvn]
          rfl
    | none =>
      have hnm : alookup (g.bonds.map (fun p : (Nat × Nat) × BondRow => (p.1, p.2.par))) b = none := by
        apply alookup_none_of_not_mem
        intro hmem
        rw [List.map_map] at hmem
        obtain ⟨p, hp, hpe⟩ := List.mem_map.mp hmem
        obtain ⟨v, hv⟩ := alookup_isSome_of_mem
          ((sortBonds (g.bonds ++
            (g.atoms.foldl expStep
              ((atom_keys g).foldl max 0 + 1, [], [])).2.2)).map
            (fun p : (Nat × Nat) × BondRow => (p.1, p.2.par))) b (by
          rw [List.map_map]
          refine List.mem_map.mpr ⟨p, ?_, hpe⟩
          exact ((ssort_perm _ _).mem_iff).mpr (List.mem_append.mpr (Or.inl hp)))
        rw [hv] at h2
        cases h2
      rw [hnm]

/-! ## Parities after `set_stereo_parities`; well-formedness from frames -/

theorem alookup_set_atoms_list (d : List (SKey × Option Bool)) :
    ∀ (l : List (Nat × AtomRow)) (k : Nat),
      alookup (l.map (fun p =>
        match alookup d (SKey.atm p.1) with
        | some q => (p.1, { p.2 with par := q })
        | none => p)) k =
      (alookup l k).map (fun r =>
        match alookup d (SKey.atm k) with
        | some q => { r with par := q }
        | none => r)
  | [], _ => rfl
  | p :: t, k => by
    cases hd : alookup d (SKey.atm p.1) with
    | some q =>
      simp only [List.map_cons, hd, alookup]
      by_cases he : k = p.1
      · rw [if_pos he, if_pos he, he, hd]
        rfl
      · rw [if_neg he, if_neg he]
        exact alookup_set_atoms_list d t k
    | none =>
      simp only [List.map_cons, hd, alookup]
      by_cases he : k = p.1
      · rw [if_pos he, if_pos he, he, hd]
        rfl
      · rw [if_neg he, if_neg he]
        exact alookup_set_atoms_list d t k

theorem alookup_set_bonds_list (d : List (SKey × Option Bool)) :
    ∀ (l : List ((Nat × Nat) × BondRow)) (b : Nat × Nat),
      alookup (l.map (fun p =>
        match alookup d (SKey.bnd p.1) with
        | some q => (p.1, { p.2 with par := q })
        | none => p)) b =
      (alookup l b).map (fun r =>
        match alookup d (SKey.bnd b) with
        | some q => { r with par := q }
        | none => r)
  | [], _ => rfl
  | p :: t, b => by
    cases hd : alookup d (SKey.bnd p.1) with
    | some q =>
      simp only [List.map_cons, hd, alookup]
      by_cases he : b = p.1
      · rw [if_pos he, if_pos he, he, hd]
        rfl
      · rw [if_neg he, if_neg he]
        exact alookup_set_bonds_list d t b
    | none =>
      simp only [List.map_cons, hd, alookup]
      by_cases he : b = p.1
      · rw [if_pos he, if_pos he, he, hd]
        rfl
      · rw [if_neg he, if_neg he]
        exact alookup_set_bonds_list d t b

theorem parityAt_eq_atoms (g : Graph) (k : Nat) :
    parityAt g (.atm k) = ((alookup g.atoms k).map AtomRow.par).getD none := by
  show (alookup (g.atoms.map (fun p => (p.1, p.2.par))) k).getD none = _
  rw [show (g.atoms.map (fun p => (p.1, p.2.par))) =
    amap AtomRow.par g.atoms from rfl, alookup_amap]

theorem parityAt_eq_bonds (g : Graph) (b : Nat × Nat) :
    parityAt g (.bnd b) = ((alookup g.bonds b).map BondRow.par).getD none := by
  show (alookup (g.bonds.map (fun p => (p.1, p.2.par))) b).getD none = _
  rw [show (g.bonds.map (fun p => (p.1, p.2.par))) =
    amap BondRow.par g.bonds from rfl, alookup_amap]

theorem parityAt_set_lookup_none (g : Graph) (d : List (SKey × Option Bool))
    (key : SKey) (hd : alookup d key = none) :
    parityAt (set_stereo_parities g d) key = parityAt g key := by
  cases key with
  | atm k =>
    rw [parityAt_eq_atoms, parityAt_eq_atoms]
    show ((alookup ((set_stereo_parities g d).atoms) k).map AtomRow.par).getD
      none = _
    rw [show (set_stereo_parities g d).atoms = g.atoms.map (fun p =>
      match alookup d (SKey.atm p.1) with
      | some q => (p.1, { p.2 with par := q })
      | none => p) from rfl, alookup_set_atoms_list d g.atoms k, hd]
    cases alookup g.atoms k <;> rfl
  | bnd b =>
    rw [parityAt_eq_bonds, parityAt_eq_bonds]
    show ((alookup ((set_stereo_parities g d).bonds) b).map BondRow.par).getD
      none = _
    rw [show (set_stereo_parities g d).bonds = g.bonds.map (fun p =>
      match alookup d (SKey.bnd p.1) with
      | some q => (p.1, { p.2 with par := q })
      | none => p) from rfl, alookup_set_bonds_list d g.bonds b, hd]
    cases alookup g.bonds b <;> rfl

theorem parityAt_set_lookup_some (g : Graph) (d : List (SKey × Option Bool))
    (key : SKey) (q : Option Bool) (hd : alookup d key = some q)
    (hmem : keyMem g key) :
    parityAt (set_stereo_parities g d) key = q := by
  cases key with
  | atm k =>
    obtain ⟨r, hr⟩ := alookup_isSome_of_mem g.atoms k hmem
    rw [parityAt_eq_atoms]
    show ((alookup ((set_stereo_parities g d).atoms) k).map AtomRow.par).getD
      none = _
    rw [show (set_stereo_parities g d).atoms = g.atoms.map (fun p =>
      match alookup d (SKey.atm p.1) with
      | some q => (p.1, { p.2 with par := q })
      | none => p) from rfl, alookup_set_atoms_list d g.atoms k, hd, hr]
    rfl
  | bnd b =>
    obtain ⟨r, hr⟩ := alookup_isSome_of_mem g.bonds b hmem
    rw [parityAt_eq_bonds]
    show ((alookup ((set_stereo_parities g d).bonds) b).map BondRow.par).getD
      none = _
    rw [show (set_stereo_parities g d).bonds = g.bonds.map (fun p =>
      match alookup d (SKey.bnd p.1) with
      | some q => (p.1, { p.2 with par := q })
      | none => p) from rfl, alookup_set_bonds_list d g.bonds b, hd, hr]
    rfl

theorem parityAt_set_not_mem (g : Graph) (d : List (SKey × Option Bool))
    (key : SKey) (hmem : ¬keyMem g key) :
    parityAt (set_stereo_parities g d) key = parityAt g key := by
  cases key with
  | atm k =>
    have hr : alookup g.atoms k = none := alookup_none_of_not_mem _ _
      (fun hc => hmem hc)
    rw [parityAt_eq_atoms, parityAt_eq_atoms]
    show ((alookup ((set_stereo_parities g d).atoms) k).map AtomRow.par).getD
      none = _
    rw [show (set_stereo_parities g d).atoms = g.atoms.map (fun p =>
      match alookup d (SKey.atm p.1) with
      | some q => (p.1, { p.2 with par := q })
      | none => p) from rfl, alookup_set_atoms_list d g.atoms k, hr]
    rfl
  | bnd b =>
    have hr : alookup g.bonds b = none := alookup_none_of_not_mem _ _
      (fun hc => hmem hc)
    rw [parityAt_eq_bonds, parityAt_eq_bonds]
    show ((alookup ((set_stereo_parities g d).bonds) b).map BondRow.par).getD
      none = _
    rw [show (set_stereo_parities g d).bonds = g.bonds.map (fun p =>
      match alookup d (SKey.bnd p.1) with
      | some q => (p.1, { p.2 with par := q })
      | none => p) from rfl, alookup_set_bonds_list d g.bonds b, hr]
    rfl

theorem frame_set_stereo_parities (g : Graph)
    (d : List (SKey × Option Bool)) :
    frame (set_stereo_parities g d) = frame g := by
  unfold frame set_stereo_parities
  congr 1
  · rw [List.map_map]
    apply List.map_congr_left
    intro p _
    dsimp only [Function.comp]
    cases alookup d (SKey.atm p.1) <;> rfl
  · rw [List.map_map]
    apply List.map_congr_left
    intro p _
    dsimp only [Function.comp]
    cases alookup d (SKey.bnd p.1) <;> rfl

theorem wf_of_frame {g' g : Graph} (hf : frame g' = frame g)
    (hwf : g.Wf) : g'.Wf := by
  obtain ⟨h1, h2, h3⟩ := hwf
  refine ⟨?_, ?_, ?_⟩
  · have e1 : chainOk (fun a b : Nat => decide (a < b))
        (g.atoms.map Prod.fst) =
        chainOk (fun p q : Nat × AtomRow => decide (p.1 < q.1)) g.atoms :=
      chainOk_map _ _ _
    have e2 : chainOk (fun a b : Nat => decide (a < b))
        (g'.atoms.map Prod.fst) =
        chainOk (fun p q : Nat × AtomRow => decide (p.1 < q.1)) g'.atoms :=
      chainOk_map _ _ _
    have h4 : chainOk (fun a b : Nat => decide (a < b)) (atom_keys g)
        = true := by
      rw [show atom_keys g = g.atoms.map Prod.fst from rfl, e1]
      exact h1
    rw [← frame_atom_keys hf] at h4
    have h5 : chainOk (fun a b : Nat => decide (a < b))
        (g'.atoms.map Prod.fst) = true := h4
    rw [e2] at h5
    exact h5
  · have e1 : chainOk pairLt (g.bonds.map Prod.fst) =
        chainOk (fun p q : (Nat × Nat) × BondRow => pairLt p.1 q.1) g.bonds :=
      chainOk_map _ _ _
    have e2 : chainOk pairLt (g'.bonds.map Prod.fst) =
        chainOk (fun p q : (Nat × Nat) × BondRow => pairLt p.1 q.1) g'.bonds :=
      chainOk_map _ _ _
    have h4 : chainOk pairLt (g.bonds.map Prod.fst) = true := by
      rw [e1]
      exact h2
    rw [← frame_bond_fst hf] at h4
    rw [e2] at h4
    exact h4
  · intro p hp
    have hk : p.1 ∈ g.bonds.map Prod.fst := by
      rw [← frame_bond_fst hf]
      exact List.mem_map.mpr ⟨p, hp, rfl⟩
    obtain ⟨p0, hp0, hp0e⟩ := List.mem_map.mp hk
    rcases h3 p0 hp0 with ⟨hlt, hm1, hm2⟩
    rw [← hp0e]
    refine ⟨hlt, ?_, ?_⟩
    · rw [show (g'.atoms.map Prod.fst) = atom_keys g' from rfl,
        frame_atom_keys hf]
      exact hm1
    · rw [show (g'.atoms.map Prod.fst) = atom_keys g' from rfl,
        frame_atom_keys hf]
      exact hm2

/-! ## The flip-local evaluator is self-inverse -/

theorem flip_involution (gC gL : Graph) (hwfC : gC.Wf) (hwfL : gL.Wf)
    (hf : frame gL = frame gC) (pri : PriDct) (key : SKey)
    (hpar : parityAt gL key = peval_flip_local gC pri key)
    (hnone : parityAt gL key = none ↔ parityAt gC key = none) :
    peval_flip_local gL pri key = parityAt gC key := by
  rw [peval_flip_local_eq] at hpar ⊢
  rw [parityAt_explicit gC hwfC key] at hpar
  rw [parityAt_explicit gL hwfL key, frame_keepMask hf pri key]
  by_cases hm : keepMask gC pri key = true
  · rw [if_pos hm] at hpar ⊢
    exact hpar
  · rw [if_neg hm] at hpar ⊢
    rw [hpar]
    cases hx : parityAt gC key with
    | some b => simp [pyNot]
    | none =>
      exfalso
      have h5 := hnone.mpr hx
      rw [hpar, hx] at h5
      simp [pyNot] at h5

theorem peval_flip_local_ne_none (g : Graph) (hwf : g.Wf) (pri : PriDct)
    (key : SKey) (h : parityAt g key ≠ none) :
    peval_flip_local g pri key ≠ none := by
  rw [peval_flip_local_eq, parityAt_explicit g hwf key]
  by_cases hm : keepMask g pri key = true
  · rw [if_pos hm]
    exact h
  · rw [if_neg hm]
    cases parityAt g key <;> simp [pyNot]

theorem flip_local_self_inverse (g : Graph) (hwf : g.Wf) (pri : PriDct)
    (key : SKey) (b : Bool) (hpar : parityAt g key = some b) :
    peval .flipLocal
      (set_stereo_parities g [(key, peval .flipLocal g pri key)]) pri key
      = some b := by
  have hmem : keyMem g key := by
    cases key with
    | atm k =>
      rw [parityAt_eq_atoms] at hpar
      by_cases hk : k ∈ g.atoms.map Prod.fst
      · exact hk
      · rw [alookup_none_of_not_mem _ _ hk] at hpar
        simp at hpar
    | bnd bb =>
      rw [parityAt_eq_bonds] at hpar
      by_cases hk : bb ∈ g.bonds.map Prod.fst
      · exact hk
      · rw [alookup_none_of_not_mem _ _ hk] at hpar
        simp at hpar
  
  have hL := parityAt_set_lookup_some g
    [(key, peval_flip_local g pri key)] key
    (peval_flip_local g pri key) (by simp [alookup]) hmem
  have hfr : frame (set_stereo_parities g
      [(key, peval_flip_local g pri key)]) = frame g :=
    frame_set_stereo_parities g _
  have hwfL : (set_stereo_parities g
      [(key, peval_flip_local g pri key)]).Wf := wf_of_frame hfr hwf
  have hne : parityAt g key ≠ none := by
    rw [hpar]
    simp
  have hnone : parityAt (set_stereo_parities g
      [(key, peval_flip_local g pri key)]) key = none ↔
      parityAt g key = none := by
    constructor
    · intro hx
      rw [hL] at hx
      exact absurd hx (peval_flip_local_ne_none g hwf pri key hne)
    · intro hx
      exact absurd hx hne
  have hinv := flip_involution g
    (set_stereo_parities g [(key, peval_flip_local g pri key)])
    hwf hwfL hfr pri key hL hnone
  show peval_flip_local (set_stereo_parities g
    [(key, peval_flip_local g pri key)]) pri key = some b
  rw [hinv, hpar]

/-! ## Toolkit for the local-stereo round trip -/

theorem alookup_map_keys [DecidableEq κ] (f : κ → β) :
    ∀ (keys : List κ) (k : κ),
      alookup (keys.map (fun x => (x, f x))) k =
        if k ∈ keys then some (f k) else none
  | [], _ => rfl
  | x :: t, k => by
    simp only [List.map_cons, alookup, List.mem_cons]
    by_cases he : k = x
    · rw [if_pos he, if_pos (Or.inl he), he]
    · rw [if_neg he, alookup_map_keys f t k]
      by_cases hm : k ∈ t
      · rw [if_pos hm, if_pos (Or.inr hm)]
      · rw [if_neg hm, if_neg (by tauto)]

theorem set_stereo_parities_congr (g : Graph)
    (d1 d2 : List (SKey × Option Bool))
    (h : ∀ key, keyMem g key → alookup d1 key = alookup d2 key) :
    set_stereo_parities g d1 = set_stereo_parities g d2 := by
  unfold set_stereo_parities
  congr 1
  · apply List.map_congr_left
    intro p hp
    have hm : keyMem g (SKey.atm p.1) :=
      List.mem_map.mpr ⟨p, hp, rfl⟩
    rw [h _ hm]
  · apply List.map_congr_left
    intro p hp
    have hm : keyMem g (SKey.bnd p.1) :=
      List.mem_map.mpr ⟨p, hp, rfl⟩
    rw [h _ hm]

theorem parityAt_without_stereo (g : Graph) (key : SKey) :
    parityAt (without_stereo g) key = none := by
  cases key with
  | atm k =>
    rw [parityAt_eq_atoms]
    show ((alookup (amap (fun r => { r with par := none }) g.atoms) k).map
      AtomRow.par).getD none = none
    rw [alookup_amap]
    cases alookup g.atoms k <;> rfl
  | bnd b =>
    rw [parityAt_eq_bonds]
    show ((alookup (amap (fun r => { r with par := none }) g.bonds) b).map
      BondRow.par).getD none = none
    rw [alookup_amap]
    cases alookup g.bonds b <;> rfl

theorem frame_without_stereo (g : Graph) :
    frame (without_stereo g) = frame g := by
  unfold frame without_stereo
  congr 1
  · rw [List.map_map]; rfl
  · rw [List.map_map]; rfl

theorem paired_map_keyed {κ β γ δ : Type} (f : β → γ) :
    ∀ (l' l : List (κ × β)),
      l'.map (fun p => (p.1, f p.2)) = l.map (fun p => (p.1, f p.2)) →
      ∀ (u' u : κ × β → δ),
        (∀ p q, p.1 = q.1 → f p.2 = f q.2 → u' p = u q) →
        l'.map u' = l.map u
  | [], [], _, _, _, _ => rfl
  | [], _ :: _, h, _, _, _ => by simp at h
  | _ :: _, [], h, _, _, _ => by simp at h
  | p :: t', q :: t, h, u', u, hcong => by
    simp only [List.map_cons, List.cons.injEq] at h ⊢
    obtain ⟨h1, h2⟩ := h
    have hk : p.1 = q.1 := by
      have := congrArg Prod.fst h1; simpa using this
    have hv : f p.2 = f q.2 := by
      have := congrArg Prod.snd h1; simpa using this
    exact ⟨hcong p q hk hv, paired_map_keyed f t' t h2 u' u hcong⟩

theorem without_stereo_eq_of_frame {g' g : Graph}
    (hf : frame g' = frame g) : without_stereo g' = without_stereo g := by
  unfold without_stereo
  congr 1
  · refine paired_map (fun r : AtomRow => (r.symb, r.hcnt)) g'.atoms g.atoms
      (frame_atoms hf) _ _ ?_
    intro p q h1 h2
    simp only [Prod.mk.injEq] at h2
    show (p.1, AtomRow.mk p.2.symb p.2.hcnt none)
      = (q.1, AtomRow.mk q.2.symb q.2.hcnt none)
    rw [h1, h2.1, h2.2]
  · refine paired_map_keyed BondRow.ord g'.bonds g.bonds (frame_bonds hf) _ _ ?_
    intro p q h1 h2
    show (p.1, BondRow.mk p.2.ord none) = (q.1, BondRow.mk q.2.ord none)
    rw [h1, h2]

theorem assigned_mem_atom_stereo_keys (g : Graph) (k : Nat)
    (h : parityAt g (.atm k) ≠ none) :
    k ∈ atom_stereo_keys (explicit (without_pi_bonds g)) := by
  rw [parityAt_eq_atoms] at h
  cases ha : alookup g.atoms k with
  | none => rw [ha] at h; simp at h
  | some r =>
    rw [ha] at h
    simp only [Option.map_some', Option.getD_some] at h
    have hm : (k, r) ∈ g.atoms := alookup_mem _ _ _ ha
    have hm2 : (k, { r with hcnt := 0 }) ∈
        (explicit (without_pi_bonds g)).atoms := by
      rw [explicit_eq]
      refine List.mem_append_left _ ?_
      exact List.mem_map.mpr ⟨(k, r), hm, rfl⟩
    unfold atom_stereo_keys
    refine List.mem_map.mpr ⟨(k, { r with hcnt := 0 }), ?_, rfl⟩
    refine List.mem_filter.mpr ⟨hm2, ?_⟩
    simpa using h

theorem assigned_mem_bond_stereo_keys (g : Graph) (b : Nat × Nat)
    (h : parityAt g (.bnd b) ≠ none) :
    b ∈ bond_stereo_keys (explicit (without_pi_bonds g)) := by
  rw [parityAt_eq_bonds] at h
  cases ha : alookup g.bonds b with
  | none => rw [ha] at h; simp at h
  | some r =>
    rw [ha] at h
    simp only [Option.map_some', Option.getD_some] at h
    have hm : (b, r) ∈ g.bonds := alookup_mem _ _ _ ha
    have hm1 : (b, { r with ord := if r.ord = 20 ∨ r.ord = 30 then 10
        else r.ord }) ∈ (without_pi_bonds g).bonds :=
      List.mem_map.mpr ⟨(b, r), hm, rfl⟩
    have hm2 : (b, { r with ord := if r.ord = 20 ∨ r.ord = 30 then 10
        else r.ord }) ∈ (explicit (without_pi_bonds g)).bonds := by
      rw [explicit_eq]
      unfold sortBonds
      rw [(ssort_perm _ _).mem_iff]
      exact List.mem_append_left _ hm1
    unfold bond_stereo_keys
    refine List.mem_map.mpr ⟨_, List.mem_filter.mpr ⟨hm2, ?_⟩, rfl⟩
    simpa using h

theorem not_discovered_of_assigned (g1 : Graph) (p1 : PriDct)
    (keys : List SKey)
    (hks : stereogenic_keys_from_priorities g1 p1 false = .ok keys)
    (key : SKey) (hasg : parityAt g1 key ≠ none) : key ∉ keys := by
  unfold stereogenic_keys_from_priorities at hks
  cases hA : stereogenic_atom_keys_from_priorities g1 p1 false with
  | error e => rw [hA] at hks; simp at hks
  | ok aks =>
    rw [hA] at hks
    cases hB : stereogenic_bond_keys_from_priorities g1 p1 false with
    | error e => rw [hB] at hks; simp at hks
    | ok bks =>
      rw [hB] at hks
      injection hks with hks
      intro hmem
      rw [← hks] at hmem
      rcases List.mem_append.mp hmem with hm | hm
      · obtain ⟨k, hk, he⟩ := List.mem_map.mp hm
        subst he
        simp only [stereogenic_atom_keys_from_priorities, Bool.not_false,
          if_true] at hA
        split at hA
        · simp at hA
        · injection hA with hA
          rw [← hA] at hk
          have hk1 := (List.mem_filter.mp hk).1
          have hk2 := (List.mem_filter.mp hk1).2
          exact (of_decide_eq_true hk2)
            (assigned_mem_atom_stereo_keys g1 k hasg)
      · obtain ⟨b, hb, he⟩ := List.mem_map.mp hm
        subst he
        simp only [stereogenic_bond_keys_from_priorities, Bool.not_false,
          if_true] at hB
        split at hB
        · simp at hB
        · injection hB with hB
          rw [← hB] at hb
          have hb1 := (List.mem_filter.mp hb).1
          have hb2 := (List.mem_filter.mp hb1).1
          have hb3 := (List.mem_filter.mp hb2).2
          exact (of_decide_eq_true hb3)
            (assigned_mem_bond_stereo_keys g1 b hasg)

theorem algoLoop_frames (pe1 pe2 : PEval) (gra0 : Graph) :
    ∀ (fuel : Nat) (prev : Option (Option PriDct)) (cur : Option PriDct)
      (gra1 gra2 : Graph) (pf : PriDct) (g1f g2f : Graph),
      algoLoop pe1 pe2 gra0 fuel prev cur gra1 gra2 = .ok (pf, g1f, g2f) →
      frame g1f = frame gra1 ∧ frame g2f = frame gra2
  | 0, prev, cur, gra1, gra2, pf, g1f, g2f => by
    intro h; simp [algoLoop] at h
  | fuel + 1, prev, cur, gra1, gra2, pf, g1f, g2f => by
    intro h
    simp only [algoLoop] at h
    by_cases hpc : prev = some cur
    · rw [if_pos hpc] at h
      injection h with h2
      simp only [Prod.mk.injEq] at h2
      obtain ⟨-, h3, h4⟩ := h2
      rw [← h3, ← h4]
      exact ⟨rfl, rfl⟩
    · rw [if_neg hpc] at h
      split at h
      · simp at h
      · next p1 heq =>
        split at h
        · simp at h
        · next keys heq2 =>
          by_cases hk : keys.isEmpty = true
          · rw [if_pos hk] at h
            injection h with h2
            simp only [Prod.mk.injEq] at h2
            obtain ⟨-, h3, h4⟩ := h2
            rw [← h3, ← h4]
            exact ⟨rfl, rfl⟩
          · rw [if_neg hk] at h
            obtain ⟨e1, e2⟩ := algoLoop_frames pe1 pe2 gra0 fuel _ _ _ _
              _ _ _ h
            rw [e1, e2, frame_set_stereo_parities, frame_set_stereo_parities]
            exact ⟨rfl, rfl⟩

theorem keyMem_of_frame {g' g : Graph} (hf : frame g' = frame g)
    (key : SKey) : keyMem g key ↔ keyMem g' key := by
  cases key with
  | atm k =>
    show k ∈ g.atoms.map Prod.fst ↔ k ∈ g'.atoms.map Prod.fst
    rw [show g'.atoms.map Prod.fst = g.atoms.map Prod.fst from
      frame_atom_keys hf]
  | bnd b =>
    show b ∈ g.bonds.map Prod.fst ↔ b ∈ g'.bonds.map Prod.fst
    rw [frame_bond_fst hf]

theorem peval_read_eq_parityAt (g : Graph) (pri : PriDct) (key : SKey) :
    peval .readCanonical g pri key = parityAt g key := rfl

/-- Coupling of the canonical→local and local→canonical driver loops: if
the canonical→local loop (evaluators read-canonical / flip-local over the
canonical reference graph) succeeds, every stereocenter it discovers is
assigned in the reference graph, and the local reference graph carries
exactly the final flipped parities, then the local→canonical loop
(flip-local / flip-local over the local reference graph) from the same
state follows the same trajectory and ends in the loop's graph-1 — the
graph carrying the read-canonical parities.  Alongside, each key's parity
in the final graphs either is untouched or equals the canonical one. -/
theorem algoLoop_couple (gra0C gra0L : Graph) (hwfC : gra0C.Wf)
    (hwfL : gra0L.Wf) (hfr : frame gra0L = frame gra0C)
    (hnn : ∀ key, parityAt gra0L key = none ↔ parityAt gra0C key = none) :
    ∀ (fuel : Nat) (prev : Option (Option PriDct)) (cur : Option PriDct)
      (g1 g2a : Graph) (pf : PriDct) (g1f g2af : Graph),
      frame g2a = frame g1 →
      algoLoop .readCanonical .flipLocal gra0C fuel prev cur g1 g2a
        = .ok (pf, g1f, g2af) →
      algoLoopAsg gra0C fuel prev cur g1 = true →
      (∀ key, parityAt gra0L key = parityAt g2af key) →
      algoLoop .flipLocal .flipLocal gra0L fuel prev cur g1 g1
        = .ok (pf, g1f, g1f) ∧
      ∀ key,
        (parityAt g1 key ≠ none →
          parityAt g1f key = parityAt g1 key ∧
          parityAt g2af key = parityAt g2a key) ∧
        (parityAt g1 key = none →
          (parityAt g1f key = parityAt g1 key ∧
           parityAt g2af key = parityAt g2a key) ∨
          parityAt g1f key = parityAt gra0C key)
  | 0, prev, cur, g1, g2a, pf, g1f, g2af => by
    intro _ h _ _
    simp [algoLoop] at h
  | fuel + 1, prev, cur, g1, g2a, pf, g1f, g2af => by
    intro hfr2 h hchk hlink
    simp only [algoLoop] at h ⊢
    simp only [algoLoopAsg] at hchk
    by_cases hpc : prev = some cur
    · rw [if_pos hpc] at h ⊢
      injection h with h2
      simp only [Prod.mk.injEq] at h2
      obtain ⟨hpf, h3, h4⟩ := h2
      subst hpf; subst h3; subst h4
      refine ⟨rfl, fun key => ⟨fun _ => ⟨rfl, rfl⟩, fun _ => Or.inl ⟨rfl, rfl⟩⟩⟩
    · rw [if_neg hpc] at h ⊢
      rw [if_neg hpc] at hchk
      cases hre : refine_priorities g1 cur with
      | error e => rw [hre] at h; simp at h
      | ok p1 =>
        simp only [hre] at h hchk ⊢
        cases hst : stereogenic_keys_from_priorities g1 p1 false with
        | error e => rw [hst] at h; simp at h
        | ok keys =>
          simp only [hst] at h hchk ⊢
          by_cases hk : keys.isEmpty = true
          · rw [if_pos hk] at h ⊢
            injection h with h2
            simp only [Prod.mk.injEq] at h2
            obtain ⟨hpf, h3, h4⟩ := h2
            subst hpf; subst h3; subst h4
            refine ⟨rfl, fun key =>
              ⟨fun _ => ⟨rfl, rfl⟩, fun _ => Or.inl ⟨rfl, rfl⟩⟩⟩
          · rw [if_neg hk] at h ⊢
            rw [if_neg hk] at hchk
            rw [Bool.and_eq_true] at hchk
            obtain ⟨hall, hchk'⟩ := hchk
            have hall' : ∀ key ∈ keys, parityAt gra0C key ≠ none := by
              intro key hkm
              have := List.all_eq_true.mp hall key hkm
              simpa [Option.isSome_iff_ne_none] using this
            -- the three per-step update dictionaries
            set dC := keys.map (fun k =>
              (k, peval .readCanonical gra0C p1 k)) with hdC
            set dF := keys.map (fun k =>
              (k, peval .flipLocal gra0C p1 k)) with hdF
            set dL := keys.map (fun k =>
              (k, peval .flipLocal gra0L p1 k)) with hdL
            have hfr2' : frame (set_stereo_parities g2a dF) =
                frame (set_stereo_parities g1 dC) := by
              rw [frame_set_stereo_parities, frame_set_stereo_parities, hfr2]
            obtain ⟨ihrun, ihdi⟩ := algoLoop_couple gra0C gra0L hwfC hwfL
              hfr hnn fuel (some cur) (some p1)
              (set_stereo_parities g1 dC) (set_stereo_parities g2a dF)
              pf g1f g2af hfr2' h hchk' hlink
            -- the flip values over the local graph agree with the
            -- read-canonical values over the canonical graph at every
            -- present discovered key
            have hvals : ∀ key, keyMem g1 key →
                alookup dL key = alookup dC key := by
              intro key hkm
              rw [hdL, hdC, alookup_map_keys, alookup_map_keys]
              by_cases hmem : key ∈ keys
              · rw [if_pos hmem, if_pos hmem]
                have hb := hall' key hmem
                have hg1' : parityAt (set_stereo_parities g1 dC) key =
                    parityAt gra0C key := by
                  refine parityAt_set_lookup_some g1 dC key _ ?_ hkm
                  rw [hdC, alookup_map_keys, if_pos hmem,
                    peval_read_eq_parityAt]
                have hg2' : parityAt (set_stereo_parities g2a dF) key =
                    peval .flipLocal gra0C p1 key := by
                  refine parityAt_set_lookup_some g2a dF key _ ?_ ?_
                  · rw [hdF, alookup_map_keys, if_pos hmem]
                  · exact (keyMem_of_frame hfr2 key).mp hkm
                have hfrz := (ihdi key).1 (by rw [hg1']; exact hb)
                have hpar : parityAt gra0L key =
                    peval_flip_local gra0C p1 key := by
                  rw [hlink key, hfrz.2, hg2']
                  rfl
                have := flip_involution gra0C gra0L hwfC hwfL hfr p1 key
                  hpar (hnn key)
                rw [peval_read_eq_parityAt]
                show some (peval_flip_local gra0L p1 key) = _
                rw [this]
              · rw [if_neg hmem, if_neg hmem]
            have hsetEq : set_stereo_parities g1 dL =
                set_stereo_parities g1 dC :=
              set_stereo_parities_congr g1 dL dC hvals
            refine ⟨?_, ?_⟩
            · rw [hsetEq]
              exact ihrun
            · intro key0
              constructor
              · intro hasg
                have hnd := not_discovered_of_assigned g1 p1 keys hst
                  key0 hasg
                have hlC : alookup dC key0 = none := by
                  rw [hdC, alookup_map_keys, if_neg hnd]
                have hlF : alookup dF key0 = none := by
                  rw [hdF, alookup_map_keys, if_neg hnd]
                have hg1' : parityAt (set_stereo_parities g1 dC) key0 =
                    parityAt g1 key0 := parityAt_set_lookup_none g1 dC key0 hlC
                have hg2' : parityAt (set_stereo_parities g2a dF) key0 =
                    parityAt g2a key0 :=
                  parityAt_set_lookup_none g2a dF key0 hlF
                have hfrz := (ihdi key0).1 (by rw [hg1']; exact hasg)
                exact ⟨by rw [hfrz.1, hg1'], by rw [hfrz.2, hg2']⟩
              · intro hasg
                by_cases hmem0 : key0 ∈ keys
                · by_cases hkm0 : keyMem g1 key0
                  · have hg1' : parityAt (set_stereo_parities g1 dC) key0 =
                        parityAt gra0C key0 := by
                      refine parityAt_set_lookup_some g1 dC key0 _ ?_ hkm0
                      rw [hdC, alookup_map_keys, if_pos hmem0,
                        peval_read_eq_parityAt]
                    have hfrz := (ihdi key0).1
                      (by rw [hg1']; exact hall' key0 hmem0)
                    exact Or.inr (by rw [hfrz.1, hg1'])
                  · have hg1' : parityAt (set_stereo_parities g1 dC) key0 =
                        parityAt g1 key0 :=
                      parityAt_set_not_mem g1 dC key0 hkm0
                    have hg2' : parityAt (set_stereo_parities g2a dF) key0 =
                        parityAt g2a key0 :=
                      parityAt_set_not_mem g2a dF key0
                        (fun hx => hkm0 ((keyMem_of_frame hfr2 key0).mpr hx))
                    rcases (ihdi key0).2 (by rw [hg1']; exact hasg) with
                      hpres | hcan
                    · exact Or.inl ⟨by rw [hpres.1, hg1'],
                        by rw [hpres.2, hg2']⟩
                    · exact Or.inr hcan
                · have hlC : alookup dC key0 = none := by
                    rw [hdC, alookup_map_keys, if_neg hmem0]
                  have hlF : alookup dF key0 = none := by
                    rw [hdF, alookup_map_keys, if_neg hmem0]
                  have hg1' : parityAt (set_stereo_parities g1 dC) key0 =
                      parityAt g1 key0 :=
                    parityAt_set_lookup_none g1 dC key0 hlC
                  have hg2' : parityAt (set_stereo_parities g2a dF) key0 =
                      parityAt g2a key0 :=
                    parityAt_set_lookup_none g2a dF key0 hlF
                  rcases (ihdi key0).2 (by rw [hg1']; exact hasg) with
                    hpres | hcan
                  · exact Or.inl ⟨by rw [hpres.1, hg1'],
                      by rw [hpres.2, hg2']⟩
                  · exact Or.inr hcan

theorem wf_bond_keys_nodup (G : Graph) (hwf : G.Wf) :
    (G.bonds.map Prod.fst).Nodup := by
  exact List.pairwise_map.mpr (wf_bond_keys_pairwise G hwf)

theorem rows_eq_atoms :
    ∀ (l' l : List (Nat × AtomRow)),
      l'.map (fun p => (p.1, p.2.symb, p.2.hcnt)) =
        l.map (fun p => (p.1, p.2.symb, p.2.hcnt)) →
      (l.map Prod.fst).Nodup →
      (∀ k, ((alookup l' k).map AtomRow.par).getD none =
        ((alookup l k).map AtomRow.par).getD none) →
      l' = l
  | [], [], _, _, _ => rfl
  | [], _ :: _, h, _, _ => by simp at h
  | _ :: _, [], h, _, _ => by simp at h
  | p :: t', q :: t, h, hnd, hpar => by
    simp only [List.map_cons, List.cons.injEq] at h
    obtain ⟨h1, h2⟩ := h
    have hk : p.1 = q.1 := by
      have := congrArg Prod.fst h1; simpa using this
    have hsh : p.2.symb = q.2.symb ∧ p.2.hcnt = q.2.hcnt := by
      have := congrArg Prod.snd h1
      simp only [Prod.mk.injEq] at this
      exact this
    simp only [List.map_cons, List.nodup_cons] at hnd
    have hpq : p.2.par = q.2.par := by
      have := hpar q.1
      rw [show alookup (p :: t') q.1 = some p.2 by
          simp [alookup, if_pos hk.symm],
        show alookup (q :: t) q.1 = some q.2 by simp [alookup]] at this
      simpa using this
    have hrow : p = q := by
      cases p with
      | mk k1 r1 =>
        cases q with
        | mk k2 r2 =>
          cases r1; cases r2
          simp only at hk hsh hpq
          simp [hk, hsh.1, hsh.2, hpq]
    rw [hrow]
    congr 1
    refine rows_eq_atoms t' t h2 hnd.2 ?_
    intro k
    by_cases hkq : k = q.1
    · have hnone : alookup t k = none := by
        apply alookup_none_of_not_mem
        rw [hkq]; exact hnd.1
      have hnone' : alookup t' k = none := by
        apply alookup_none_of_not_mem
        have hkeys : t'.map Prod.fst = t.map Prod.fst := by
          have := congrArg (List.map Prod.fst) h2
          rw [List.map_map, List.map_map] at this
          exact this
        rw [show t'.map Prod.fst = t.map Prod.fst from hkeys, hkq]
        exact hnd.1
      rw [hnone, hnone']
    · have := hpar k
      rw [show alookup (p :: t') k = alookup t' k by
          simp [alookup, if_neg (hk ▸ hkq)],
        show alookup (q :: t) k = alookup t k by
          simp [alookup, if_neg hkq]] at this
      exact this

theorem rows_eq_bonds :
    ∀ (l' l : List ((Nat × Nat) × BondRow)),
      l'.map (fun p => (p.1, p.2.ord)) = l.map (fun p => (p.1, p.2.ord)) →
      (l.map Prod.fst).Nodup →
      (∀ k, ((alookup l' k).map BondRow.par).getD none =
        ((alookup l k).map BondRow.par).getD none) →
      l' = l
  | [], [], _, _, _ => rfl
  | [], _ :: _, h, _, _ => by simp at h
  | _ :: _, [], h, _, _ => by simp at h
  | p :: t', q :: t, h, hnd, hpar => by
    simp only [List.map_cons, List.cons.injEq] at h
    obtain ⟨h1, h2⟩ := h
    have hk : p.1 = q.1 := by
      have := congrArg Prod.fst h1; simpa using this
    have hso : p.2.ord = q.2.ord := by
      have := congrArg Prod.snd h1; simpa using this
    simp only [List.map_cons, List.nodup_cons] at hnd
    have hpq : p.2.par = q.2.par := by
      have := hpar q.1
      rw [show alookup (p :: t') q.1 = some p.2 by
          simp [alookup, if_pos hk.symm],
        show alookup (q :: t) q.1 = some q.2 by simp [alookup]] at this
      simpa using this
    have hrow : p = q := by
      cases p with
      | mk k1 r1 =>
        cases q with
        | mk k2 r2 =>
          cases r1; cases r2
          simp only at hk hso hpq
          simp [hk, hso, hpq]
    rw [hrow]
    congr 1
    refine rows_eq_bonds t' t h2 hnd.2 ?_
    intro k
    by_cases hkq : k = q.1
    · have hnone : alookup t k = none := by
        apply alookup_none_of_not_mem
        rw [hkq]; exact hnd.1
      have hnone' : alookup t' k = none := by
        apply alookup_none_of_not_mem
        have hkeys : t'.map Prod.fst = t.map Prod.fst := by
          have := congrArg (List.map Prod.fst) h2
          rw [List.map_map, List.map_map] at this
          exact this
        rw [show t'.map Prod.fst = t.map Prod.fst from hkeys, hkq]
        exact hnd.1
      rw [hnone, hnone']
    · have := hpar k
      rw [show alookup (p :: t') k = alookup t' k by
          simp [alookup, if_neg (hk ▸ hkq)],
        show alookup (q :: t) k = alookup t k by
          simp [alookup, if_neg hkq]] at this
      exact this

/-- Two graphs with the same frame, the same stored parity at every
stereocenter key, and well-formed reference, are equal. -/
theorem graph_eq_of_frame_parity {g' g : Graph} (hwf : g.Wf)
    (hf : frame g' = frame g)
    (hp : ∀ key, parityAt g' key = parityAt g key) : g' = g := by
  have hA : g'.atoms.map (fun p => (p.1, p.2.symb, p.2.hcnt)) =
      g.atoms.map (fun p => (p.1, p.2.symb, p.2.hcnt)) :=
    congrArg Prod.fst hf
  have hB : g'.bonds.map (fun p => (p.1, p.2.ord)) =
      g.bonds.map (fun p => (p.1, p.2.ord)) := congrArg Prod.snd hf
  have e1 : g'.atoms = g.atoms := by
    refine rows_eq_atoms g'.atoms g.atoms hA (wf_atom_keys_nodup g hwf) ?_
    intro k
    have := hp (.atm k)
    rw [parityAt_eq_atoms, parityAt_eq_atoms] at this
    exact this
  have e2 : g'.bonds = g.bonds := by
    refine rows_eq_bonds g'.bonds g.bonds hB (wf_bond_keys_nodup g hwf) ?_
    intro k
    have := hp (.bnd k)
    rw [parityAt_eq_bonds, parityAt_eq_bonds] at this
    exact this
  cases g'; cases g
  simp only at e1 e2
  rw [e1, e2]

theorem paired_filter_map_keyed {κ β γ δ : Type} (f : β → γ) :
    ∀ (l' l : List (κ × β)),
      l'.map (fun p => (p.1, f p.2)) = l.map (fun p => (p.1, f p.2)) →
      ∀ (pr' pr : κ × β → Bool) (u' u : κ × β → δ),
        (∀ p q, p.1 = q.1 → f p.2 = f q.2 → pr' p = pr q ∧ u' p = u q) →
        (l'.filter pr').map u' = (l.filter pr).map u
  | [], [], _, _, _, _, _, _ => rfl
  | [], _ :: _, h, _, _, _, _, _ => by simp at h
  | _ :: _, [], h, _, _, _, _, _ => by simp at h
  | p :: t', q :: t, h, pr', pr, u', u, hcong => by
    simp only [List.map_cons, List.cons.injEq] at h
    obtain ⟨h1, h2⟩ := h
    have hk : p.1 = q.1 := by
      have := congrArg Prod.fst h1; simpa using this
    have hv : f p.2 = f q.2 := by
      have := congrArg Prod.snd h1; simpa using this
    obtain ⟨hpr, hu⟩ := hcong p q hk hv
    simp only [List.filter_cons]
    rw [hpr]
    by_cases hq : pr q = true
    · rw [if_pos hq, if_pos hq]
      simp only [List.map_cons]
      rw [hu, paired_filter_map_keyed f t' t h2 pr' pr u' u hcong]
    · rw [if_neg hq, if_neg hq]
      exact paired_filter_map_keyed f t' t h2 pr' pr u' u hcong

theorem frame_atoms_length {g' g : Graph} (hf : frame g' = frame g) :
    g'.atoms.length = g.atoms.length := by
  have := congrArg List.length (frame_atoms hf)
  simpa [List.length_map] using this

theorem frame_algo_fuel {g' g : Graph} (hf : frame g' = frame g) :
    algo_fuel g' = algo_fuel g := by
  unfold algo_fuel
  rw [frame_atoms_length hf]

theorem frame_ts_forming {g' g : Graph} (hf : frame g' = frame g) :
    ts_forming_bond_keys g' = ts_forming_bond_keys g := by
  unfold ts_forming_bond_keys
  refine paired_filter_map_keyed BondRow.ord g'.bonds g.bonds
    (frame_bonds hf) _ _ _ _ ?_
  intro p q _ h2
  exact ⟨by simp [h2], by simp_all⟩

theorem frame_ts_breaking {g' g : Graph} (hf : frame g' = frame g) :
    ts_breaking_bond_keys g' = ts_breaking_bond_keys g := by
  unfold ts_breaking_bond_keys
  refine paired_filter_map_keyed BondRow.ord g'.bonds g.bonds
    (frame_bonds hf) _ _ _ _ ?_
  intro p q _ h2
  exact ⟨by simp [h2], by simp_all⟩

theorem frame_is_ts_graph {g' g : Graph} (hf : frame g' = frame g) :
    is_ts_graph g' = is_ts_graph g := by
  unfold is_ts_graph
  rw [frame_ts_forming hf, frame_ts_breaking hf]

/-- Per-component coupling for a non-TS component: if the canonical→local
per-component driver succeeds on `cG` with every discovered stereocenter
assigned, and the resulting local component `R` has exactly the assigned
stereocenters of `cG`, then the local→canonical per-component driver on
`R` returns `cG` itself. -/
theorem comp_couple (cG : Graph) (hwfG : cG.Wf)
    (hts : is_ts_graph cG = false)
    (hchk : algoLoopAsg cG (algo_fuel cG) none none (without_stereo cG)
      = true)
    (pri1 : PriDct) (R : Graph)
    (hrun : calculate_priorities_and_assign_stereo_comp cG
      (some .readCanonical) (some .flipLocal) false false none
      = .ok (pri1, R))
    (hnn : ∀ key, parityAt R key = none ↔ parityAt cG key = none) :
    frame R = frame cG ∧
    ∃ pri2, calculate_priorities_and_assign_stereo_comp R
      (some .flipLocal) (some .flipLocal) false false none
      = .ok (pri2, cG) := by
  simp only [calculate_priorities_and_assign_stereo_comp,
    Option.getD_some] at hrun
  cases halgo : algo .readCanonical .flipLocal cG none false with
  | error e => rw [halgo] at hrun; simp at hrun
  | ok t =>
    obtain ⟨pri0, gra1, gra2⟩ := t
    rw [halgo] at hrun
    simp only [hts, Bool.false_eq_true, if_false] at hrun
    simp only [Except.ok.injEq, Prod.mk.injEq] at hrun
    obtain ⟨-, hR⟩ := hrun
    -- peel the `algo` wrapper of the first run
    simp only [algo, Bool.false_eq_true, if_false] at halgo
    cases hloop : algoLoop .readCanonical .flipLocal cG (algo_fuel cG)
        none none (without_stereo cG) (without_stereo cG) with
    | error e => rw [hloop] at halgo; simp at halgo
    | ok t2 =>
      obtain ⟨priL, g1f, g2af⟩ := t2
      rw [hloop] at halgo
      simp only [Except.ok.injEq, Prod.mk.injEq] at halgo
      obtain ⟨hp0, hg1, hg2⟩ := halgo
      subst hp0; subst hg1; subst hg2
      subst hR
      -- frames
      obtain ⟨hfr1, hfr2⟩ := algoLoop_frames .readCanonical .flipLocal cG
        (algo_fuel cG) none none (without_stereo cG) (without_stereo cG)
        priL g1f g2af hloop
      have hfrR : frame g2af = frame cG := by
        rw [hfr2, frame_without_stereo]
      have hfrG1 : frame g1f = frame cG := by
        rw [hfr1, frame_without_stereo]
      refine ⟨hfrR, ?_⟩
      have hwfR : g2af.Wf := wf_of_frame hfrR hwfG
      -- couple the loops
      obtain ⟨ihrun, ihdi⟩ := algoLoop_couple cG g2af hwfG hwfR hfrR hnn
        (algo_fuel cG) none none (without_stereo cG) (without_stereo cG)
        priL g1f g2af rfl hloop hchk (fun _ => rfl)
      -- the coupled run ends in the canonical component
      have hg1cG : g1f = cG := by
        refine graph_eq_of_frame_parity hwfG hfrG1 ?_
        intro key
        rcases (ihdi key).2 (parityAt_without_stereo cG key) with
          ⟨e1, e2⟩ | e1
        · rw [e1, parityAt_without_stereo]
          have hR0 : parityAt g2af key = none := by
            rw [e2, parityAt_without_stereo]
          exact ((hnn key).mp hR0).symm
        · exact e1
      -- assemble the second run
      have halgo2 : algo .flipLocal .flipLocal g2af none false
          = .ok (priL, g1f, g1f) := by
        simp only [algo, Bool.false_eq_true, if_false]
        rw [without_stereo_eq_of_frame hfrR, frame_algo_fuel hfrR, ihrun]
      refine ⟨assign_hydrogen_priorities g2af priL false false, ?_⟩
      simp only [calculate_priorities_and_assign_stereo_comp,
        Option.getD_some, halgo2]
      have htsR : is_ts_graph g2af = false := by
        rw [frame_is_ts_graph hfrR]; exact hts
      simp only [htsR, Bool.false_eq_true, if_false]
      rw [hg1cG]
      rfl

theorem parityAt_none_of_not_mem (g : Graph) (key : SKey)
    (hm : ¬keyMem g key) : parityAt g key = none := by
  cases key with
  | atm k =>
    rw [parityAt_eq_atoms, alookup_none_of_not_mem _ _ hm]
    rfl
  | bnd b =>
    rw [parityAt_eq_bonds, alookup_none_of_not_mem _ _ hm]
    rfl

theorem alookup_filter_nodup [DecidableEq κ] (l : List (κ × β))
    (hnd : (l.map Prod.fst).Nodup) (P : κ × β → Bool) (k : κ)
    (hm : k ∈ (l.filter P).map Prod.fst) :
    alookup (l.filter P) k = alookup l k := by
  obtain ⟨p, hp, rfl⟩ := List.mem_map.mp hm
  have hpl : p ∈ l := List.mem_of_mem_filter hp
  have hfl : (l.filter P).Sublist l := List.filter_sublist l
  have hndf : ((l.filter P).map Prod.fst).Nodup :=
    List.Nodup.sublist (hfl.map Prod.fst) hnd
  rw [alookup_of_nodup (l.filter P) hndf p.1 p.2 (by
      rw [show (p.1, p.2) = p from rfl]; exact hp),
    alookup_of_nodup l hnd p.1 p.2 (by
      rw [show (p.1, p.2) = p from rfl]; exact hpl)]

theorem keyMem_subgraph (g : Graph) (ks : List Nat) (key : SKey) :
    keyMem (subgraph g ks) key → keyMem g key := by
  cases key with
  | atm k =>
    intro h
    obtain ⟨p, hp, rfl⟩ := List.mem_map.mp h
    exact List.mem_map.mpr ⟨p, List.mem_of_mem_filter hp, rfl⟩
  | bnd b =>
    intro h
    obtain ⟨p, hp, rfl⟩ := List.mem_map.mp h
    exact List.mem_map.mpr ⟨p, List.mem_of_mem_filter hp, rfl⟩

theorem parityAt_subgraph (g : Graph) (hwf : g.Wf) (ks : List Nat)
    (key : SKey) (hm : keyMem (subgraph g ks) key) :
    parityAt (subgraph g ks) key = parityAt g key := by
  cases key with
  | atm k =>
    rw [parityAt_eq_atoms, parityAt_eq_atoms]
    have e : alookup (subgraph g ks).atoms k = alookup g.atoms k :=
      alookup_filter_nodup g.atoms (wf_atom_keys_nodup g hwf) _ k hm
    rw [e]
  | bnd b =>
    rw [parityAt_eq_bonds, parityAt_eq_bonds]
    have e : alookup (subgraph g ks).bonds b = alookup g.bonds b :=
      alookup_filter_nodup g.bonds (wf_bond_keys_nodup g hwf) _ b hm
    rw [e]

theorem parityAt_wda (g : Graph) (hwf : g.Wf) (key : SKey)
    (hm : keyMem (without_dummy_atoms g) key) :
    parityAt (without_dummy_atoms g) key = parityAt g key := by
  cases key with
  | atm k =>
    rw [parityAt_eq_atoms, parityAt_eq_atoms]
    have e : alookup (without_dummy_atoms g).atoms k = alookup g.atoms k :=
      alookup_filter_nodup g.atoms (wf_atom_keys_nodup g hwf) _ k hm
    rw [e]
  | bnd b =>
    rw [parityAt_eq_bonds, parityAt_eq_bonds]
    have e : alookup (without_dummy_atoms g).bonds b = alookup g.bonds b :=
      alookup_filter_nodup g.bonds (wf_bond_keys_nodup g hwf) _ b hm
    rw [e]

theorem alookup_atm_map {f : AtomRow → Option Bool}
    (l : List (Nat × AtomRow)) (k : Nat) :
    alookup (l.map (fun p => (SKey.atm p.1, f p.2))) (.atm k) =
      (alookup l k).map f := by
  induction l with
  | nil => rfl
  | cons p t ih =>
    simp only [List.map_cons, alookup]
    by_cases he : SKey.atm k = SKey.atm p.1
    · have hk : k = p.1 := by injection he
      rw [if_pos he, if_pos hk]
      rfl
    · have hk : ¬(k = p.1) := fun h => he (by rw [h])
      rw [if_neg he, if_neg hk, ih]

theorem alookup_bnd_map {f : BondRow → Option Bool}
    (l : List ((Nat × Nat) × BondRow)) (b : Nat × Nat) :
    alookup (l.map (fun p => (SKey.bnd p.1, f p.2))) (.bnd b) =
      (alookup l b).map f := by
  induction l with
  | nil => rfl
  | cons p t ih =>
    simp only [List.map_cons, alookup]
    by_cases he : SKey.bnd b = SKey.bnd p.1
    · have hk : b = p.1 := by injection he
      rw [if_pos he, if_pos hk]
      rfl
    · have hk : ¬(b = p.1) := fun h => he (by rw [h])
      rw [if_neg he, if_neg hk, ih]

theorem alookup_atm_in_bnd_map {f : BondRow → Option Bool}
    (l : List ((Nat × Nat) × BondRow)) (k : Nat) :
    alookup (l.map (fun p => (SKey.bnd p.1, f p.2))) (.atm k) = none := by
  induction l with
  | nil => rfl
  | cons p t ih =>
    simp only [List.map_cons, alookup]
    rw [if_neg (by simp), ih]

theorem alookup_bnd_in_atm_map {f : AtomRow → Option Bool}
    (l : List (Nat × AtomRow)) (b : Nat × Nat) :
    alookup (l.map (fun p => (SKey.atm p.1, f p.2))) (.bnd b) = none := by
  induction l with
  | nil => rfl
  | cons p t ih =>
    simp only [List.map_cons, alookup]
    rw [if_neg (by simp), ih]

theorem alookup_stereo_parities_mem (g : Graph) (key : SKey)
    (hm : keyMem g key) :
    alookup (stereo_parities g) key = some (parityAt g key) := by
  cases key with
  | atm k =>
    show alookup (g.atoms.map (fun p => (SKey.atm p.1, p.2.par)) ++
      g.bonds.map (fun p => (SKey.bnd p.1, p.2.par))) (.atm k) = _
    rw [alookup_append, alookup_atm_map]
    obtain ⟨r, hr⟩ := alookup_isSome_of_mem g.atoms k hm
    rw [hr, parityAt_eq_atoms, hr]
    rfl
  | bnd b =>
    show alookup (g.atoms.map (fun p => (SKey.atm p.1, p.2.par)) ++
      g.bonds.map (fun p => (SKey.bnd p.1, p.2.par))) (.bnd b) = _
    rw [alookup_append, alookup_bnd_in_atm_map, alookup_bnd_map]
    obtain ⟨r, hr⟩ := alookup_isSome_of_mem g.bonds b hm
    rw [hr, parityAt_eq_bonds, hr]
    rfl

theorem alookup_stereo_parities_not (g : Graph) (key : SKey)
    (hm : ¬keyMem g key) :
    alookup (stereo_parities g) key = none := by
  cases key with
  | atm k =>
    show alookup (g.atoms.map (fun p => (SKey.atm p.1, p.2.par)) ++
      g.bonds.map (fun p => (SKey.bnd p.1, p.2.par))) (.atm k) = _
    rw [alookup_append, alookup_atm_map,
      alookup_none_of_not_mem g.atoms k hm, alookup_atm_in_bnd_map]
    rfl
  | bnd b =>
    show alookup (g.atoms.map (fun p => (SKey.atm p.1, p.2.par)) ++
      g.bonds.map (fun p => (SKey.bnd p.1, p.2.par))) (.bnd b) = _
    rw [alookup_append, alookup_bnd_in_atm_map, alookup_bnd_map,
      alookup_none_of_not_mem g.bonds b hm]
    rfl

theorem frame_mergeStereo : ∀ (rs : List Graph) (g0 : Graph),
    frame (mergeStereo rs g0) = frame g0
  | [], _ => rfl
  | r :: t, g0 => by
    show frame (mergeStereo t (set_stereo_parities g0 (stereo_parities r)))
      = frame g0
    rw [frame_mergeStereo t _, frame_set_stereo_parities]

theorem mergeStereo_parity_not_mem :
    ∀ (rs : List Graph) (g0 : Graph) (key : SKey), ¬keyMem g0 key →
      parityAt (mergeStereo rs g0) key = parityAt g0 key
  | [], _, _, _ => rfl
  | r :: t, g0, key, hm => by
    show parityAt (mergeStereo t
      (set_stereo_parities g0 (stereo_parities r))) key = _
    rw [mergeStereo_parity_not_mem t _ key (fun hx => hm
      ((keyMem_of_frame (frame_set_stereo_parities g0 _) key).mpr hx)),
      parityAt_set_not_mem g0 _ key hm]

theorem mergeStereo_parity_no_writer :
    ∀ (rs : List Graph) (g0 : Graph) (key : SKey),
      (∀ r ∈ rs, ¬keyMem r key) →
      parityAt (mergeStereo rs g0) key = parityAt g0 key
  | [], _, _, _ => rfl
  | r :: t, g0, key, hw => by
    show parityAt (mergeStereo t
      (set_stereo_parities g0 (stereo_parities r))) key = _
    rw [mergeStereo_parity_no_writer t _ key
        (fun r' hr' => hw r' (List.mem_cons_of_mem r hr')),
      parityAt_set_lookup_none g0 _ key
        (alookup_stereo_parities_not r key
          (hw r (List.mem_cons_self r t)))]

theorem mergeStereo_parity_writer (v : Option Bool) :
    ∀ (rs : List Graph) (g0 : Graph) (key : SKey),
      (∀ r ∈ rs, keyMem r key → parityAt r key = v) →
      keyMem g0 key →
      (∃ r ∈ rs, keyMem r key) →
      parityAt (mergeStereo rs g0) key = v
  | [], _, _, _, _, hex => absurd hex (by simp)
  | r :: t, g0, key, hco, hg0, hex => by
    show parityAt (mergeStereo t
      (set_stereo_parities g0 (stereo_parities r))) key = v
    by_cases hm : keyMem r key
    · have hset : parityAt (set_stereo_parities g0 (stereo_parities r)) key
          = v := by
        rw [parityAt_set_lookup_some g0 _ key _
          (alookup_stereo_parities_mem r key hm) hg0]
        exact hco r (List.mem_cons_self r t) hm
      by_cases hex2 : ∃ r' ∈ t, keyMem r' key
      · exact mergeStereo_parity_writer v t _ key
          (fun r' hr' => hco r' (List.mem_cons_of_mem r hr'))
          ((keyMem_of_frame (frame_set_stereo_parities g0 _) key).mp hg0)
          hex2
      · push_neg at hex2
        rw [mergeStereo_parity_no_writer t _ key hex2]
        exact hset
    · have hset : parityAt (set_stereo_parities g0 (stereo_parities r)) key
          = parityAt g0 key :=
        parityAt_set_lookup_none g0 _ key
          (alookup_stereo_parities_not r key hm)
      obtain ⟨r', hr', hm'⟩ := hex
      rcases List.mem_cons.mp hr' with he | hr'
      · exact absurd (he ▸ hm') hm
      · refine mergeStereo_parity_writer v t _ key
          (fun r'' hr'' => hco r'' (List.mem_cons_of_mem r hr''))
          ((keyMem_of_frame (frame_set_stereo_parities g0 _) key).mp hg0)
          ⟨r', hr', hm'⟩

theorem calc_fold_err (pe1? pe2? : Option PEval) (bt bb : Bool) (e : CErr) :
    ∀ (cs : List Graph),
      cs.foldl (fun (acc : Except CErr (PriDct × Graph)) (cgra : Graph) =>
        match acc with
        | Except.error e => Except.error e
        | Except.ok (pri_dct, gra2) =>
          match calculate_priorities_and_assign_stereo_comp cgra pe1? pe2?
              bt bb none with
          | Except.error e => Except.error e
          | Except.ok (cpri, cgra2) =>
            Except.ok (aupdate pri_dct cpri,
              set_stereo_parities gra2 (stereo_parities cgra2)))
        (.error e) = .error e
  | [] => rfl
  | _ :: t => calc_fold_err pe1? pe2? bt bb e t

theorem calc_fold_ok (pe1? pe2? : Option PEval) (bt bb : Bool) :
    ∀ (cs : List Graph) (p0 : PriDct) (A0 : Graph) (pf : PriDct)
      (Af : Graph),
      cs.foldl (fun (acc : Except CErr (PriDct × Graph)) (cgra : Graph) =>
        match acc with
        | Except.error e => Except.error e
        | Except.ok (pri_dct, gra2) =>
          match calculate_priorities_and_assign_stereo_comp cgra pe1? pe2?
              bt bb none with
          | Except.error e => Except.error e
          | Except.ok (cpri, cgra2) =>
            Except.ok (aupdate pri_dct cpri,
              set_stereo_parities gra2 (stereo_parities cgra2)))
        (.ok (p0, A0)) = .ok (pf, Af) →
      ∃ outs : List (PriDct × Graph),
        List.Forall₂ (fun c o =>
          calculate_priorities_and_assign_stereo_comp c pe1? pe2? bt bb none
            = .ok o) cs outs ∧
        Af = mergeStereo (outs.map Prod.snd) A0
  | [], p0, A0, pf, Af => by
    intro h
    injection h with h2
    simp only [Prod.mk.injEq] at h2
    exact ⟨[], List.Forall₂.nil, h2.2.symm⟩
  | c :: t, p0, A0, pf, Af => by
    intro h
    rw [List.foldl_cons] at h
    cases hc : calculate_priorities_and_assign_stereo_comp c pe1? pe2?
        bt bb none with
    | error e =>
      rw [hc] at h
      rw [calc_fold_err pe1? pe2? bt bb e t] at h
      simp at h
    | ok o =>
      obtain ⟨cpri, cgra2⟩ := o
      rw [hc] at h
      obtain ⟨outs, hfa, hAf⟩ := calc_fold_ok pe1? pe2? bt bb t
        (aupdate p0 cpri) (set_stereo_parities A0 (stereo_parities cgra2))
        pf Af h
      exact ⟨(cpri, cgra2) :: outs, List.Forall₂.cons hc hfa, hAf⟩

theorem calc_fold_build (pe1? pe2? : Option PEval) (bt bb : Bool) :
    ∀ (cs : List Graph) (outs : List (PriDct × Graph)),
      List.Forall₂ (fun c o =>
        calculate_priorities_and_assign_stereo_comp c pe1? pe2? bt bb none
          = .ok o) cs outs →
      ∀ (p0 : PriDct) (A0 : Graph), ∃ pf,
        cs.foldl (fun (acc : Except CErr (PriDct × Graph)) (cgra : Graph) =>
          match acc with
          | Except.error e => Except.error e
          | Except.ok (pri_dct, gra2) =>
            match calculate_priorities_and_assign_stereo_comp cgra pe1? pe2?
                bt bb none with
            | Except.error e => Except.error e
            | Except.ok (cpri, cgra2) =>
              Except.ok (aupdate pri_dct cpri,
                set_stereo_parities gra2 (stereo_parities cgra2)))
          (.ok (p0, A0)) = .ok (pf, mergeStereo (outs.map Prod.snd) A0)
  | [], _, hfa, p0, A0 => by
    cases hfa
    exact ⟨p0, rfl⟩
  | c :: t, _, hfa, p0, A0 => by
    cases hfa with
    | cons hc hrest =>
      next o outs =>
        rw [List.foldl_cons]
        obtain ⟨pf, heq⟩ := calc_fold_build pe1? pe2? bt bb t outs hrest
          (aupdate p0 o.1)
          (set_stereo_parities A0 (stereo_parities o.2))
        refine ⟨pf, ?_⟩
        rw [show calculate_priorities_and_assign_stereo_comp c pe1? pe2?
          bt bb none = .ok (o.1, o.2) from hc, heq]
        rfl

theorem component_keys_congr {g' g : Graph}
    (hA : atom_keys g' = atom_keys g)
    (hB : g'.bonds.map Prod.fst = g.bonds.map Prod.fst) (k : Nat) :
    component_keys g' k = component_keys g k := by
  have hstep : ∀ acc, closureStep g' acc = closureStep g acc := fun acc => by
    unfold closureStep
    rw [List.map_congr_left (fun a _ => atom_neighbor_keys_congr g g' hB a)]
  have hiter : ∀ fuel acc, closureIter g' fuel acc = closureIter g fuel acc := by
    intro fuel
    induction fuel with
    | zero => intro acc; rfl
    | succ n ih => intro acc; simp only [closureIter, hstep, ih]
  have hlen : g'.atoms.length = g.atoms.length := by
    have := congrArg List.length hA
    simpa [atom_keys] using this
  unfold component_keys
  rw [hlen, hiter]

theorem componentsAux_pair {g' g : Graph}
    (hA : atom_keys g' = atom_keys g)
    (hB : g'.bonds.map Prod.fst = g.bonds.map Prod.fst) :
    ∀ (rem seen : List Nat),
      List.Forall₂ (fun c' c => ∃ ks : List Nat,
        c' = subgraph g' ks ∧ c = subgraph g ks)
        (componentsAux g' rem seen) (componentsAux g rem seen)
  | [], _ => List.Forall₂.nil
  | k :: t, seen => by
    simp only [componentsAux]
    by_cases hks : k ∈ seen
    · rw [if_pos hks, if_pos hks]
      exact componentsAux_pair hA hB t seen
    · rw [if_neg hks, if_neg hks]
      rw [component_keys_congr hA hB k]
      exact List.Forall₂.cons ⟨component_keys g k, rfl, rfl⟩
        (componentsAux_pair hA hB t (seen ++ component_keys g k))

theorem componentsAux_disjoint (g : Graph) (hwf : g.Wf) :
    ∀ (rem seen : List Nat),
      (∀ k ∈ rem, k ∈ atom_keys g) →
      (∀ x ∈ seen, ∀ y, Reach g x y → y ∈ seen) →
      (∀ c ∈ componentsAux g rem seen, ∀ x, x ∈ atom_keys c → x ∉ seen) ∧
      List.Pairwise (fun c c' => ∀ x, x ∈ atom_keys c →
        x ∈ atom_keys c' → False) (componentsAux g rem seen)
  | [], seen, _, _ => ⟨fun c hc => absurd hc (List.not_mem_nil _), .nil⟩
  | k :: t, seen, hrem, hcl => by
    have hk : k ∈ atom_keys g := hrem k (List.mem_cons_self k t)
    simp only [componentsAux]
    by_cases hks : k ∈ seen
    · rw [if_pos hks]
      exact componentsAux_disjoint g hwf t seen
        (fun x hx => hrem x (List.mem_cons_of_mem k hx)) hcl
    · rw [if_neg hks]
      have hsound : ∀ x ∈ component_keys g k, Reach g k x :=
        fun x hx => component_keys_sound g k x hx
      have hcl' : ∀ x ∈ seen ++ component_keys g k, ∀ y,
          Reach g x y → y ∈ seen ++ component_keys g k := by
        intro x hx y hr
        rcases List.mem_append.mp hx with hx | hx
        · exact List.mem_append_left _ (hcl x hx y hr)
        · exact List.mem_append_right _ (component_keys_complete g hwf hk
            ((hsound x hx).trans hr))
      have hnotseen : ∀ x ∈ component_keys g k, x ∉ seen := by
        intro x hx hxs
        exact hks (hcl x hxs k (reach_symm g (hsound x hx)))
      obtain ⟨ih1, ih2⟩ := componentsAux_disjoint g hwf t
        (seen ++ component_keys g k)
        (fun x hx => hrem x (List.mem_cons_of_mem k hx)) hcl'
      constructor
      · intro c hc x hx
        rcases List.mem_cons.mp hc with he | hc
        · subst he
          exact hnotseen x ((mem_atom_keys_subgraph g _ x).mp hx).2
        · intro hxs
          exact ih1 c hc x hx (List.mem_append_left _ hxs)
      · refine List.Pairwise.cons ?_ ih2
        intro c hc x hx1 hx2
        have hxck : x ∈ component_keys g k :=
          ((mem_atom_keys_subgraph g _ x).mp hx1).2
        exact ih1 c hc x hx2 (List.mem_append_right _ hxck)

theorem keyMem_disjoint (c c' : Graph) (hwfc : c.Wf) (hwfc' : c'.Wf)
    (hdis : ∀ x, x ∈ atom_keys c → x ∈ atom_keys c' → False) (key : SKey) :
    keyMem c key → keyMem c' key → False := by
  cases key with
  | atm k => exact fun h1 h2 => hdis k h1 h2
  | bnd b =>
    intro h1 h2
    obtain ⟨p, hp, he⟩ := List.mem_map.mp h1
    obtain ⟨q, hq, he'⟩ := List.mem_map.mp h2
    refine hdis b.1 ?_ ?_
    · have := (hwfc.2.2 p hp).2.1
      rw [he] at this
      exact this
    · have := (hwfc'.2.2 q hq).2.1
      rw [he'] at this
      exact this

theorem comp_frames (cG : Graph) (hts : is_ts_graph cG = false)
    (pri1 : PriDct) (R : Graph)
    (hrun : calculate_priorities_and_assign_stereo_comp cG
      (some .readCanonical) (some .flipLocal) false false none
      = .ok (pri1, R)) :
    frame R = frame cG := by
  simp only [calculate_priorities_and_assign_stereo_comp,
    Option.getD_some] at hrun
  cases halgo : algo .readCanonical .flipLocal cG none false with
  | error e => rw [halgo] at hrun; simp at hrun
  | ok t =>
    obtain ⟨pri0, gra1, gra2⟩ := t
    rw [halgo] at hrun
    simp only [hts, Bool.false_eq_true, if_false] at hrun
    simp only [Except.ok.injEq, Prod.mk.injEq] at hrun
    obtain ⟨-, hR⟩ := hrun
    simp only [algo, Bool.false_eq_true, if_false] at halgo
    cases hloop : algoLoop .readCanonical .flipLocal cG (algo_fuel cG)
        none none (without_stereo cG) (without_stereo cG) with
    | error e => rw [hloop] at halgo; simp at halgo
    | ok t2 =>
      obtain ⟨priL, g1f, g2af⟩ := t2
      rw [hloop] at halgo
      simp only [Except.ok.injEq, Prod.mk.injEq] at halgo
      obtain ⟨-, -, hg2⟩ := halgo
      subst hg2
      subst hR
      obtain ⟨-, hfr2⟩ := algoLoop_frames .readCanonical .flipLocal cG
        (algo_fuel cG) none none (without_stereo cG) (without_stereo cG)
        priL g1f g2af hloop
      rw [hfr2, frame_without_stereo]

theorem frame_wda_congr {g' g : Graph} (hf : frame g' = frame g) :
    frame (without_dummy_atoms g') = frame (without_dummy_atoms g) := by
  have hdk : (g'.atoms.filter (fun p => p.2.symb = "X")).map Prod.fst =
      (g.atoms.filter (fun p => p.2.symb = "X")).map Prod.fst := by
    refine paired_filter_map (fun r : AtomRow => (r.symb, r.hcnt))
      g'.atoms g.atoms (frame_atoms hf) _ _ _ _ ?_
    intro p q h1 h2
    simp only [Prod.mk.injEq] at h2
    exact ⟨by rw [h2.1], h1⟩
  unfold frame without_dummy_atoms
  congr 1
  · refine paired_filter_map (fun r : AtomRow => (r.symb, r.hcnt))
      g'.atoms g.atoms (frame_atoms hf) _ _ _ _ ?_
    intro p q h1 h2
    simp only [Prod.mk.injEq] at h2
    refine ⟨by rw [h2.1], ?_⟩
    show (p.1, p.2.symb, p.2.hcnt) = (q.1, q.2.symb, q.2.hcnt)
    rw [h1, h2.1, h2.2]
  · refine paired_filter_map_keyed BondRow.ord g'.bonds g.bonds
      (frame_bonds hf) _ _ _ _ ?_
    intro p q h1 h2
    refine ⟨by rw [h1, hdk], ?_⟩
    show (p.1, p.2.ord) = (q.1, q.2.ord)
    rw [h1, h2]

theorem mem_atom_stereo_keys_iff (g : Graph) (hwf : g.Wf) (k : Nat) :
    k ∈ atom_stereo_keys g ↔ parityAt g (.atm k) ≠ none := by
  rw [parityAt_eq_atoms]
  constructor
  · intro h
    obtain ⟨p, hp, rfl⟩ := List.mem_map.mp h
    have hmem := List.mem_of_mem_filter hp
    have hpar : p.2.par ≠ none := by
      have := (List.mem_filter.mp hp).2
      simpa using this
    rw [alookup_of_nodup g.atoms (wf_atom_keys_nodup g hwf) p.1 p.2 hmem]
    simpa using hpar
  · intro h
    cases ha : alookup g.atoms k with
    | none => rw [ha] at h; simp at h
    | some r =>
      rw [ha] at h
      simp only [Option.map_some', Option.getD_some] at h
      refine List.mem_map.mpr ⟨(k, r), List.mem_filter.mpr
        ⟨alookup_mem _ _ _ ha, by simpa using h⟩, rfl⟩

theorem mem_bond_stereo_keys_iff (g : Graph) (hwf : g.Wf) (b : Nat × Nat) :
    b ∈ bond_stereo_keys g ↔ parityAt g (.bnd b) ≠ none := by
  rw [parityAt_eq_bonds]
  constructor
  · intro h
    obtain ⟨p, hp, rfl⟩ := List.mem_map.mp h
    have hmem := List.mem_of_mem_filter hp
    have hpar : p.2.par ≠ none := by
      have := (List.mem_filter.mp hp).2
      simpa using this
    rw [alookup_of_nodup g.bonds (wf_bond_keys_nodup g hwf) p.1 p.2 hmem]
    simpa using hpar
  · intro h
    cases ha : alookup g.bonds b with
    | none => rw [ha] at h; simp at h
    | some r =>
      rw [ha] at h
      simp only [Option.map_some', Option.getD_some] at h
      refine List.mem_map.mpr ⟨(b, r), List.mem_filter.mpr
        ⟨alookup_mem _ _ _ ha, by simpa using h⟩, rfl⟩

theorem has_stereo_eq (G L : Graph) (hwfG : G.Wf) (hwfL : L.Wf)
    (hH : ∀ key, parityAt L key = none ↔ parityAt G key = none) :
    has_stereo L = has_stereo G := by
  have hA : (atom_stereo_keys L = []) ↔ (atom_stereo_keys G = []) := by
    rw [List.eq_nil_iff_forall_not_mem, List.eq_nil_iff_forall_not_mem]
    constructor
    · intro h k hk
      have := (mem_atom_stereo_keys_iff G hwfG k).mp hk
      exact this ((hH (.atm k)).mp (by
        by_contra hne
        exact h k ((mem_atom_stereo_keys_iff L hwfL k).mpr hne)))
    · intro h k hk
      have := (mem_atom_stereo_keys_iff L hwfL k).mp hk
      exact this ((hH (.atm k)).mpr (by
        by_contra hne
        exact h k ((mem_atom_stereo_keys_iff G hwfG k).mpr hne)))
  have hB : (bond_stereo_keys L = []) ↔ (bond_stereo_keys G = []) := by
    rw [List.eq_nil_iff_forall_not_mem, List.eq_nil_iff_forall_not_mem]
    constructor
    · intro h b hb
      have := (mem_bond_stereo_keys_iff G hwfG b).mp hb
      exact this ((hH (.bnd b)).mp (by
        by_contra hne
        exact h b ((mem_bond_stereo_keys_iff L hwfL b).mpr hne)))
    · intro h b hb
      have := (mem_bond_stereo_keys_iff L hwfL b).mp hb
      exact this ((hH (.bnd b)).mpr (by
        by_contra hne
        exact h b ((mem_bond_stereo_keys_iff G hwfG b).mpr hne)))
  have hA2 : (atom_stereo_keys L).isEmpty = (atom_stereo_keys G).isEmpty := by
    rw [Bool.eq_iff_iff, List.isEmpty_iff, List.isEmpty_iff]
    exact hA
  have hB2 : (bond_stereo_keys L).isEmpty = (bond_stereo_keys G).isEmpty := by
    rw [Bool.eq_iff_iff, List.isEmpty_iff, List.isEmpty_iff]
    exact hB
  unfold has_stereo
  rw [hA2, hB2]

theorem keyMem_wda (g : Graph) (key : SKey) :
    keyMem (without_dummy_atoms g) key → keyMem g key := by
  cases key with
  | atm k =>
    intro h
    obtain ⟨p, hp, rfl⟩ := List.mem_map.mp h
    exact List.mem_map.mpr ⟨p, List.mem_of_mem_filter hp, rfl⟩
  | bnd b =>
    intro h
    obtain ⟨p, hp, rfl⟩ := List.mem_map.mp h
    exact List.mem_map.mpr ⟨p, List.mem_of_mem_filter hp, rfl⟩

theorem frame_subgraph_congr {g' g : Graph} (hf : frame g' = frame g)
    (ks : List Nat) :
    frame (subgraph g' ks) = frame (subgraph g ks) := by
  unfold frame subgraph
  congr 1
  · refine paired_filter_map (fun r : AtomRow => (r.symb, r.hcnt))
      g'.atoms g.atoms (frame_atoms hf) _ _ _ _ ?_
    intro p q h1 h2
    simp only [Prod.mk.injEq] at h2
    refine ⟨by rw [h1], ?_⟩
    show (p.1, p.2.symb, p.2.hcnt) = (q.1, q.2.symb, q.2.hcnt)
    rw [h1, h2.1, h2.2]
  · refine paired_filter_map_keyed BondRow.ord g'.bonds g.bonds
      (frame_bonds hf) _ _ _ _ ?_
    intro p q h1 h2
    refine ⟨by rw [h1], ?_⟩
    show (p.1, p.2.ord) = (q.1, q.2.ord)
    rw [h1, h2]

theorem forall₂_mem_right {α β : Type} {P : α → β → Prop} :
    ∀ {l1 : List α} {l2 : List β}, List.Forall₂ P l1 l2 →
      ∀ y ∈ l2, ∃ x ∈ l1, P x y := by
  intro l1 l2 h
  induction h with
  | nil => intro y hy; simp at hy
  | cons hpq _ ih =>
    intro y hy
    rcases List.mem_cons.mp hy with he | hy
    · subst he
      exact ⟨_, List.mem_cons_self _ _, hpq⟩
    · obtain ⟨x, hx, hp⟩ := ih y hy
      exact ⟨x, List.mem_cons_of_mem _ hx, hp⟩

theorem forall₂_mem_left {α β : Type} {P : α → β → Prop} :
    ∀ {l1 : List α} {l2 : List β}, List.Forall₂ P l1 l2 →
      ∀ x ∈ l1, ∃ y ∈ l2, P x y := by
  intro l1 l2 h
  induction h with
  | nil => intro x hx; simp at hx
  | cons hpq _ ih =>
    intro x hx
    rcases List.mem_cons.mp hx with he | hx
    · subst he
      exact ⟨_, List.mem_cons_self _ _, hpq⟩
    · obtain ⟨y, hy, hp⟩ := ih x hx
      exact ⟨y, List.mem_cons_of_mem _ hy, hp⟩

theorem is_ts_empties_of_false (g : Graph) (hts : is_ts_graph g = false) :
    ts_forming_bond_keys g = [] ∧ ts_breaking_bond_keys g = [] := by
  unfold is_ts_graph at hts
  rw [Bool.or_eq_false_iff] at hts
  constructor
  · have h1 : (ts_forming_bond_keys g).isEmpty = true := by
      cases he : (ts_forming_bond_keys g).isEmpty with
      | true => rfl
      | false => rw [he] at hts; simp at hts
    exact List.isEmpty_iff.mp h1
  · have h1 : (ts_breaking_bond_keys g).isEmpty = true := by
      cases he : (ts_breaking_bond_keys g).isEmpty with
      | true => rfl
      | false => rw [he] at hts; simp at hts
    exact List.isEmpty_iff.mp h1

theorem is_ts_graph_of_subrows (c g : Graph)
    (hsub : ∀ p ∈ c.bonds, p ∈ g.bonds)
    (hts : is_ts_graph g = false) : is_ts_graph c = false := by
  have hf := is_ts_empties_of_false g hts
  have h1 : ts_forming_bond_keys c = [] := by
    unfold ts_forming_bond_keys
    rw [List.map_eq_nil, List.filter_eq_nil]
    intro p hp hord
    have hmem : p.1 ∈ ts_forming_bond_keys g :=
      List.mem_map.mpr ⟨p, List.mem_filter.mpr ⟨hsub p hp, hord⟩, rfl⟩
    rw [hf.1] at hmem
    exact absurd hmem (List.not_mem_nil _)
  have h2 : ts_breaking_bond_keys c = [] := by
    unfold ts_breaking_bond_keys
    rw [List.map_eq_nil, List.filter_eq_nil]
    intro p hp hord
    have hmem : p.1 ∈ ts_breaking_bond_keys g :=
      List.mem_map.mpr ⟨p, List.mem_filter.mpr ⟨hsub p hp, hord⟩, rfl⟩
    rw [hf.2] at hmem
    exact absurd hmem (List.not_mem_nil _)
  unfold is_ts_graph
  rw [h1, h2]
  rfl

/-- Top-level coupling: if the canonical→local driver succeeds on a
non-TS graph whose discovered stereocenters are all assigned, and the
local result `L` has exactly the assigned stereocenters of `G`, then the
local→canonical driver on `L` returns `G`. -/
theorem calculate_couple (G L : Graph) (hwfG : G.Wf)
    (htsG : is_ts_graph G = false)
    (hchk : discovered_keys_assigned G = true)
    (pri1 : PriDct)
    (hrun : calculate_priorities_and_assign_stereo G
      (some .readCanonical) (some .flipLocal) false false none
      = .ok (pri1, L))
    (hH : ∀ key, parityAt L key = none ↔ parityAt G key = none) :
    ∃ pri2, calculate_priorities_and_assign_stereo L
      (some .flipLocal) (some .flipLocal) false false none
      = .ok (pri2, G) := by
  simp only [calculate_priorities_and_assign_stereo, Option.map_none'] at hrun
  obtain ⟨outs, hfa, hL⟩ := calc_fold_ok (some .readCanonical)
    (some .flipLocal) false false
    (connected_components (without_dummy_atoms G))
    [] (without_stereo G) pri1 L hrun
  have hfrL : frame L = frame G := by
    rw [hL, frame_mergeStereo, frame_without_stereo]
  have hwfL : L.Wf := wf_of_frame hfrL hwfG
  have hwfWG : (without_dummy_atoms G).Wf := without_dummy_atoms_wf G hwfG
  have hwfWL : (without_dummy_atoms L).Wf := without_dummy_atoms_wf L hwfL
  have hfrW : frame (without_dummy_atoms L) = frame (without_dummy_atoms G) :=
    frame_wda_congr hfrL
  have hA : atom_keys (without_dummy_atoms L) =
      atom_keys (without_dummy_atoms G) := frame_atom_keys hfrW
  have hB : (without_dummy_atoms L).bonds.map Prod.fst =
      (without_dummy_atoms G).bonds.map Prod.fst := frame_bond_fst hfrW
  have hpair : List.Forall₂ (fun c' c => ∃ ks : List Nat,
      c' = subgraph (without_dummy_atoms L) ks ∧
      c = subgraph (without_dummy_atoms G) ks)
      (connected_components (without_dummy_atoms L))
      (connected_components (without_dummy_atoms G)) := by
    unfold connected_components
    rw [hA]
    exact componentsAux_pair hA hB (atom_keys (without_dummy_atoms G)) []
  have hdisj : List.Pairwise (fun c c' => ∀ x, x ∈ atom_keys c →
      x ∈ atom_keys c' → False)
      (connected_components (without_dummy_atoms G)) :=
    (componentsAux_disjoint (without_dummy_atoms G) hwfWG
      (atom_keys (without_dummy_atoms G)) [] (fun _ hk => hk)
      (fun x hx => absurd hx (List.not_mem_nil _))).2
  have hcwf : ∀ c ∈ connected_components (without_dummy_atoms G), c.Wf :=
    fun c hc => (connected_components_props _ hwfWG c hc).2.1
  have hcsub : ∀ c ∈ connected_components (without_dummy_atoms G),
      ∀ p ∈ c.bonds, p ∈ G.bonds := by
    intro c hc p hp
    obtain ⟨k, -, rfl⟩ := componentsAux_mem _ _ _ c hc
    exact List.mem_of_mem_filter (List.mem_of_mem_filter hp)
  have hcts : ∀ c ∈ connected_components (without_dummy_atoms G),
      is_ts_graph c = false :=
    fun c hc => is_ts_graph_of_subrows c G (hcsub c hc) htsG
  have hcchk : ∀ c ∈ connected_components (without_dummy_atoms G),
      algoLoopAsg c (algo_fuel c) none none (without_stereo c) = true := by
    intro c hc
    exact List.all_eq_true.mp hchk c hc
  have hckeyG : ∀ c ∈ connected_components (without_dummy_atoms G),
      ∀ key, keyMem c key → keyMem G key := by
    intro c hc key hk
    obtain ⟨k, -, rfl⟩ := componentsAux_mem _ _ _ c hc
    exact keyMem_wda G key (keyMem_subgraph _ _ key hk)
  have hcpar : ∀ c ∈ connected_components (without_dummy_atoms G),
      ∀ key, keyMem c key → parityAt c key = parityAt G key := by
    intro c hc key hk
    obtain ⟨k, -, rfl⟩ := componentsAux_mem _ _ _ c hc
    rw [parityAt_subgraph _ hwfWG _ key hk,
      parityAt_wda G hwfG key (keyMem_subgraph _ _ key hk)]
  have hofr : ∀ c ∈ connected_components (without_dummy_atoms G), ∀
      (o : PriDct × Graph),
      calculate_priorities_and_assign_stereo_comp c
        (some .readCanonical) (some .flipLocal) false false none
        = .ok o → frame o.2 = frame c := by
    intro c hc o ho
    exact comp_frames c (hcts c hc) o.1 o.2 ho
  have hmemo : ∀ c ∈ connected_components (without_dummy_atoms G), ∀
      (o : PriDct × Graph),
      calculate_priorities_and_assign_stereo_comp c
        (some .readCanonical) (some .flipLocal) false false none
        = .ok o → o ∈ outs := by
    intro c hc o ho
    obtain ⟨o2, ho2, hP⟩ := forall₂_mem_left hfa c hc
    rw [hP] at ho
    injection ho with ho
    rw [← ho]
    exact ho2
  have hGj : ∀ c ∈ connected_components (without_dummy_atoms G), ∀
      (o : PriDct × Graph),
      calculate_priorities_and_assign_stereo_comp c
        (some .readCanonical) (some .flipLocal) false false none
        = .ok o → ∀ key, keyMem o.2 key →
        parityAt L key = parityAt o.2 key := by
    intro c hc o ho key hk
    have hkc : keyMem c key :=
      (keyMem_of_frame (hofr c hc o ho) key).mpr hk
    rw [hL]
    refine mergeStereo_parity_writer (parityAt o.2 key) _ _ key ?_ ?_ ?_
    · intro r hr hkr
      obtain ⟨o2, ho2, rfl⟩ := List.mem_map.mp hr
      obtain ⟨c2, hc2, hP⟩ := forall₂_mem_right hfa o2 ho2
      have hkc2 : keyMem c2 key :=
        (keyMem_of_frame (hofr c2 hc2 o2 hP) key).mpr hkr
      have hcc2 : c2 = c := by
        by_contra hne
        have hsym : Symmetric (fun c c' : Graph =>
            ∀ x, x ∈ atom_keys c → x ∈ atom_keys c' → False) :=
          fun cx cy h x hx hy => h x hy hx
        exact keyMem_disjoint c2 c (hcwf c2 hc2) (hcwf c hc)
          (List.Pairwise.forall hsym hdisj hc2 hc hne) key hkc2 hkc
      subst hcc2
      rw [hP] at ho
      injection ho with ho
      rw [ho]
    · have hkG : keyMem G key := hckeyG c hc key hkc
      exact (keyMem_of_frame (frame_without_stereo G) key).mp hkG
    · exact ⟨o.2, List.mem_map.mpr ⟨o, hmemo c hc o ho, rfl⟩, hk⟩
  have hnnc : ∀ c ∈ connected_components (without_dummy_atoms G), ∀
      (o : PriDct × Graph),
      calculate_priorities_and_assign_stereo_comp c
        (some .readCanonical) (some .flipLocal) false false none
        = .ok o → ∀ key,
        parityAt o.2 key = none ↔ parityAt c key = none := by
    intro c hc o ho key
    by_cases hm : keyMem c key
    · have hko : keyMem o.2 key :=
        (keyMem_of_frame (hofr c hc o ho) key).mp hm
      rw [← hGj c hc o ho key hko, hcpar c hc key hm]
      exact hH key
    · have hko : ¬keyMem o.2 key := fun hx =>
        hm ((keyMem_of_frame (hofr c hc o ho) key).mpr hx)
      rw [parityAt_none_of_not_mem _ _ hko, parityAt_none_of_not_mem _ _ hm]
  have hcc : ∀ c ∈ connected_components (without_dummy_atoms G), ∀
      (o : PriDct × Graph),
      calculate_priorities_and_assign_stereo_comp c
        (some .readCanonical) (some .flipLocal) false false none
        = .ok o →
      ∃ pri2, calculate_priorities_and_assign_stereo_comp o.2
        (some .flipLocal) (some .flipLocal) false false none
        = .ok (pri2, c) := by
    intro c hc o ho
    exact (comp_couple c (hcwf c hc) (hcts c hc) (hcchk c hc) o.1 o.2 ho
      (hnnc c hc o ho)).2
  have hid : ∀ (c' c : Graph) (o : PriDct × Graph),
      (∃ ks : List Nat, c' = subgraph (without_dummy_atoms L) ks ∧
        c = subgraph (without_dummy_atoms G) ks) →
      c ∈ connected_components (without_dummy_atoms G) →
      calculate_priorities_and_assign_stereo_comp c
        (some .readCanonical) (some .flipLocal) false false none
        = .ok o → c' = o.2 := by
    rintro c' c o ⟨ks, hc', hcg⟩ hc ho
    have hwfo : o.2.Wf := wf_of_frame (hofr c hc o ho) (hcwf c hc)
    have hfrc' : frame c' = frame c := by
      rw [hc', hcg]
      exact frame_subgraph_congr hfrW ks
    refine graph_eq_of_frame_parity hwfo ?_ ?_
    · rw [hfrc', ← hofr c hc o ho]
    · intro key
      by_cases hm : keyMem c' key
      · have hm2 : keyMem (subgraph (without_dummy_atoms L) ks) key :=
          hc' ▸ hm
        have e1 : parityAt c' key = parityAt L key := by
          rw [hc', parityAt_subgraph _ hwfWL ks key hm2,
            parityAt_wda L hwfL key (keyMem_subgraph _ _ key hm2)]
        have hkc : keyMem c key := (keyMem_of_frame hfrc' key).mpr hm
        have hko : keyMem o.2 key :=
          (keyMem_of_frame (hofr c hc o ho) key).mp hkc
        rw [e1, hGj c hc o ho key hko]
      · have hko : ¬keyMem o.2 key := by
          intro hx
          have hkc := (keyMem_of_frame (hofr c hc o ho) key).mpr hx
          exact hm ((keyMem_of_frame hfrc' key).mp hkc)
        rw [parityAt_none_of_not_mem _ _ hm,
          parityAt_none_of_not_mem _ _ hko]
  have hbuild : ∀ (cs' : List Graph) (cs : List Graph)
      (os : List (PriDct × Graph)),
      List.Forall₂ (fun c' c => ∃ ks : List Nat,
        c' = subgraph (without_dummy_atoms L) ks ∧
        c = subgraph (without_dummy_atoms G) ks) cs' cs →
      List.Forall₂ (fun c o =>
        calculate_priorities_and_assign_stereo_comp c
          (some .readCanonical) (some .flipLocal) false false none
          = .ok o) cs os →
      (∀ c ∈ cs, c ∈ connected_components (without_dummy_atoms G)) →
      ∃ os2 : List (PriDct × Graph),
        List.Forall₂ (fun c' o2 =>
          calculate_priorities_and_assign_stereo_comp c'
            (some .flipLocal) (some .flipLocal) false false none
            = .ok o2) cs' os2 ∧
        os2.map Prod.snd = cs := by
    intro cs'
    induction cs' with
    | nil =>
      intro cs os hq hp _
      cases hq
      exact ⟨[], .nil, rfl⟩
    | cons c' cst' ih =>
      intro cs os hq hp hmem
      cases hq with
      | cons hq1 hqrest =>
        next c cst =>
          cases hp with
          | cons hp1 hprest =>
            next o ost =>
              have hcm : c ∈ connected_components (without_dummy_atoms G) :=
                hmem c (List.mem_cons_self _ _)
              obtain ⟨pri2, hcomp2⟩ := hcc c hcm o hp1
              have hce : c' = o.2 := hid c' c o hq1 hcm hp1
              obtain ⟨os2, hfa2, hmap⟩ := ih cst ost hqrest hprest
                (fun x hx => hmem x (List.mem_cons_of_mem c hx))
              refine ⟨(pri2, c) :: os2, .cons ?_ hfa2, ?_⟩
              · rw [hce]
                exact hcomp2
              · simp [hmap]
  obtain ⟨os2, hfa2, hmap⟩ := hbuild
    (connected_components (without_dummy_atoms L))
    (connected_components (without_dummy_atoms G)) outs hpair hfa
    (fun c hc => hc)
  have hfinal : mergeStereo (connected_components (without_dummy_atoms G))
      (without_stereo L) = G := by
    refine graph_eq_of_frame_parity hwfG ?_ ?_
    · rw [frame_mergeStereo, frame_without_stereo, hfrL]
    · intro key
      by_cases hw : ∃ c ∈ connected_components (without_dummy_atoms G),
          keyMem c key
      · obtain ⟨c, hc, hkc⟩ := hw
        refine mergeStereo_parity_writer (parityAt G key) _ _ key
          (fun r hr hkr => hcpar r hr key hkr) ?_ ⟨c, hc, hkc⟩
        have hkG : keyMem G key := hckeyG c hc key hkc
        have hkL : keyMem L key := (keyMem_of_frame hfrL key).mp hkG
        exact (keyMem_of_frame (frame_without_stereo L) key).mp hkL
      · push_neg at hw
        rw [mergeStereo_parity_no_writer _ _ key hw, parityAt_without_stereo]
        have hnow : ∀ r ∈ outs.map Prod.snd, ¬keyMem r key := by
          intro r hr hkr
          obtain ⟨o2, ho2, rfl⟩ := List.mem_map.mp hr
          obtain ⟨c2, hc2, hP⟩ := forall₂_mem_right hfa o2 ho2
          exact hw c2 hc2
            ((keyMem_of_frame (hofr c2 hc2 o2 hP) key).mpr hkr)
        have hLnone : parityAt L key = none := by
          rw [hL, mergeStereo_parity_no_writer _ _ key hnow,
            parityAt_without_stereo]
        exact ((hH key).mp hLnone).symm
  simp only [calculate_priorities_and_assign_stereo, Option.map_none']
  obtain ⟨pf, heq⟩ := calc_fold_build (some .flipLocal) (some .flipLocal)
    false false (connected_components (without_dummy_atoms L)) os2 hfa2
    [] (without_stereo L)
  refine ⟨pf, ?_⟩
  rw [heq, hmap, hfinal]

theorem calculate_frames (G : Graph) (pe1? pe2? : Option PEval)
    (pri1 : PriDct) (L : Graph)
    (hrun : calculate_priorities_and_assign_stereo G pe1? pe2?
      false false none = .ok (pri1, L)) :
    frame L = frame G := by
  simp only [calculate_priorities_and_assign_stereo, Option.map_none'] at hrun
  obtain ⟨outs, -, hL⟩ := calc_fold_ok pe1? pe2? false false
    (connected_components (without_dummy_atoms G)) [] (without_stereo G)
    pri1 L hrun
  rw [hL, frame_mergeStereo, frame_without_stereo]

/-- The local/canonical round trip, assembled: a successful
`to_local_stereo` on a well-formed, non-TS graph whose discovered
stereocenters are assigned, preserving the assigned-stereocenter key sets,
is inverted by `from_local_stereo`. -/
theorem to_from_local (G L : Graph) (hwf : G.Wf)
    (hts : is_ts_graph G = false)
    (hchk : discovered_keys_assigned G = true)
    (hrun : to_local_stereo G none = .ok L)
    (hA : atom_stereo_keys L = atom_stereo_keys G)
    (hB : bond_stereo_keys L = bond_stereo_keys G) :
    from_local_stereo L none = .ok G := by
  simp only [to_local_stereo, Option.map_none'] at hrun
  by_cases hhs : has_stereo G = true
  · rw [if_pos hhs] at hrun
    cases hc : calculate_priorities_and_assign_stereo G
        (some .readCanonical) (some .flipLocal) false false none with
    | error e => rw [hc] at hrun; simp at hrun
    | ok t =>
      obtain ⟨p1, loc⟩ := t
      rw [hc] at hrun
      simp only [Except.ok.injEq] at hrun
      subst hrun
      have hfrL : frame loc = frame G := calculate_frames G _ _ p1 loc hc
      have hwfL : loc.Wf := wf_of_frame hfrL hwf
      have hH : ∀ key, parityAt loc key = none ↔ parityAt G key = none := by
        intro key
        cases key with
        | atm k =>
          have h1 := mem_atom_stereo_keys_iff loc hwfL k
          have h2 := mem_atom_stereo_keys_iff G hwf k
          constructor
          · intro hx
            by_contra hne
            have hm := h2.mpr hne
            rw [← hA] at hm
            exact (h1.mp hm) hx
          · intro hx
            by_contra hne
            have hm := h1.mpr hne
            rw [hA] at hm
            exact (h2.mp hm) hx
        | bnd b =>
          have h1 := mem_bond_stereo_keys_iff loc hwfL b
          have h2 := mem_bond_stereo_keys_iff G hwf b
          constructor
          · intro hx
            by_contra hne
            have hm := h2.mpr hne
            rw [← hB] at hm
            exact (h1.mp hm) hx
          · intro hx
            by_contra hne
            have hm := h1.mpr hne
            rw [hB] at hm
            exact (h2.mp hm) hx
      obtain ⟨pri2, hc2⟩ := calculate_couple G loc hwf hts hchk p1 hc hH
      simp only [from_local_stereo, Option.map_none']
      rw [if_pos (by rw [has_stereo_eq G loc hwf hwfL hH]; exact hhs), hc2]
  · rw [if_neg hhs] at hrun
    simp only [Except.ok.injEq] at hrun
    subst hrun
    simp only [from_local_stereo, Option.map_none']
    rw [if_neg hhs]

/-- Partial round-trip result for the canonical↔local stereo converters.
Round trip: on a well-formed non-TS graph `G` with canonical stereo
parities — every stereocenter the canonicalization discovers carries an
assigned parity, and the conversion preserves the assigned atom- and
bond-stereocenter key sets — a successful `to_local_stereo(G) = L` is
undone exactly: `from_local_stereo(L) = G`.  Self-inverse evaluator:
overwriting a stereocenter's parity with its flip-local image and
evaluating flip-local again at the same priorities returns the original
parity.  The TS-graph case of the round trip (forming/breaking bonds,
where the driver compares the two reaction directions) is not covered. -/
theorem local_stereo_roundtrip :
    (∀ (G L : Graph), G.Wf → is_ts_graph G = false →
      discovered_keys_assigned G = true →
      to_local_stereo G none = .ok L →
      atom_stereo_keys L = atom_stereo_keys G →
      bond_stereo_keys L = bond_stereo_keys G →
      from_local_stereo L none = .ok G) ∧
    (∀ (g : Graph) (pri : PriDct) (key : SKey) (b : Bool), g.Wf →
      parityAt g key = some b →
      peval .flipLocal
        (set_stereo_parities g [(key, peval .flipLocal g pri key)]) pri key
        = some b) :=
  ⟨fun G L hwf hts hchk hrun hA hB =>
      to_from_local G L hwf hts hchk hrun hA hB,
    fun g pri key b hwf hpar => flip_local_self_inverse g hwf pri key b hpar⟩

/-- The round-trip theorem at the concrete chiral example `gChiral`: each
hypothesis is discharged by computation, and the theorem yields the round
trip back to `gChiral` and the double-flip at its stereocenter. -/
theorem local_stereo_roundtrip_witness :
    (gChiral.Wf ∧ is_ts_graph gChiral = false ∧
     discovered_keys_assigned gChiral = true ∧
     to_local_stereo gChiral none = .ok gChiralLoc ∧
     atom_stereo_keys gChiralLoc = atom_stereo_keys gChiral ∧
     bond_stereo_keys gChiralLoc = bond_stereo_keys gChiral ∧
     parityAt gChiral (.atm 0) = some true) ∧
    from_local_stereo gChiralLoc none = .ok gChiral ∧
    peval .flipLocal
      (set_stereo_parities gChiral
        [(SKey.atm 0, peval .flipLocal gChiral [] (SKey.atm 0))]) []
      (SKey.atm 0) = some true :=
  ⟨⟨by decide, by decide, by decide, by decide, by decide, by decide,
      by decide⟩,
    local_stereo_roundtrip.1 gChiral gChiralLoc (by decide) (by decide)
      (by decide) (by decide) (by decide) (by decide),
    local_stereo_roundtrip.2 gChiral [] (SKey.atm 0) true (by decide)
      (by decide)⟩

end Autochem
